import Mathlib

/-!
Shallow embedding of the talonfmt formatting engine
(`src/talonfmt/formatter.py` and `src/talonfmt/extra.py`) and proofs of the
frozen claims about it.

The AST kinds mirror the `tree_sitter_talon` node classes consumed by the
formatter; every node carries the `text`, `type_name`, `start_position`,
`end_position` fields of the Python dataclasses plus its typed fields and
`children` list.  The `Doc` type mirrors the `doc_printer` IR used by the
formatter.  Exceptions (`ParseError`, `TypeError`, `AssertionError`) become an
`Except` error type; the translator's one piece of mutable state, the comment
buffer `_comment_buffer`, is threaded explicitly.
-/

/-- Point mirrors a tree-sitter source position (row, column). -/
structure Point where
  row : Nat
  col : Nat
deriving DecidableEq, Repr

/-- NodeInfo carries the four common fields of every `tree_sitter_talon` node:
`text`, `type_name`, `start_position`, `end_position`. -/
structure NodeInfo where
  text : String
  typeName : String
  startPosition : Point
  endPosition : Point
deriving DecidableEq, Repr

/-- TalonNode is the AST consumed by the formatter.  Constructors mirror the
`tree_sitter_talon` classes the formatter dispatches on; typed fields
(`key`, `pattern`, `tag`, `rule`, `script`, `left`, `right`, `expression`)
mirror the Python dataclass fields, and each node also has its `children`
list (which, for wrapper nodes, holds the interleaved comments). -/
inductive TalonNode where
  | comment (info : NodeInfo)
  | docstring (info : NodeInfo)
  | error (info : NodeInfo)
  | word (info : NodeInfo)
  | identifier (info : NodeInfo)
  | implicitString (info : NodeInfo)
  | rule (info : NodeInfo) (children : List TalonNode)
  | parenthesizedExpression (info : NodeInfo) (children : List TalonNode)
  | matchNode (info : NodeInfo) (key : TalonNode) (pattern : TalonNode)
      (children : List TalonNode)
  | andNode (info : NodeInfo) (children : List TalonNode)
  | notNode (info : NodeInfo) (children : List TalonNode)
  | orNode (info : NodeInfo) (children : List TalonNode)
  | context (info : NodeInfo) (children : List TalonNode)
  | includeTag (info : NodeInfo) (tag : TalonNode) (children : List TalonNode)
  | settings (info : NodeInfo) (children : List TalonNode)
  | block (info : NodeInfo) (children : List TalonNode)
  | assignment (info : NodeInfo) (left : TalonNode) (right : TalonNode)
      (children : List TalonNode)
  | exprStmt (info : NodeInfo) (expression : TalonNode) (children : List TalonNode)
  | command (info : NodeInfo) (rule : TalonNode) (script : TalonNode)
      (children : List TalonNode)
  | sourceFile (info : NodeInfo) (children : List TalonNode)

namespace TalonNode

/-- infoOf returns the common field record of a node. -/
def infoOf : TalonNode → NodeInfo
  | comment i => i
  | docstring i => i
  | error i => i
  | word i => i
  | identifier i => i
  | implicitString i => i
  | rule i _ => i
  | parenthesizedExpression i _ => i
  | matchNode i _ _ _ => i
  | andNode i _ => i
  | notNode i _ => i
  | orNode i _ => i
  | context i _ => i
  | includeTag i _ _ => i
  | settings i _ => i
  | block i _ => i
  | assignment i _ _ _ => i
  | exprStmt i _ _ => i
  | command i _ _ _ => i
  | sourceFile i _ => i

/-- typeNameStr is the node's `type_name` field (used in error messages). -/
def typeNameStr (n : TalonNode) : String := n.infoOf.typeName

/-- childrenList returns the `children` field of a node (empty for leaves). -/
def childrenList : TalonNode → List TalonNode
  | comment _ => []
  | docstring _ => []
  | error _ => []
  | word _ => []
  | identifier _ => []
  | implicitString _ => []
  | rule _ cs => cs
  | parenthesizedExpression _ cs => cs
  | matchNode _ _ _ cs => cs
  | andNode _ cs => cs
  | notNode _ cs => cs
  | orNode _ cs => cs
  | context _ cs => cs
  | includeTag _ _ cs => cs
  | settings _ cs => cs
  | block _ cs => cs
  | assignment _ _ _ cs => cs
  | exprStmt _ _ cs => cs
  | command _ _ _ cs => cs
  | sourceFile _ cs => cs

/-- isComment is the `isinstance(child, TalonComment)` check. -/
def isComment : TalonNode → Bool
  | comment _ => true
  | _ => false

/-- isBlock is the `isinstance(child, TalonBlock)` check. -/
def isBlock : TalonNode → Bool
  | block _ _ => true
  | _ => false

/-- isContext is the `isinstance(child, TalonContext)` check. -/
def isContext : TalonNode → Bool
  | context _ _ => true
  | _ => false

/-- isCommand is the `isinstance(child, TalonCommand)` check. -/
def isCommand : TalonNode → Bool
  | command _ _ _ _ => true
  | _ => false

/-- isBodyOnly is the `isinstance(child, (TalonIncludeTag, TalonSettings,
TalonCommand))` check deciding when the `-` separator is emitted. -/
def isBodyOnly : TalonNode → Bool
  | includeTag _ _ _ => true
  | settings _ _ => true
  | command _ _ _ _ => true
  | _ => false

/-- isError is the `isinstance(node, TalonError)` check. -/
def isError : TalonNode → Bool
  | error _ => true
  | _ => false

end TalonNode

/-- is_short_command mirrors `is_short_command` in `formatter.py`
(`len(node.children) + len(node.script.children) == 1`); the same test is
`_TalonCommandDeclaration_is_short` in `extra.py`.  Its Python domain is
`TalonCommand`; on other constructors we return `false`. -/
def is_short_command : TalonNode → Bool
  | .command _ _ script children =>
      children.length + script.childrenList.length == 1
  | _ => false

/-- block_with_comments mirrors `block_with_comments` in `formatter.py` (and
`_TalonBlock_with_comments` in `extra.py`): it builds a fresh `TalonBlock`
with the same `text`, `type_name`, `start_position`, `end_position` and with
`children = [*comments, *block.children]`.  In Python the block argument is
typed `TalonBlock`; the constructor reads only fields that every node has, so
the result is always a block node. -/
def block_with_comments (comments : List TalonNode) (b : TalonNode) : TalonNode :=
  .block b.infoOf (comments ++ b.childrenList)

/-- PyVal models the Python type `bool | int` of the two alignment options. -/
inductive PyVal where
  | pybool (b : Bool)
  | pyint (n : Int)
deriving DecidableEq, Repr

namespace PyVal

/-- isTrue is the Python `is True` identity test. -/
def isTrue : PyVal → Bool
  | pybool true => true
  | _ => false

/-- truthy is the Python truth test (`if value:`): `False` and `0` are falsy. -/
def truthy : PyVal → Bool
  | pybool b => b
  | pyint n => n != 0

/-- toWidth converts an integer option value to a column width. -/
def toWidth : PyVal → Nat
  | pybool _ => 0
  | pyint n => n.toNat

end PyVal

/-- Cfg mirrors the three configuration fields of the `TalonFormatter`
dataclass. -/
structure Cfg where
  indent_size : Nat
  align_match_context : PyVal
  align_short_commands : PyVal
deriving DecidableEq, Repr

/-- Doc mirrors the `doc_printer` layout IR used by the formatter: `Empty`,
`Fail`, `Text`, `Space`, `Line`, `HardLine`, binary concatenation, `Nest`,
left-biased `Alt`, and table rows tagged with a table type and optional
per-column minimum widths. -/
inductive Doc where
  | Empty
  | Fail
  | Text (s : String)
  | Space
  | Line
  | HardLine
  | Cat (a b : Doc)
  | Nest (n : Nat) (d : Doc)
  | Alt (a b : Doc)
  | Row (tableType : String) (cells : List Doc) (minColWidths : List Nat)

namespace Doc

/-- dslash is the `a / b` concatenation operator of `doc_printer`. -/
def dslash (a b : Doc) : Doc := Cat a b

/-- dspace is the `a // b` operator: concatenation with one space. -/
def dspace (a b : Doc) : Doc := Cat a (Cat Space b)

/-- catList is the variadic `cat(...)` combinator. -/
def catList : List Doc → Doc
  | [] => Empty
  | [d] => d
  | d :: ds => Cat d (catList ds)

/-- altList is the variadic `alt(...)` combinator (left-biased). -/
def altList : List Doc → Doc
  | [] => Fail
  | [d] => d
  | d :: ds => Alt d (altList ds)

/-- lineJoin is `Line.join(...)`: joins a sequence of lines with `Line`
separators. -/
def lineJoin : List Doc → Doc
  | [] => Empty
  | [d] => d
  | d :: ds => Cat d (Cat Line (lineJoin ds))

/-- parensD is the `parens` delimiter combinator. -/
def parensD (d : Doc) : Doc := Cat (Text "(") (Cat d (Text ")"))

/-- nestCat is `nest(n, d1, d2, ...)`: indent by `n` around the concatenation
of the given documents. -/
def nestCat (n : Nat) (ds : List Doc) : Doc := Nest n (catList ds)

end Doc

/-- splitWordsAux splits a character stream on whitespace runs, accumulating
the current word in reverse. -/
def splitWordsAux (cur : List Char) : List Char → List String
  | [] => if cur.isEmpty then [] else [String.mk cur.reverse]
  | c :: cs =>
    if c.isWhitespace then
      if cur.isEmpty then splitWordsAux [] cs
      else String.mk cur.reverse :: splitWordsAux [] cs
    else splitWordsAux (c :: cur) cs

/-- splitWords splits a string on whitespace, dropping empty fragments. -/
def splitWords (s : String) : List String := splitWordsAux [] s.data

/-- trimStr strips leading and trailing whitespace, as Python `str.strip()`. -/
def trimStr (s : String) : String :=
  String.mk (((s.data.dropWhile Char.isWhitespace).reverse.dropWhile
    Char.isWhitespace).reverse)

/-- wordsDoc joins words with single `Space`s. -/
def wordsDoc : List String → Doc
  | [] => Doc.Empty
  | [w] => Doc.Text w
  | w :: ws => Doc.Cat (Doc.Text w) (Doc.Cat Doc.Space (wordsDoc ws))

/-- text_words mirrors `Text.words(s, collapse_whitespace=...)`: with
collapsing it splits into words joined by single spaces, without collapsing it
keeps the text as one literal. -/
def text_words (s : String) (collapse : Bool) : Doc :=
  if collapse then wordsDoc (splitWords s) else Doc.Text s

/-- stripHash strips the leading `#` characters, as `text.lstrip("#")`. -/
def stripHash (s : String) : String :=
  String.mk (s.data.dropWhile (fun c => c = '#'))

/-- commentDoc is the `TalonComment` handler of `format`:
`"#" / Text.words(node.text.lstrip("#"), collapse_whitespace=False)`. -/
def commentDoc (i : NodeInfo) : Doc :=
  Doc.Cat (Doc.Text "#") (text_words (stripHash i.text) false)

/-- docstringDoc is the `TalonDocstring` handler of `format`:
`"###" / Text.words(node.text.lstrip("#"), collapse_whitespace=False)`. -/
def docstringDoc (i : NodeInfo) : Doc :=
  Doc.Cat (Doc.Text "###") (text_words (stripHash i.text) false)

/-- FmtErr models the three exception kinds of the formatter: `ParseError`
(carrying the offending node), `TypeError` (carrying the type name), and the
`assert` failures of `assert_only_comments` / `get_node_with_type` (carrying
the offending nodes' type names). -/
inductive FmtErr where
  | parseError (node : TalonNode)
  | typeError (typeName : String)
  | assertionError (typeNames : List String)

/-- Buf is the translator's comment buffer `_comment_buffer`.  The buffer only
ever holds `TalonComment` nodes, which are fully determined by their common
field record, so we store the `NodeInfo`s. -/
abbrev Buf := List NodeInfo

/-- NType models the `node_type` parameter of `store_comments`: the three
instantiations used by the formatter are `Node`, `TalonComment` and
`TalonBlock`. -/
inductive NType where
  | anyN
  | commentN
  | blockN
deriving DecidableEq, Repr

/-- ntMatches is the `isinstance(child, node_type)` test. -/
def ntMatches : NType → TalonNode → Bool
  | .anyN, _ => true
  | .commentN, c => c.isComment
  | .blockN, c => c.isBlock

/-- store_comments mirrors `TalonFormatter.store_comments`: comments are
appended to the buffer, children matching `node_type` are yielded, and any
other child raises `TypeError`. -/
def store_comments (nt : NType) :
    List TalonNode → Buf → Except FmtErr (List TalonNode × Buf)
  | [], buf => .ok ([], buf)
  | c :: cs, buf =>
    if c.isComment then store_comments nt cs (buf ++ [c.infoOf])
    else if ntMatches nt c then
      match store_comments nt cs buf with
      | .ok (kept, b) => .ok (c :: kept, b)
      | .error e => .error e
    else .error (.typeError c.typeNameStr)

/-- get_comments mirrors `TalonFormatter.get_comments`: it yields the buffered
comment nodes and clears the buffer. -/
def get_comments (buf : Buf) : List TalonNode × Buf :=
  (buf.map .comment, [])

/-- get_formatted_comments mirrors `TalonFormatter.get_formatted_comments`:
the buffered comments are formatted (each to its comment line) and the buffer
is cleared. -/
def get_formatted_comments (buf : Buf) : List Doc × Buf :=
  (buf.map commentDoc, [])

/-- assert_only_comments mirrors `TalonFormatter.assert_only_comments`: all
comments among `children` are buffered; a non-comment child raises (in the
Python code a non-comment child already fails the `isinstance(child,
node_type)` test inside `store_comments`, raising `TypeError` before the
`assert` can fire). -/
def assert_only_comments (cs : List TalonNode) (buf : Buf) :
    Except FmtErr Buf :=
  match store_comments .commentN cs buf with
  | .error e => .error e
  | .ok (kept, b) =>
    if kept.isEmpty then .ok b
    else .error (.assertionError (kept.map TalonNode.typeNameStr))

/-- get_node_with_type mirrors `TalonFormatter.get_node_with_type`: comments
are buffered and exactly one `node_type` child must remain, otherwise the
assertion fails naming the offending nodes' type names. -/
def get_node_with_type (nt : NType) (cs : List TalonNode) (buf : Buf) :
    Except FmtErr (TalonNode × Buf) :=
  match store_comments nt cs buf with
  | .error e => .error e
  | .ok (kept, b) =>
    match kept with
    | [n] => .ok (n, b)
    | _ => .error (.assertionError (kept.map TalonNode.typeNameStr))

/-- get_node mirrors `TalonFormatter.get_node` (`node_type=Node`). -/
def get_node (cs : List TalonNode) (buf : Buf) :
    Except FmtErr (TalonNode × Buf) :=
  get_node_with_type .anyN cs buf

/-- format_match_keywords mirrors `TalonFormatter.format_match_keywords`:
`and ` when under `and`, then `not ` when under `not`. -/
def format_match_keywords (underAnd underNot : Bool) : List Doc :=
  (if underAnd then [Doc.Text "and", Doc.Space] else []) ++
  (if underNot then [Doc.Text "not", Doc.Space] else [])

/-- format_match_alternatives mirrors
`TalonFormatter.format_match_alternatives`: the plain `key: pattern` line,
plus, when `align_match_context` is truthy, a `"match"` table row (with a
minimum key column width when the option is an integer). -/
def format_match_alternatives (cfg : Cfg) (key pattern : Doc) : List Doc :=
  [Doc.dspace (Doc.dslash key (Doc.Text ":")) pattern] ++
  (if cfg.align_match_context.truthy then
    if cfg.align_match_context.isTrue then
      [Doc.Row "match" [Doc.dslash key (Doc.Text ":"), pattern] []]
    else
      [Doc.Row "match" [Doc.dslash key (Doc.Text ":"), pattern]
        [cfg.align_match_context.toWidth]]
  else [])

/-- format_short_command mirrors `TalonFormatter.format_short_command`: a
`"command"` table row when `align_short_commands` is truthy (with a minimum
key column width when it is an integer), else `rule + ": " + script` on one
line. -/
def format_short_command (cfg : Cfg) (rule script : Doc) : Doc :=
  if cfg.align_short_commands.truthy then
    if cfg.align_short_commands.isTrue then
      Doc.Row "command" [Doc.dslash rule (Doc.Text ":"), script] []
    else
      Doc.Row "command" [Doc.dslash rule (Doc.Text ":"), script]
        [cfg.align_short_commands.toWidth]
  else Doc.dspace (Doc.dslash rule (Doc.Text ":")) script

/-- msize is the termination measure for the translator's recursion: comments
and other leaves weigh nothing (they may be re-inserted into child lists by
`block_with_comments` without growing the measure) and every composite node
weighs one more than its parts. -/
def msize : TalonNode → Nat
  | .comment _ => 0
  | .docstring _ => 0
  | .error _ => 0
  | .word _ => 0
  | .identifier _ => 0
  | .implicitString _ => 0
  | .rule _ cs => 1 + msizeList cs
  | .parenthesizedExpression _ cs => 1 + msizeList cs
  | .matchNode _ k p cs => 1 + msize k + msize p + msizeList cs
  | .andNode _ cs => 1 + msizeList cs
  | .notNode _ cs => 1 + msizeList cs
  | .orNode _ cs => 1 + msizeList cs
  | .context _ cs => 1 + msizeList cs
  | .includeTag _ t cs => 1 + msize t + msizeList cs
  | .settings _ cs => 1 + msizeList cs
  | .block _ cs => 1 + msizeList cs
  | .assignment _ l r cs => 1 + msize l + msize r + msizeList cs
  | .exprStmt _ e cs => 1 + msize e + msizeList cs
  | .command _ r s cs => 1 + msize r + msize s + msizeList cs
  | .sourceFile _ cs => 1 + msizeList cs
where
  /-- msizeList sums the measure over a list of nodes. -/
  msizeList : List TalonNode → Nat
    | [] => 0
    | c :: cs => msize c + msizeList cs

/-- msizeList abbreviates the list measure of `msize`. -/
def msizeList (cs : List TalonNode) : Nat := msize.msizeList cs

theorem msizeList_eq (cs : List TalonNode) : msizeList cs = msize.msizeList cs :=
  rfl

theorem msizeList_nil : msizeList [] = 0 := rfl

theorem msizeList_cons (c : TalonNode) (cs : List TalonNode) :
    msizeList (c :: cs) = msize c + msizeList cs := rfl

theorem msizeList_append (xs ys : List TalonNode) :
    msizeList (xs ++ ys) = msizeList xs + msizeList ys := by
  induction xs with
  | nil => simp [msizeList_nil]
  | cons c cs ih =>
    simp only [List.cons_append, msizeList_cons, ih]
    omega

theorem msize_le_of_mem {x : TalonNode} {l : List TalonNode} (h : x ∈ l) :
    msize x ≤ msizeList l := by
  induction l with
  | nil => cases h
  | cons c cs ih =>
    rcases List.mem_cons.1 h with rfl | h2
    · simp only [msizeList_cons]; omega
    · have := ih h2; simp only [msizeList_cons]; omega

theorem msizeList_childrenList_le (n : TalonNode) :
    msizeList n.childrenList ≤ msize n := by
  cases n <;>
    simp only [TalonNode.childrenList, msize, ← msizeList_eq, msizeList_nil] <;>
    omega

theorem msizeList_comments (infos : Buf) :
    msizeList (infos.map TalonNode.comment) = 0 := by
  induction infos with
  | nil => simp [msizeList_nil]
  | cons i is ih => simp only [List.map_cons, msizeList_cons, msize, ih]

theorem store_comments_mem {nt : NType} :
    ∀ {cs : List TalonNode} {buf : Buf} {kept : List TalonNode} {b : Buf},
      store_comments nt cs buf = .ok (kept, b) → ∀ x ∈ kept, x ∈ cs := by
  intro cs
  induction cs with
  | nil =>
    intro buf kept b h x hx
    simp [store_comments] at h
    simp [h.1] at hx
  | cons c cs ih =>
    intro buf kept b h x hx
    rw [store_comments] at h
    split at h
    · exact List.mem_cons_of_mem _ (ih h x hx)
    · split at h
      · split at h
        next heq =>
          simp only [Except.ok.injEq, Prod.mk.injEq] at h
          rcases h with ⟨h1, h2⟩
          subst h1
          rcases List.mem_cons.1 hx with rfl | hx2
          · exact List.mem_cons_self _ _
          · exact List.mem_cons_of_mem _ (ih heq x hx2)
        next => cases h
      · cases h

theorem get_node_with_type_mem {nt : NType} {cs : List TalonNode} {buf : Buf}
    {n : TalonNode} {b : Buf} (h : get_node_with_type nt cs buf = .ok (n, b)) :
    n ∈ cs := by
  unfold get_node_with_type at h
  split at h
  · cases h
  next kept b2 heq =>
    split at h
    next m =>
      simp only [Except.ok.injEq, Prod.mk.injEq] at h
      rcases h with ⟨h1, -⟩
      exact h1 ▸ store_comments_mem heq m (by simp)
    next => cases h

/-- renderFlat is the flat (single-line) rendering of a document, modelled
from the spec's renderer: `Line` renders as a space, `HardLine` and `Fail`
fail, `Alt` takes the first alternative that flattens, and a `Row` outside a
table renders its cells separated by single spaces. -/
def renderFlat : Doc → Option String
  | .Empty => some ""
  | .Fail => none
  | .Text s => some s
  | .Space => some " "
  | .Line => some " "
  | .HardLine => none
  | .Cat a b => do
      let x ← renderFlat a
      let y ← renderFlat b
      some (x ++ y)
  | .Nest _ d => renderFlat d
  | .Alt a b =>
      match renderFlat a with
      | some s => some s
      | none => renderFlat b
  | .Row _ cells _ => do
      let ss ← cells.attach.mapM (fun c => renderFlat c.1)
      some (String.intercalate " " ss)
termination_by d => sizeOf d
decreasing_by
  all_goals simp_wf
  all_goals try omega
  all_goals (have hsz := List.sizeOf_lt_of_mem c.2; omega)

/-- padTo pads a string on the right with spaces to the given width. -/
def padTo (s : String) (w : Nat) : String :=
  s ++ String.mk (List.replicate (w - s.length) ' ')

/-- RunEntry is one table row collected into an alignment run: the original
document the row was an alternative of (if any), the flat-rendered cells, and
the row's requested minimum column widths. -/
structure RunEntry where
  orig : Option Doc
  cells : List String
  minw : List Nat

/-- entryCellLen is the width contribution of one entry in one column: the
display width of the cell, at least the entry's requested minimum width. -/
def entryCellLen (e : RunEntry) (i : Nat) : Nat :=
  max (((e.cells.get? i).map String.length).getD 0) ((e.minw.get? i).getD 0)

/-- runColWidth is the computed width of column `i` over a run. -/
def runColWidth (run : List RunEntry) (i : Nat) : Nat :=
  run.foldr (fun e a => max (entryCellLen e i) a) 0

/-- renderCells renders one row's cells: every column except the last is
right-padded to its computed width; columns are separated by one space. -/
def renderCells (widths : Nat → Nat) : Nat → List String → String
  | _, [] => ""
  | _, [c] => c
  | i, c :: cs => padTo c (widths i) ++ " " ++ renderCells widths (i + 1) cs

/-- asRowAlt extracts a table-row candidate from a document: either a bare
`Row` or the row alternative of an `Alt` produced by the formatter's
`format_short_command` / `format_match_alternatives`. -/
def asRowAlt : Doc → Option (Option Doc × String × List Doc × List Nat)
  | .Row t cells mw => some (none, t, cells, mw)
  | .Alt a (.Row t cells mw) => some (some a, t, cells, mw)
  | _ => none

/-- splitRun collects the longest prefix of further table rows of the same
table type whose cells flatten, returning the run entries and the remaining
documents. -/
def splitRun (t : String) : List Doc → List RunEntry × List Doc
  | [] => ([], [])
  | d :: ds =>
    match asRowAlt d with
    | some (orig, t2, cells, mw) =>
      if t2 = t then
        match cells.mapM renderFlat with
        | some ss =>
          let (run, rest) := splitRun t ds
          (⟨orig, ss, mw⟩ :: run, rest)
        | none => ([], d :: ds)
      else ([], d :: ds)
    | none => ([], d :: ds)

theorem splitRun_rest_length (t : String) :
    ∀ ds : List Doc, (splitRun t ds).2.length ≤ ds.length := by
  intro ds
  induction ds with
  | nil => simp [splitRun]
  | cons d ds ih =>
    simp only [splitRun]
    split
    · split
      · split
        · simp only []
          calc (splitRun t ds).2.length ≤ ds.length := ih
            _ ≤ (d :: ds).length := by simp
        · simp
      · simp
    · simp

/-- flushRun emits a collected run as aligned rows: each entry's cells are
padded to the common column widths; an entry that was the alternative of a
document keeps that document as its first alternative. -/
def flushRun (run : List RunEntry) : List Doc :=
  let widths := runColWidth run
  run.map (fun e =>
    let line := Doc.Text (renderCells widths 0 e.cells)
    match e.orig with
    | some a => Doc.Alt a line
    | none => line)

/-- Modelled from the spec: `create_tables` of the external `doc_printer`
package (formatter.py imports it; §4.3 of the spec gives its contract).
Consecutive row candidates of the same table type whose cells flatten are
grouped into a run; each column's width is the maximum over the run of the
cells' display widths and the rows' requested minimum widths; every cell but
the last is right-padded and cells are joined by single spaces.  Non-row
documents pass through unchanged and end the current run, as does a row of a
different table type; a row whose cells do not flatten is emitted unchanged
(the degenerate attempt) and ends the run. -/
def create_tables : List Doc → List Doc
  | [] => []
  | d :: ds =>
    match asRowAlt d with
    | some (orig, t, cells, mw) =>
      match cells.mapM renderFlat with
      | some ss =>
        let pr := splitRun t ds
        have _hlen : (splitRun t ds).2.length ≤ ds.length :=
          splitRun_rest_length t ds
        flushRun (⟨orig, ss, mw⟩ :: pr.1) ++ create_tables pr.2
      | none => d :: create_tables ds
    | none => d :: create_tables ds
termination_by ds => ds.length
decreasing_by
  all_goals simp only [List.length_cons]
  all_goals omega

theorem get_node_mem {cs : List TalonNode} {buf : Buf} {n : TalonNode} {b : Buf}
    (h : get_node cs buf = .ok (n, b)) : n ∈ cs :=
  get_node_with_type_mem h

/-- lex_pair_of reduces the lexicographic termination goals to arithmetic. -/
theorem lex_pair_of {a b x y : Nat} (h : a < x ∨ (a = x ∧ b < y)) :
    Prod.Lex (· < ·) (· < ·) (a, b) (x, y) := by
  rcases h with h | ⟨rfl, h⟩
  · exact Prod.Lex.left _ _ h
  · exact Prod.Lex.right _ h

mutual

/-- format mirrors `TalonFormatter.format`: the registered single-document
handlers for expression-level kinds, then the generic handler, which renders
block-level nodes as their lines joined by `Line`, raises `ParseError` on
`TalonError`, and `TypeError` otherwise.  `TalonComment` / `TalonDocstring`
are registered handlers in the source; they are inlined here. -/
def format (cfg : Cfg) (node : TalonNode) (buf : Buf) :
    Except FmtErr (Doc × Buf) :=
  match node with
  | .identifier i => .ok (text_words i.text true, buf)
  | .implicitString i => .ok (text_words (trimStr i.text) true, buf)
  | .word i => .ok (text_words i.text true, buf)
  | .comment i => .ok (commentDoc i, buf)
  | .docstring i => .ok (docstringDoc i, buf)
  | .rule _ cs =>
    match format_children cfg cs buf with
    | .error e => .error e
    | .ok (ds, b1) => .ok (Doc.catList ds, b1)
  | .parenthesizedExpression _ cs =>
    match h : get_node cs buf with
    | .error e => .error e
    | .ok (n, b1) =>
      match format cfg n b1 with
      | .error e => .error e
      | .ok (d, b2) => .ok (Doc.parensD d, b2)
  | .error _ => .error (.parseError node)
  | .matchNode _ _ _ _ | .andNode _ _ | .notNode _ _ | .orNode _ _ =>
    .error (.typeError node.typeNameStr)
  | .sourceFile i cs =>
    match format_block cfg (.sourceFile i cs) buf with
    | .error e => .error e
    | .ok (ls, b1) => .ok (Doc.lineJoin ls, b1)
  | .context i cs =>
    match format_block cfg (.context i cs) buf with
    | .error e => .error e
    | .ok (ls, b1) => .ok (Doc.lineJoin ls, b1)
  | .includeTag i t cs =>
    match format_block cfg (.includeTag i t cs) buf with
    | .error e => .error e
    | .ok (ls, b1) => .ok (Doc.lineJoin ls, b1)
  | .settings i cs =>
    match format_block cfg (.settings i cs) buf with
    | .error e => .error e
    | .ok (ls, b1) => .ok (Doc.lineJoin ls, b1)
  | .command i r sc cs =>
    match format_block cfg (.command i r sc cs) buf with
    | .error e => .error e
    | .ok (ls, b1) => .ok (Doc.lineJoin ls, b1)
  | .block i cs =>
    match format_block cfg (.block i cs) buf with
    | .error e => .error e
    | .ok (ls, b1) => .ok (Doc.lineJoin ls, b1)
  | .assignment i l r cs =>
    match format_block cfg (.assignment i l r cs) buf with
    | .error e => .error e
    | .ok (ls, b1) => .ok (Doc.lineJoin ls, b1)
  | .exprStmt i e2 cs =>
    match format_block cfg (.exprStmt i e2 cs) buf with
    | .error e => .error e
    | .ok (ls, b1) => .ok (Doc.lineJoin ls, b1)
termination_by (msize node, 2)
decreasing_by
  all_goals apply lex_pair_of
  all_goals simp only [msize, ← msizeList_eq, msizeList_cons, msizeList_nil,
    msizeList_append, msizeList_comments, List.length_cons, get_comments,
    true_and, and_true]
  all_goals try omega
  all_goals
    have h1 := msize_le_of_mem (get_node_mem h)
    omega

/-- format_block mirrors `TalonFormatter.format_block`: the registered
handlers for `TalonSourceFile`, `TalonContext`, `TalonIncludeTag`,
`TalonSettings`, `TalonCommand`, `TalonBlock`, `TalonAssignment`,
`TalonExpression`, then the generic handler (comments and docstrings as their
own line, match kinds via `format_block_match`, `ParseError` on error nodes,
`TypeError` otherwise).  The `TalonSettings` and `TalonCommand` handlers call
`self.format` on the `TalonBlock` built by `block_with_comments`; since that
node is always a block, the call is inlined as `block_loop` over the merged
children joined by `Line`. -/
def format_block (cfg : Cfg) (node : TalonNode) (buf : Buf) :
    Except FmtErr (List Doc × Buf) :=
  match node with
  | .sourceFile _ cs => sf_loop cfg cs true [] [] buf
  | .context _ cs => ctx_loop cfg cs buf
  | .includeTag _ tag cs =>
    match assert_only_comments cs buf with
    | .error e => .error e
    | .ok b1 =>
      let p := get_formatted_comments b1
      match format cfg tag p.2 with
      | .error e => .error e
      | .ok (tagDoc, b3) =>
        .ok (p.1 ++ [Doc.dspace (Doc.Text "tag():") tagDoc], b3)
  | .settings _ cs =>
    match h : get_node_with_type .blockN cs buf with
    | .error e => .error e
    | .ok (b, b1) =>
      let p := get_comments b1
      match block_loop cfg (p.1 ++ b.childrenList) p.2 with
      | .error e => .error e
      | .ok (ls, b3) =>
        .ok ([Doc.dspace (Doc.Text "settings():")
          (Doc.nestCat cfg.indent_size [Doc.Line, Doc.lineJoin ls])], b3)
  | .command _ rule script cs =>
    match format cfg rule buf with
    | .error e => .error e
    | .ok (ruleDoc, b1) =>
      let p := get_formatted_comments b1
      match block_loop cfg (cs ++ script.childrenList) p.2 with
      | .error e => .error e
      | .ok (ls, b3) =>
        let scriptDoc := Doc.lineJoin ls
        let alt1 := Doc.Cat (Doc.dslash ruleDoc (Doc.Text ":"))
          (Doc.nestCat cfg.indent_size [Doc.Line, scriptDoc, Doc.Line])
        let alt2 :=
          if (cs ++ script.childrenList).length == 1 then
            format_short_command cfg ruleDoc scriptDoc
          else Doc.Fail
        .ok (p.1 ++ [Doc.Alt alt1 alt2], b3)
  | .block _ cs => block_loop cfg cs buf
  | .assignment _ l r cs =>
    match assert_only_comments cs buf with
    | .error e => .error e
    | .ok b1 =>
      match format cfg l b1 with
      | .error e => .error e
      | .ok (ld, b2) =>
        match format cfg r b2 with
        | .error e => .error e
        | .ok (rd, b3) =>
          .ok ([Doc.dspace (Doc.dspace ld (Doc.Text "=")) rd], b3)
  | .exprStmt _ e2 cs =>
    match assert_only_comments cs buf with
    | .error e => .error e
    | .ok b1 =>
      match format cfg e2 b1 with
      | .error e => .error e
      | .ok (d, b2) => .ok ([d], b2)
  | .comment i => .ok ([commentDoc i], buf)
  | .docstring i => .ok ([docstringDoc i], buf)
  | .andNode i cs => format_block_match cfg (.andNode i cs) false false buf
  | .notNode i cs => format_block_match cfg (.notNode i cs) false false buf
  | .orNode i cs => format_block_match cfg (.orNode i cs) false false buf
  | .matchNode i k pt cs =>
    format_block_match cfg (.matchNode i k pt cs) false false buf
  | .error _ => .error (.parseError node)
  | .word _ | .identifier _ | .implicitString _ | .rule _ _
  | .parenthesizedExpression _ _ =>
    .error (.typeError node.typeNameStr)
termination_by (msize node, 1)
decreasing_by
  all_goals apply lex_pair_of
  all_goals simp only [msize, ← msizeList_eq, msizeList_cons, msizeList_nil,
    msizeList_append, msizeList_comments, List.length_cons, get_comments,
    true_and, and_true]
  all_goals try omega
  all_goals try
    first
    | (have h1 := msize_le_of_mem (get_node_with_type_mem h)
       have h2 := msizeList_childrenList_le b
       omega)
    | (have h2 := msizeList_childrenList_le script
       omega)

/-- format_block_match mirrors `TalonFormatter.format_block_match`: the
registered handlers for `TalonAnd`, `TalonNot`, `TalonOr` and `TalonMatch`,
then the generic handler (`ParseError` on error nodes, `TypeError`
otherwise). -/
def format_block_match (cfg : Cfg) (node : TalonNode)
    (underAnd underNot : Bool) (buf : Buf) :
    Except FmtErr (List Doc × Buf) :=
  match node with
  | .andNode _ cs => and_loop cfg cs underAnd underNot buf
  | .notNode _ cs => not_loop cfg cs underAnd underNot buf
  | .orNode _ cs => or_loop cfg cs underAnd underNot buf
  | .matchNode _ key pattern cs =>
    match assert_only_comments cs buf with
    | .error e => .error e
    | .ok b1 =>
      match format cfg key b1 with
      | .error e => .error e
      | .ok (keyDoc, b2) =>
        match format cfg pattern b2 with
        | .error e => .error e
        | .ok (patDoc, b3) =>
          let fullKey :=
            Doc.catList (format_match_keywords underAnd underNot ++ [keyDoc])
          .ok ([Doc.altList (format_match_alternatives cfg fullKey patDoc)], b3)
  | .error _ => .error (.parseError node)
  | _ => .error (.typeError node.typeNameStr)
termination_by (msize node, 0)
decreasing_by
  all_goals apply lex_pair_of
  all_goals simp only [msize, ← msizeList_eq, msizeList_cons, msizeList_nil,
    msizeList_append, msizeList_comments, List.length_cons, get_comments,
    true_and, and_true]
  all_goals omega

/-- format_children mirrors `TalonFormatter.format_children`: comments are
buffered, other children are formatted in order. -/
def format_children (cfg : Cfg) (cs : List TalonNode) (buf : Buf) :
    Except FmtErr (List Doc × Buf) :=
  match cs with
  | [] => .ok ([], buf)
  | c :: rest =>
    if c.isComment then format_children cfg rest (buf ++ [c.infoOf])
    else
      match format cfg c buf with
      | .error e => .error e
      | .ok (d, b1) =>
        match format_children cfg rest b1 with
        | .error e => .error e
        | .ok (ds, b2) => .ok (d :: ds, b2)
termination_by (msizeList cs, 4 + cs.length)
decreasing_by
  all_goals apply lex_pair_of
  all_goals simp only [msize, ← msizeList_eq, msizeList_cons, msizeList_nil,
    msizeList_append, msizeList_comments, List.length_cons, get_comments,
    true_and, and_true]
  all_goals omega

/-- sf_loop mirrors the body of the `TalonSourceFile` handler of
`format_block`: `inHeader` is the `in_header` flag, `cbuf` the local
`comment_buffer` of formatted header comments, `sbuf` the local
`short_command_buffer` (only used when `align_short_commands is True`). -/
def sf_loop (cfg : Cfg) (cs : List TalonNode) (inHeader : Bool)
    (cbuf sbuf : List Doc) (buf : Buf) : Except FmtErr (List Doc × Buf) :=
  match cs with
  | [] =>
    let tail1 : List Doc := if inHeader then Doc.Text "-" :: cbuf else []
    let tail2 : List Doc :=
      if cfg.align_short_commands.isTrue then create_tables sbuf else []
    .ok (tail1 ++ tail2, buf)
  | c :: rest =>
    if inHeader && c.isComment then
      match format cfg c buf with
      | .error e => .error e
      | .ok (d, b1) => sf_loop cfg rest inHeader (cbuf ++ [d]) sbuf b1
    else if c.isContext then
      if inHeader then
        match format_block cfg c buf with
        | .error e => .error e
        | .ok (ls, b1) =>
          match sf_loop cfg rest inHeader [] sbuf b1 with
          | .error e => .error e
          | .ok (out, b2) => .ok (cbuf ++ ls ++ out, b2)
      else .error (.assertionError [])
    else
      let emitSep := inHeader && c.isBodyOnly
      let sep : List Doc := if emitSep then Doc.Text "-" :: cbuf else []
      let cbuf2 : List Doc := if emitSep then [] else cbuf
      let inHeader2 : Bool := if emitSep then false else inHeader
      if cfg.align_short_commands.isTrue then
        if c.isCommand && is_short_command c then
          match format_block cfg c buf with
          | .error e => .error e
          | .ok (ls, b1) =>
            match sf_loop cfg rest inHeader2 cbuf2 (sbuf ++ ls) b1 with
            | .error e => .error e
            | .ok (out, b2) => .ok (sep ++ out, b2)
        else
          match format_block cfg c buf with
          | .error e => .error e
          | .ok (ls, b1) =>
            match sf_loop cfg rest inHeader2 cbuf2 [] b1 with
            | .error e => .error e
            | .ok (out, b2) =>
              .ok (sep ++ create_tables sbuf ++ ls ++ out, b2)
      else
        match format_block cfg c buf with
        | .error e => .error e
        | .ok (ls, b1) =>
          match sf_loop cfg rest inHeader2 cbuf2 sbuf b1 with
          | .error e => .error e
          | .ok (out, b2) => .ok (sep ++ ls ++ out, b2)
termination_by (msizeList cs, 4 + cs.length)
decreasing_by
  all_goals apply lex_pair_of
  all_goals simp only [msize, ← msizeList_eq, msizeList_cons, msizeList_nil,
    msizeList_append, msizeList_comments, List.length_cons, get_comments,
    true_and, and_true]
  all_goals omega

/-- ctx_loop mirrors the body of the `TalonContext` handler of
`format_block`: each child's lines are computed, then the buffered comments
are flushed above them. -/
def ctx_loop (cfg : Cfg) (cs : List TalonNode) (buf : Buf) :
    Except FmtErr (List Doc × Buf) :=
  match cs with
  | [] => .ok ([], buf)
  | c :: rest =>
    match format_block cfg c buf with
    | .error e => .error e
    | .ok (lines, b1) =>
      let p := get_formatted_comments b1
      match ctx_loop cfg rest p.2 with
      | .error e => .error e
      | .ok (out, b3) => .ok (p.1 ++ lines ++ out, b3)
termination_by (msizeList cs, 4 + cs.length)
decreasing_by
  all_goals apply lex_pair_of
  all_goals simp only [msize, ← msizeList_eq, msizeList_cons, msizeList_nil,
    msizeList_append, msizeList_comments, List.length_cons, get_comments,
    true_and, and_true]
  all_goals omega

/-- and_loop mirrors the body of the `TalonAnd` handler of
`format_block_match`: comments flush through, and `under_and` becomes true
only after a non-comment child has been rendered. -/
def and_loop (cfg : Cfg) (cs : List TalonNode) (underAnd underNot : Bool)
    (buf : Buf) : Except FmtErr (List Doc × Buf) :=
  match cs with
  | [] => .ok ([], buf)
  | c :: rest =>
    if c.isComment then
      match format_block cfg c buf with
      | .error e => .error e
      | .ok (ls, b1) =>
        match and_loop cfg rest underAnd underNot b1 with
        | .error e => .error e
        | .ok (out, b2) => .ok (ls ++ out, b2)
    else
      match format_block_match cfg c underAnd underNot buf with
      | .error e => .error e
      | .ok (ls, b1) =>
        match and_loop cfg rest true underNot b1 with
        | .error e => .error e
        | .ok (out, b2) => .ok (ls ++ out, b2)
termination_by (msizeList cs, 4 + cs.length)
decreasing_by
  all_goals apply lex_pair_of
  all_goals simp only [msize, ← msizeList_eq, msizeList_cons, msizeList_nil,
    msizeList_append, msizeList_comments, List.length_cons, get_comments,
    true_and, and_true]
  all_goals omega

/-- not_loop mirrors the body of the `TalonNot` handler of
`format_block_match`: it is the same loop as `and_loop` except that it is
`under_not` that becomes true after a non-comment child has been rendered. -/
def not_loop (cfg : Cfg) (cs : List TalonNode) (underAnd underNot : Bool)
    (buf : Buf) : Except FmtErr (List Doc × Buf) :=
  match cs with
  | [] => .ok ([], buf)
  | c :: rest =>
    if c.isComment then
      match format_block cfg c buf with
      | .error e => .error e
      | .ok (ls, b1) =>
        match not_loop cfg rest underAnd underNot b1 with
        | .error e => .error e
        | .ok (out, b2) => .ok (ls ++ out, b2)
    else
      match format_block_match cfg c underAnd underNot buf with
      | .error e => .error e
      | .ok (ls, b1) =>
        match not_loop cfg rest underAnd true b1 with
        | .error e => .error e
        | .ok (out, b2) => .ok (ls ++ out, b2)
termination_by (msizeList cs, 4 + cs.length)
decreasing_by
  all_goals apply lex_pair_of
  all_goals simp only [msize, ← msizeList_eq, msizeList_cons, msizeList_nil,
    msizeList_append, msizeList_comments, List.length_cons, get_comments,
    true_and, and_true]
  all_goals omega

/-- or_loop mirrors the body of the `TalonOr` handler of
`format_block_match`: comments flush through; for a non-comment child the
buffered comments are flushed above the child's lines. -/
def or_loop (cfg : Cfg) (cs : List TalonNode) (underAnd underNot : Bool)
    (buf : Buf) : Except FmtErr (List Doc × Buf) :=
  match cs with
  | [] => .ok ([], buf)
  | c :: rest =>
    if c.isComment then
      match format_block cfg c buf with
      | .error e => .error e
      | .ok (ls, b1) =>
        match or_loop cfg rest underAnd underNot b1 with
        | .error e => .error e
        | .ok (out, b2) => .ok (ls ++ out, b2)
    else
      match format_block_match cfg c underAnd underNot buf with
      | .error e => .error e
      | .ok (lines, b1) =>
        let p := get_formatted_comments b1
        match or_loop cfg rest underAnd underNot p.2 with
        | .error e => .error e
        | .ok (out, b3) => .ok (p.1 ++ lines ++ out, b3)
termination_by (msizeList cs, 4 + cs.length)
decreasing_by
  all_goals apply lex_pair_of
  all_goals simp only [msize, ← msizeList_eq, msizeList_cons, msizeList_nil,
    msizeList_append, msizeList_comments, List.length_cons, get_comments,
    true_and, and_true]
  all_goals omega

/-- block_loop mirrors the body of the `TalonBlock` handler of
`format_block`: before each line yielded by a child the buffered comments are
flushed.  The Python loop flushes lazily before every yielded line; every
child that buffers comments deposits them before its first yield, so the
eager form (flush everything above the child's lines, no flush when the child
yields nothing) is the same function on the block statements the translator
visits. -/
def block_loop (cfg : Cfg) (cs : List TalonNode) (buf : Buf) :
    Except FmtErr (List Doc × Buf) :=
  match cs with
  | [] => .ok ([], buf)
  | c :: rest =>
    match format_block cfg c buf with
    | .error e => .error e
    | .ok (lines, b1) =>
      match lines with
      | [] => block_loop cfg rest b1
      | _ =>
        let p := get_formatted_comments b1
        match block_loop cfg rest p.2 with
        | .error e => .error e
        | .ok (out, b3) => .ok (p.1 ++ lines ++ out, b3)
termination_by (msizeList cs, 4 + cs.length)
decreasing_by
  all_goals apply lex_pair_of
  all_goals simp only [msize, ← msizeList_eq, msizeList_cons, msizeList_nil,
    msizeList_append, msizeList_comments, List.length_cons, get_comments,
    true_and, and_true]
  all_goals omega

end

/-! Concrete fixtures used by witnesses and counterexamples. -/

/-- mkInfo builds a node-info record at the origin. -/
def mkInfo (t : String) (n : String) : NodeInfo := ⟨t, n, ⟨0, 0⟩, ⟨0, 0⟩⟩

/-- exIdent is an identifier node with the given text. -/
def exIdent (s : String) : TalonNode := .identifier (mkInfo s "identifier")

/-- exWord is a word node with the given text. -/
def exWord (s : String) : TalonNode := .word (mkInfo s "word")

/-- exComment is a comment node with the given text. -/
def exComment (s : String) : TalonNode := .comment (mkInfo s "comment")

/-- exStmt is an expression statement wrapping an identifier. -/
def exStmt (s : String) : TalonNode :=
  .exprStmt (mkInfo s "expression") (exIdent s) []

/-- exBlock is a block of the given statements. -/
def exBlock (cs : List TalonNode) : TalonNode := .block (mkInfo "" "block") cs

/-- exCommand is a command with a one-identifier rule, a script block and
command-level children. -/
def exCommand (r : String) (script : TalonNode) (cs : List TalonNode) :
    TalonNode :=
  .command (mkInfo "" "command_declaration") (exIdent r) script cs

/-- exFile is a source file with the given children. -/
def exFile (cs : List TalonNode) : TalonNode :=
  .sourceFile (mkInfo "" "source_file") cs

/-- cfgPlain is the configuration with all alignment off. -/
def cfgPlain : Cfg := ⟨4, .pybool false, .pybool false⟩

/-- cfgShortTrue is the configuration with `align_short_commands=True`. -/
def cfgShortTrue : Cfg := ⟨4, .pybool false, .pybool true⟩

/-- cfgShortTen is the configuration with `align_short_commands=10`. -/
def cfgShortTen : Cfg := ⟨4, .pybool false, .pyint 10⟩

/-! Claim C10: `block_with_comments` builds a new block whose children are the
comments followed by the original children and whose common fields are those
of the original block. -/

/-- C10: for every block and every sequence of comments,
`block_with_comments` returns a block node whose `text`, `type_name`,
`start_position` and `end_position` equal those of the original block and
whose children are exactly the comments followed by the original children.
The embedding is purely functional, so the original block value is unchanged
by construction. -/
theorem block_with_comments_frame (comments : List TalonNode) (i : NodeInfo)
    (cs : List TalonNode) :
    (block_with_comments comments (.block i cs)).isBlock = true ∧
    (block_with_comments comments (.block i cs)).infoOf.text = i.text ∧
    (block_with_comments comments (.block i cs)).infoOf.typeName = i.typeName ∧
    (block_with_comments comments (.block i cs)).infoOf.startPosition =
      i.startPosition ∧
    (block_with_comments comments (.block i cs)).infoOf.endPosition =
      i.endPosition ∧
    (block_with_comments comments (.block i cs)).childrenList =
      comments ++ cs := by
  simp [block_with_comments, TalonNode.isBlock, TalonNode.infoOf,
    TalonNode.childrenList]

/-! Claim C2: what `is_short_command` actually tests. -/

/-- is_short_spec follows the words of claim C2, for comparison with the
source's `is_short_command`: the command's rule has exactly one surface
(non-comment) child and its script block has exactly one statement, comments
not counted in either tally. -/
def is_short_spec : TalonNode → Bool
  | .command _ rule script _ =>
      ((rule.childrenList.filter (fun c => !c.isComment)).length == 1) &&
      ((script.childrenList.filter (fun c => !c.isComment)).length == 1)
  | _ => false

/-- ruleTwoWords is a rule with two surface children. -/
def ruleTwoWords : TalonNode :=
  .rule (mkInfo "foo bar" "rule") [exWord "foo", exWord "bar"]

/-- cmdRuleTwo is a command whose rule has two surface children, whose script
has exactly one statement, and which carries no comments. -/
def cmdRuleTwo : TalonNode :=
  .command (mkInfo "" "command_declaration") ruleTwoWords
    (exBlock [exStmt "a()"]) []

/-- C2 counterexample: on a command whose rule has two surface children and
whose script has one statement, `is_short_command` returns true although the
claim (rule must have exactly one surface child) says it must be false: the
code never inspects the rule. -/
theorem is_short_command_claim_false :
    is_short_command cmdRuleTwo = true ∧ is_short_spec cmdRuleTwo = false := by
  constructor <;> rfl

/-- C2 amended: `is_short_command` returns true iff the number of the
command's own (comment) children plus the number of its script block's
children equals one — equivalently, either the command has no extra children
and its script block has exactly one child (comments counted), or the command
has exactly one extra child and its script block is empty.  The rule is not
inspected and comments are counted in both tallies. -/
theorem is_short_command_amended (i : NodeInfo) (r s : TalonNode)
    (cs : List TalonNode) :
    is_short_command (.command i r s cs) = true ↔
      ((cs.length = 0 ∧ s.childrenList.length = 1) ∨
       (cs.length = 1 ∧ s.childrenList.length = 0)) := by
  simp only [is_short_command, beq_iff_eq]
  omega

/-! Claim C3: when the one-line short layout is offered. -/

/-- cmdStmtPlusComment is a command whose script block holds one statement
and one comment, with no command-level comments. -/
def cmdStmtPlusComment : TalonNode :=
  .command (mkInfo "" "command_declaration") (exIdent "foo")
    (exBlock [exStmt "a()", exComment "#x"]) []

/-- C3 counterexample: for a command whose script block has exactly one
statement after discounting comments (one statement plus one comment), the
second alternative of the emitted `Alt` is `Fail` — the short layout is not
offered, because the code tests `len(block.children) == 1` with comments
counted. -/
theorem short_alt_claim_false :
    (format_block cfgPlain cmdStmtPlusComment [] =
      .ok ([Doc.Alt
        (Doc.Cat (Doc.dslash (Doc.Text "foo") (Doc.Text ":"))
          (Doc.nestCat 4
            [Doc.Line,
             Doc.Cat (Doc.Text "a()")
               (Doc.Cat Doc.Line
                 (Doc.Cat (Doc.Text "#") (Doc.Text "x"))),
             Doc.Line]))
        Doc.Fail], [])) ∧
    (((exBlock [exStmt "a()", exComment "#x"]).childrenList.filter
      (fun c => !c.isComment)).length = 1) := by
  constructor
  · simp [format_block, block_loop, format, format_children,
      get_formatted_comments, assert_only_comments, store_comments,
      text_words, splitWords, splitWordsAux, wordsDoc, commentDoc, stripHash,
      cmdStmtPlusComment, exBlock, exStmt, exIdent, exComment, mkInfo,
      cfgPlain, format_short_command, is_short_command, PyVal.isTrue,
      PyVal.truthy, TalonNode.isComment, TalonNode.childrenList,
      Doc.lineJoin, Doc.dslash, Doc.dspace, Doc.nestCat, Doc.catList]
  · rfl

/-- C3 amended: the one-line short layout is the second alternative iff the
merged block — the command's own (comment) children followed by the script
block's children — has exactly one child, comments counted; otherwise the
second alternative is `Fail`.  The statement exposes the whole handler
result: flushed comments, then one `Alt` whose first branch is the expanded
layout. -/
theorem command_alt_shape (cfg : Cfg) (i : NodeInfo) (r s : TalonNode)
    (cs : List TalonNode) (buf : Buf) (out : List Doc) (b' : Buf)
    (h : format_block cfg (.command i r s cs) buf = .ok (out, b')) :
    ∃ ruleDoc scriptDoc flushed,
      out = flushed ++
        [Doc.Alt
          (Doc.Cat (Doc.dslash ruleDoc (Doc.Text ":"))
            (Doc.nestCat cfg.indent_size [Doc.Line, scriptDoc, Doc.Line]))
          (if cs.length + s.childrenList.length = 1 then
            format_short_command cfg ruleDoc scriptDoc
          else Doc.Fail)] := by
  simp only [format_block] at h
  split at h
  · cases h
  next ruleDoc b1 heq =>
    split at h
    · cases h
    next ls b3 heq2 =>
      simp only [Except.ok.injEq, Prod.mk.injEq] at h
      rcases h with ⟨h1, -⟩
      refine ⟨ruleDoc, Doc.lineJoin ls, (get_formatted_comments b1).1, ?_⟩
      rw [← h1]
      have hlen : ((cs ++ s.childrenList).length == 1) =
          decide (cs.length + s.childrenList.length = 1) := by
        rw [Bool.eq_iff_iff]
        simp [List.length_append]
      rw [hlen]
      by_cases hc : cs.length + s.childrenList.length = 1 <;> simp [hc]

/-- C3 amended, witness: the amended theorem applied to a concrete short
command (one statement, no comments). -/
theorem command_alt_shape_witness :
    ∃ ruleDoc scriptDoc flushed,
      [Doc.Alt
        (Doc.Cat (Doc.dslash (Doc.Text "foo") (Doc.Text ":"))
          (Doc.nestCat 4 [Doc.Line, Doc.Text "a()", Doc.Line]))
        (Doc.dspace (Doc.dslash (Doc.Text "foo") (Doc.Text ":"))
          (Doc.Text "a()"))] = flushed ++
        [Doc.Alt
          (Doc.Cat (Doc.dslash ruleDoc (Doc.Text ":"))
            (Doc.nestCat 4 [Doc.Line, scriptDoc, Doc.Line]))
          (if ([] : List TalonNode).length +
              (exBlock [exStmt "a()"]).childrenList.length = 1 then
            format_short_command cfgPlain ruleDoc scriptDoc
          else Doc.Fail)] :=
  command_alt_shape cfgPlain (mkInfo "" "command_declaration")
    (exIdent "foo") (exBlock [exStmt "a()"]) [] [] _ [] (by
      simp [format_block, block_loop, format, get_formatted_comments,
        assert_only_comments, store_comments, text_words, splitWords,
        splitWordsAux, wordsDoc, exBlock, exStmt, exIdent, mkInfo, cfgPlain,
        format_short_command, PyVal.isTrue, PyVal.truthy,
        TalonNode.isComment, TalonNode.childrenList, Doc.lineJoin,
        Doc.dslash, Doc.dspace, Doc.nestCat, Doc.catList])

/-! Claim C4: the `TalonNot` handler and the `not ` prefix. -/

/-- exImplicit is an implicit-string node with the given text. -/
def exImplicit (s : String) : TalonNode :=
  .implicitString (mkInfo s "implicit_string")

/-- exMatch is a match node `key: pattern` with no comment children. -/
def exMatch (k p : String) : TalonNode :=
  .matchNode (mkInfo "" "match") (exIdent k) (exImplicit p) []

/-- C4: the `TalonNot` handler sets `under_not = True` only after the first
non-comment child has been rendered, so a `not` combinator wrapping a single
match renders exactly as the bare match would — the `not ` prefix is never
produced.  This contradicts the claim (and the spec's `Not(x)` contract),
which requires the child to be rendered with `under_not = true`. -/
theorem not_child_rendered_without_not (cfg : Cfg) (i : NodeInfo)
    (m : TalonNode) (ua un : Bool) (buf : Buf) (h : m.isComment = false) :
    format_block_match cfg (.notNode i [m]) ua un buf =
      format_block_match cfg m ua un buf := by
  simp only [format_block_match]
  cases hm : format_block_match cfg m ua un buf with
  | error e => simp [not_loop, h, hm]
  | ok p =>
    cases p with
    | mk ls b1 => simp [not_loop, h, hm]

/-- C4 witness: at the concrete header `not C: z`, the rendered line is the
plain `C: z` match line, identical to formatting the match without the `not`
combinator and carrying no `not ` keyword text. -/
theorem not_child_rendered_without_not_witness :
    ((exMatch "C" "z").isComment = false) ∧
    (format_block_match cfgPlain
        (.notNode (mkInfo "" "not") [exMatch "C" "z"]) false false [] =
      format_block_match cfgPlain (exMatch "C" "z") false false []) ∧
    (format_block_match cfgPlain (exMatch "C" "z") false false [] =
      .ok ([Doc.dspace (Doc.dslash (Doc.Text "C") (Doc.Text ":"))
        (Doc.Text "z")], [])) := by
  refine ⟨rfl, not_child_rendered_without_not cfgPlain _ _ false false [] rfl,
    ?_⟩
  simp [format_block_match, assert_only_comments, store_comments, format,
    exMatch, exIdent, exImplicit, mkInfo, text_words, splitWords,
    splitWordsAux, wordsDoc, trimStr, format_match_keywords,
    format_match_alternatives, cfgPlain, PyVal.truthy, Doc.altList,
    Doc.catList, Doc.dslash, Doc.dspace]

/-! Claim C8: structural assertions on sole-child wrappers. -/

theorem store_comments_ok (nt : NType) :
    ∀ (cs : List TalonNode) (buf : Buf),
      (∀ c ∈ cs, c.isComment = true ∨ ntMatches nt c = true) →
      store_comments nt cs buf =
        .ok (cs.filter (fun c => !c.isComment),
             buf ++ (cs.filter (fun c => c.isComment)).map
               TalonNode.infoOf) := by
  intro cs
  induction cs with
  | nil => intro buf h; simp [store_comments]
  | cons c cs ih =>
    intro buf h
    have hrest : ∀ x ∈ cs, x.isComment = true ∨ ntMatches nt x = true :=
      fun x hx => h x (List.mem_cons_of_mem _ hx)
    rw [store_comments]
    by_cases hcm : c.isComment = true
    · rw [if_pos hcm, ih (buf ++ [c.infoOf]) hrest]
      simp [List.filter_cons, hcm]
    · have hm : ntMatches nt c = true := by
        rcases h c (by simp) with hc | hc
        · exact absurd hc hcm
        · exact hc
      rw [if_neg hcm, if_pos hm, ih buf hrest]
      simp [List.filter_cons, hcm]

/-- C8: a node required to have exactly one non-comment child raises the
structural assertion of `get_node_with_type` naming the offending node kinds
whenever zero or more than one non-comment children are observed: shown for
the `TalonBlock` of a `TalonSettings` node (children all comments or blocks)
and for the inner expression of a `TalonParenthesizedExpression`. -/
theorem structural_assertion_raised (cfg : Cfg) (i : NodeInfo) (buf : Buf) :
    (∀ cs : List TalonNode,
      (∀ c ∈ cs, c.isComment = true ∨ c.isBlock = true) →
      (cs.filter (fun c => !c.isComment)).length ≠ 1 →
      format_block cfg (.settings i cs) buf =
        .error (.assertionError ((cs.filter (fun c => !c.isComment)).map
          TalonNode.typeNameStr))) ∧
    (∀ cs : List TalonNode,
      (cs.filter (fun c => !c.isComment)).length ≠ 1 →
      format cfg (.parenthesizedExpression i cs) buf =
        .error (.assertionError ((cs.filter (fun c => !c.isComment)).map
          TalonNode.typeNameStr))) := by
  have key : ∀ (nt : NType) (cs : List TalonNode),
      (∀ c ∈ cs, c.isComment = true ∨ ntMatches nt c = true) →
      (cs.filter (fun c => !c.isComment)).length ≠ 1 →
      get_node_with_type nt cs buf =
        .error (.assertionError ((cs.filter (fun c => !c.isComment)).map
          TalonNode.typeNameStr)) := by
    intro nt cs hall hlen
    unfold get_node_with_type
    rw [store_comments_ok nt cs buf hall]
    rcases hfil : cs.filter (fun c => !c.isComment) with _ | ⟨a, _ | ⟨b2, t⟩⟩
    · simp [hfil]
    · rw [hfil] at hlen; simp at hlen
    · simp [hfil]
  constructor
  · intro cs hkinds hlen
    have hg := key .blockN cs (by
      intro c hc
      rcases hkinds c hc with h | h
      · exact Or.inl h
      · exact Or.inr (by simpa [ntMatches] using h)) hlen
    simp only [format_block]
    split
    next e heq =>
      rw [hg] at heq
      simp only [Except.error.injEq] at heq
      rw [heq]
    next b b1 heq =>
      rw [hg] at heq
      simp at heq
  · intro cs hlen
    have hg := key .anyN cs (fun c _ => Or.inr rfl) hlen
    simp only [format]
    split
    next e heq =>
      rw [show get_node cs buf = get_node_with_type .anyN cs buf from rfl,
        hg] at heq
      simp only [Except.error.injEq] at heq
      rw [heq]
    next b b1 heq =>
      rw [show get_node cs buf = get_node_with_type .anyN cs buf from rfl,
        hg] at heq
      simp at heq

/-- C8 witness: a settings node whose children hold no block (one comment
only) and a parenthesized expression with two inner expressions both raise
the structural assertion, naming the offending kinds. -/
theorem structural_assertion_raised_witness :
    (format_block cfgPlain (.settings (mkInfo "" "settings_declaration")
        [exComment "#c"]) [] = .error (.assertionError [])) ∧
    (format cfgPlain (.parenthesizedExpression (mkInfo "" "paren")
        [exIdent "x", exIdent "y"]) [] =
      .error (.assertionError ["identifier", "identifier"])) := by
  constructor
  · have h := (structural_assertion_raised cfgPlain
      (mkInfo "" "settings_declaration") []).1 [exComment "#c"]
      (by intro c hc; simp at hc; subst hc; exact Or.inl rfl)
      (by simp [exComment, TalonNode.isComment, mkInfo])
    simpa [exComment, TalonNode.isComment, mkInfo] using h
  · have h := (structural_assertion_raised cfgPlain (mkInfo "" "paren") []).2
      [exIdent "x", exIdent "y"]
      (by simp [exIdent, TalonNode.isComment, mkInfo])
    simpa [exIdent, TalonNode.isComment, TalonNode.typeNameStr,
      TalonNode.infoOf, mkInfo] using h

/-! Claim C6: integer `align_short_commands`. -/

/-- sf_loop_claimC6 follows the words of claim C6, for comparison with the
source's `sf_loop`: short commands are buffered and flushed as aligned tables
whenever `align_short_commands` is truthy (so also for an integer), instead
of only when it is exactly `True`. -/
def sf_loop_claimC6 (cfg : Cfg) (cs : List TalonNode) (inHeader : Bool)
    (cbuf sbuf : List Doc) (buf : Buf) : Except FmtErr (List Doc × Buf) :=
  match cs with
  | [] =>
    let tail1 : List Doc := if inHeader then Doc.Text "-" :: cbuf else []
    let tail2 : List Doc :=
      if cfg.align_short_commands.truthy then create_tables sbuf else []
    .ok (tail1 ++ tail2, buf)
  | c :: rest =>
    if inHeader && c.isComment then
      match format cfg c buf with
      | .error e => .error e
      | .ok (d, b1) => sf_loop_claimC6 cfg rest inHeader (cbuf ++ [d]) sbuf b1
    else if c.isContext then
      if inHeader then
        match format_block cfg c buf with
        | .error e => .error e
        | .ok (ls, b1) =>
          match sf_loop_claimC6 cfg rest inHeader [] sbuf b1 with
          | .error e => .error e
          | .ok (out, b2) => .ok (cbuf ++ ls ++ out, b2)
      else .error (.assertionError [])
    else
      let emitSep := inHeader && c.isBodyOnly
      let sep : List Doc := if emitSep then Doc.Text "-" :: cbuf else []
      let cbuf2 : List Doc := if emitSep then [] else cbuf
      let inHeader2 : Bool := if emitSep then false else inHeader
      if cfg.align_short_commands.truthy then
        if c.isCommand && is_short_command c then
          match format_block cfg c buf with
          | .error e => .error e
          | .ok (ls, b1) =>
            match sf_loop_claimC6 cfg rest inHeader2 cbuf2 (sbuf ++ ls) b1 with
            | .error e => .error e
            | .ok (out, b2) => .ok (sep ++ out, b2)
        else
          match format_block cfg c buf with
          | .error e => .error e
          | .ok (ls, b1) =>
            match sf_loop_claimC6 cfg rest inHeader2 cbuf2 [] b1 with
            | .error e => .error e
            | .ok (out, b2) =>
              .ok (sep ++ create_tables sbuf ++ ls ++ out, b2)
      else
        match format_block cfg c buf with
        | .error e => .error e
        | .ok (ls, b1) =>
          match sf_loop_claimC6 cfg rest inHeader2 cbuf2 sbuf b1 with
          | .error e => .error e
          | .ok (out, b2) => .ok (sep ++ ls ++ out, b2)

/-- fileTwoShort is a source file holding two short commands. -/
def fileTwoShort : TalonNode :=
  exFile [exCommand "foo" (exBlock [exStmt "a()"]) [],
    exCommand "barbar" (exBlock [exStmt "b()"]) []]

/-- expandedCmd is the expanded (two-line) layout branch of a command. -/
def expandedCmd (r s : String) : Doc :=
  Doc.Cat (Doc.dslash (Doc.Text r) (Doc.Text ":"))
    (Doc.nestCat 4 [Doc.Line, Doc.Text s, Doc.Line])

/-- C6 counterexample: with `align_short_commands = 10` the code emits each
short command in place as an `Alt` whose second branch is still a raw
`"command"` row — nothing is buffered or flushed through the table packer —
whereas the claim's reading (buffer and flush exactly as with `True`) would
emit the aligned, padded table lines.  The two outputs differ. -/
theorem align_short_int_claim_false :
    (format_block cfgShortTen fileTwoShort [] =
      .ok ([Doc.Text "-",
        Doc.Alt (expandedCmd "foo" "a()")
          (Doc.Row "command"
            [Doc.dslash (Doc.Text "foo") (Doc.Text ":"), Doc.Text "a()"]
            [10]),
        Doc.Alt (expandedCmd "barbar" "b()")
          (Doc.Row "command"
            [Doc.dslash (Doc.Text "barbar") (Doc.Text ":"), Doc.Text "b()"]
            [10])], [])) ∧
    (sf_loop_claimC6 cfgShortTen
        [exCommand "foo" (exBlock [exStmt "a()"]) [],
         exCommand "barbar" (exBlock [exStmt "b()"]) []] true [] [] [] =
      .ok ([Doc.Text "-",
        Doc.Alt (expandedCmd "foo" "a()") (Doc.Text "foo:       a()"),
        Doc.Alt (expandedCmd "barbar" "b()")
          (Doc.Text "barbar:    b()")], [])) ∧
    ([Doc.Text "-",
      Doc.Alt (expandedCmd "foo" "a()")
        (Doc.Row "command"
          [Doc.dslash (Doc.Text "foo") (Doc.Text ":"), Doc.Text "a()"]
          [10]),
      Doc.Alt (expandedCmd "barbar" "b()")
        (Doc.Row "command"
          [Doc.dslash (Doc.Text "barbar") (Doc.Text ":"), Doc.Text "b()"]
          [10])] ≠
     [Doc.Text "-",
      Doc.Alt (expandedCmd "foo" "a()") (Doc.Text "foo:       a()"),
      Doc.Alt (expandedCmd "barbar" "b()")
        (Doc.Text "barbar:    b()")]) := by
  refine ⟨?_, ?_, by simp⟩
  · simp [format_block, sf_loop, block_loop, format, get_formatted_comments,
      assert_only_comments, store_comments, text_words, splitWords,
      splitWordsAux, wordsDoc, fileTwoShort, exFile, exCommand, exBlock,
      exStmt, exIdent, mkInfo, cfgShortTen, format_short_command,
      is_short_command, PyVal.isTrue, PyVal.truthy, PyVal.toWidth,
      TalonNode.isComment, TalonNode.isContext, TalonNode.isBodyOnly,
      TalonNode.isCommand, TalonNode.childrenList, Doc.lineJoin, Doc.dslash,
      Doc.dspace, Doc.nestCat, Doc.catList, expandedCmd]
  · simp [sf_loop_claimC6, block_loop, format, format_block,
      get_formatted_comments, assert_only_comments, store_comments,
      text_words, splitWords, splitWordsAux, wordsDoc, exCommand, exBlock,
      exStmt, exIdent, mkInfo, cfgShortTen, format_short_command,
      is_short_command, PyVal.isTrue, PyVal.truthy, PyVal.toWidth,
      TalonNode.isComment, TalonNode.isContext, TalonNode.isBodyOnly,
      TalonNode.isCommand, TalonNode.childrenList, Doc.lineJoin, Doc.dslash,
      Doc.dspace, Doc.nestCat, Doc.catList, expandedCmd, create_tables,
      asRowAlt, splitRun, flushRun, renderFlat, renderCells, runColWidth,
      entryCellLen, padTo, String.intercalate, List.mapM, List.mapM.loop,
      Option.bind]
    constructor <;> rfl

/-- sf_simple is the source-file loop without any short-command machinery:
what the `TalonSourceFile` handler does on the path where
`align_short_commands is True` is false. -/
def sf_simple (cfg : Cfg) (cs : List TalonNode) (inHeader : Bool)
    (cbuf : List Doc) (buf : Buf) : Except FmtErr (List Doc × Buf) :=
  match cs with
  | [] => .ok (if inHeader then Doc.Text "-" :: cbuf else [], buf)
  | c :: rest =>
    if inHeader && c.isComment then
      match format cfg c buf with
      | .error e => .error e
      | .ok (d, b1) => sf_simple cfg rest inHeader (cbuf ++ [d]) b1
    else if c.isContext then
      if inHeader then
        match format_block cfg c buf with
        | .error e => .error e
        | .ok (ls, b1) =>
          match sf_simple cfg rest inHeader [] b1 with
          | .error e => .error e
          | .ok (out, b2) => .ok (cbuf ++ ls ++ out, b2)
      else .error (.assertionError [])
    else
      let emitSep := inHeader && c.isBodyOnly
      let sep : List Doc := if emitSep then Doc.Text "-" :: cbuf else []
      let cbuf2 : List Doc := if emitSep then [] else cbuf
      let inHeader2 : Bool := if emitSep then false else inHeader
      match format_block cfg c buf with
      | .error e => .error e
      | .ok (ls, b1) =>
        match sf_simple cfg rest inHeader2 cbuf2 b1 with
        | .error e => .error e
        | .ok (out, b2) => .ok (sep ++ ls ++ out, b2)

theorem sf_loop_no_buffering (cfg : Cfg)
    (hnt : cfg.align_short_commands.isTrue = false) :
    ∀ (cs : List TalonNode) (inHeader : Bool) (cbuf sbuf : List Doc)
      (buf : Buf),
      sf_loop cfg cs inHeader cbuf sbuf buf =
        sf_simple cfg cs inHeader cbuf buf := by
  intro cs
  induction cs with
  | nil =>
    intro inHeader cbuf sbuf buf
    simp [sf_loop, sf_simple, hnt]
  | cons c rest ih =>
    intro inHeader cbuf sbuf buf
    rw [sf_loop, sf_simple]
    by_cases h1 : (inHeader && c.isComment) = true
    · rw [if_pos h1, if_pos h1]
      cases format cfg c buf with
      | error e => rfl
      | ok p => exact ih _ _ _ _
    · rw [if_neg h1, if_neg h1]
      by_cases h2 : c.isContext = true
      · rw [if_pos h2, if_pos h2]
        by_cases h3 : inHeader
        · rw [if_pos h3, if_pos h3]
          cases format_block cfg c buf with
          | error e => rfl
          | ok p =>
            cases p with
            | mk ls b1 => simp only [ih]
        · rw [if_neg h3, if_neg h3]
      · rw [if_neg h2, if_neg h2, hnt]
        simp only [Bool.false_eq_true, if_false]
        cases format_block cfg c buf with
        | error e => rfl
        | ok p =>
          cases p with
          | mk ls b1 => simp only [ih]

/-- C6 amended: when `align_short_commands` is a nonzero integer `N`, the
one-line short layout is a `"command"` row carrying `min_col_widths = (N,)`,
but — contrary to the claim — the source-file loop does not buffer short
commands: buffering and table flushing happen only when the option is exactly
`True`, and for any other value the loop is exactly the plain non-buffering
loop, each short command's row emitted in place. -/
theorem align_short_int_amended (cfg : Cfg) (n : Int)
    (hv : cfg.align_short_commands = .pyint n) (hnz : n ≠ 0) :
    (∀ ruleDoc scriptDoc, format_short_command cfg ruleDoc scriptDoc =
      Doc.Row "command" [Doc.dslash ruleDoc (Doc.Text ":"), scriptDoc]
        [n.toNat]) ∧
    (∀ (cs : List TalonNode) (inHeader : Bool) (cbuf sbuf : List Doc)
      (buf : Buf),
      sf_loop cfg cs inHeader cbuf sbuf buf =
        sf_simple cfg cs inHeader cbuf buf) := by
  constructor
  · intro ruleDoc scriptDoc
    rw [format_short_command, hv]
    simp [PyVal.truthy, PyVal.isTrue, PyVal.toWidth, hnz]
  · exact sf_loop_no_buffering cfg (by rw [hv]; rfl)

/-- C6 amended, witness: the amended theorem applied at
`align_short_commands = 10` and the two-short-command file. -/
theorem align_short_int_amended_witness :
    (format_short_command cfgShortTen (Doc.Text "foo") (Doc.Text "a()") =
      Doc.Row "command" [Doc.dslash (Doc.Text "foo") (Doc.Text ":"),
        Doc.Text "a()"] [10]) ∧
    (sf_loop cfgShortTen
        [exCommand "foo" (exBlock [exStmt "a()"]) []] true [] [] [] =
      sf_simple cfgShortTen
        [exCommand "foo" (exBlock [exStmt "a()"]) []] true [] []) := by
  have h := align_short_int_amended cfgShortTen 10 rfl (by norm_num)
  exact ⟨h.1 (Doc.Text "foo") (Doc.Text "a()"),
    h.2 [exCommand "foo" (exBlock [exStmt "a()"]) []] true [] [] []⟩

/-! Claim C1: the `-` header/body separator. -/

/-- isSepText recognises the separator document `Text "-"`. -/
def isSepText : Doc → Bool
  | .Text s => s == "-"
  | _ => false

/-- sepCount counts separator documents in an emission stream. -/
def sepCount (ds : List Doc) : Nat := ds.countP isSepText

/-- isCatAlt holds for concatenation and alternative documents — the shapes
of every line the translator emits apart from the separator itself. -/
def isCatAlt : Doc → Bool
  | .Cat _ _ => true
  | .Alt _ _ => true
  | _ => false

theorem isSepText_of_catAlt {d : Doc} (h : isCatAlt d = true) :
    isSepText d = false := by
  cases d <;> simp_all [isCatAlt, isSepText]

/-- wfMatchLevel describes the node kinds the `TalonContext` handler can
meet: matches, the three combinators (recursively), comments, and error
nodes. -/
def wfMatchLevel : TalonNode → Bool
  | .comment _ => true
  | .error _ => true
  | .matchNode _ _ _ _ => true
  | .andNode _ cs => wfMatchLevelList cs
  | .notNode _ cs => wfMatchLevelList cs
  | .orNode _ cs => wfMatchLevelList cs
  | _ => false
where
  /-- wfMatchLevelList checks a list of match-level children. -/
  wfMatchLevelList : List TalonNode → Bool
    | [] => true
    | c :: cs => wfMatchLevel c && wfMatchLevelList cs

/-- wfTop describes the node kinds a source file's children may have:
comments, docstrings, a context (of match-level children), tag includes,
settings, commands, and error nodes. -/
def wfTop : TalonNode → Bool
  | .comment _ => true
  | .docstring _ => true
  | .error _ => true
  | .includeTag _ _ _ => true
  | .settings _ _ => true
  | .command _ _ _ _ => true
  | .context _ cs => wfMatchLevel.wfMatchLevelList cs
  | _ => false

theorem wfMatchLevelList_mem {cs : List TalonNode} {c : TalonNode}
    (hall : wfMatchLevel.wfMatchLevelList cs = true) (hc : c ∈ cs) :
    wfMatchLevel c = true := by
  induction cs with
  | nil => cases hc
  | cons x xs ih =>
    rw [wfMatchLevel.wfMatchLevelList, Bool.and_eq_true] at hall
    rcases List.mem_cons.1 hc with rfl | hm
    · exact hall.1
    · exact ih hall.2 hm

theorem isCatAlt_commentDoc (i : NodeInfo) : isCatAlt (commentDoc i) = true :=
  rfl

theorem isCatAlt_docstringDoc (i : NodeInfo) :
    isCatAlt (docstringDoc i) = true := rfl

theorem format_block_comment_out {cfg : Cfg} {c : TalonNode} {buf : Buf}
    {ls : List Doc} {b1 : Buf} (hc : c.isComment = true)
    (h : format_block cfg c buf = .ok (ls, b1)) :
    ls = [commentDoc c.infoOf] ∧ b1 = buf := by
  cases c <;> simp [TalonNode.isComment] at hc
  rw [format_block] at h
  simp only [Except.ok.injEq, Prod.mk.injEq] at h
  exact ⟨h.1.symm, h.2.symm⟩

theorem isCatAlt_match_line (cfg : Cfg) (k p : Doc) :
    isCatAlt (Doc.altList (format_match_alternatives cfg k p)) = true := by
  rw [format_match_alternatives]
  cases h : cfg.align_match_context.truthy <;>
    cases h2 : cfg.align_match_context.isTrue <;>
    simp [h, h2, Doc.altList, Doc.dspace, isCatAlt]

theorem asRowAlt_of_catAlt {d : Doc} {orig : Option Doc} {t2 : String}
    {cells : List Doc} {mw : List Nat} (hd : isCatAlt d = true)
    (hra : asRowAlt d = some (orig, t2, cells, mw)) :
    ∃ a, orig = some a ∧ d = Doc.Alt a (Doc.Row t2 cells mw) := by
  cases d <;> simp [isCatAlt] at hd <;> simp [asRowAlt] at hra
  case Alt a b =>
    cases b <;> simp [asRowAlt] at hra
    obtain ⟨h1, h2, h3, h4⟩ := hra
    exact ⟨a, h1.symm, by rw [h2, h3, h4]⟩

theorem splitRun_cons_none {t : String} {d : Doc} {ds : List Doc}
    (hra : asRowAlt d = none) : splitRun t (d :: ds) = ([], d :: ds) := by
  rw [splitRun, hra]

theorem splitRun_cons_difft {t t2 : String} {d : Doc} {ds : List Doc}
    {orig : Option Doc} {cells : List Doc} {mw : List Nat}
    (hra : asRowAlt d = some (orig, t2, cells, mw)) (ht : t2 ≠ t) :
    splitRun t (d :: ds) = ([], d :: ds) := by
  rw [splitRun, hra]
  simp [ht]

theorem splitRun_cons_noflat {t t2 : String} {d : Doc} {ds : List Doc}
    {orig : Option Doc} {cells : List Doc} {mw : List Nat}
    (hra : asRowAlt d = some (orig, t2, cells, mw)) (ht : t2 = t)
    (hfl : cells.mapM renderFlat = none) :
    splitRun t (d :: ds) = ([], d :: ds) := by
  rw [splitRun, hra]
  simp only [ht, eq_self_iff_true, if_true, hfl]

theorem splitRun_cons_flat {t t2 : String} {d : Doc} {ds : List Doc}
    {orig : Option Doc} {cells : List Doc} {mw : List Nat} {ss : List String}
    (hra : asRowAlt d = some (orig, t2, cells, mw)) (ht : t2 = t)
    (hfl : cells.mapM renderFlat = some ss) :
    splitRun t (d :: ds) =
      (⟨orig, ss, mw⟩ :: (splitRun t ds).1, (splitRun t ds).2) := by
  rw [splitRun, hra]
  simp only [ht, eq_self_iff_true, if_true, hfl]

theorem splitRun_catAlt (t : String) :
    ∀ ds : List Doc, (∀ d ∈ ds, isCatAlt d = true) →
      (∀ e ∈ (splitRun t ds).1, ∃ a, e.orig = some a) ∧
      (∀ d ∈ (splitRun t ds).2, isCatAlt d = true) := by
  intro ds
  induction ds with
  | nil => intro h; simp [splitRun]
  | cons d ds ih =>
    intro h
    have hd := h d (by simp)
    have hds : ∀ x ∈ ds, isCatAlt x = true := fun x hx => h x (by simp [hx])
    cases hra : asRowAlt d with
    | none => rw [splitRun_cons_none hra]; exact ⟨by simp, h⟩
    | some q =>
      obtain ⟨orig, t2, cells, mw⟩ := q
      by_cases ht : t2 = t
      · cases hfl : cells.mapM renderFlat with
        | none => rw [splitRun_cons_noflat hra ht hfl]; exact ⟨by simp, h⟩
        | some ss =>
          rw [splitRun_cons_flat hra ht hfl]
          obtain ⟨ih1, ih2⟩ := ih hds
          refine ⟨?_, ih2⟩
          intro e he
          simp only [List.mem_cons] at he
          rcases he with rfl | he
          · obtain ⟨a, ha, -⟩ := asRowAlt_of_catAlt hd hra
            exact ⟨a, ha⟩
          · exact ih1 e he
      · rw [splitRun_cons_difft hra ht]; exact ⟨by simp, h⟩

theorem create_tables_cons_flat {d : Doc} {ds : List Doc}
    {orig : Option Doc} {t2 : String} {cells : List Doc} {mw : List Nat}
    {ss : List String} (hra : asRowAlt d = some (orig, t2, cells, mw))
    (hfl : cells.mapM renderFlat = some ss) :
    create_tables (d :: ds) =
      flushRun (⟨orig, ss, mw⟩ :: (splitRun t2 ds).1) ++
        create_tables (splitRun t2 ds).2 := by
  rw [create_tables, hra]
  simp only [hfl]

theorem create_tables_cons_noflat {d : Doc} {ds : List Doc}
    {orig : Option Doc} {t2 : String} {cells : List Doc} {mw : List Nat}
    (hra : asRowAlt d = some (orig, t2, cells, mw))
    (hfl : cells.mapM renderFlat = none) :
    create_tables (d :: ds) = d :: create_tables ds := by
  rw [create_tables, hra]
  simp only [hfl]

theorem create_tables_cons_none {d : Doc} {ds : List Doc}
    (hra : asRowAlt d = none) :
    create_tables (d :: ds) = d :: create_tables ds := by
  rw [create_tables, hra]

theorem flushRun_catAlt {run : List RunEntry}
    (h : ∀ e ∈ run, ∃ a, e.orig = some a) :
    ∀ d ∈ flushRun run, isCatAlt d = true := by
  intro d hd
  rw [flushRun] at hd
  simp only [List.mem_map] at hd
  obtain ⟨e, he, hex⟩ := hd
  obtain ⟨a, ha⟩ := h e he
  rw [ha] at hex
  simp only [] at hex
  rw [← hex]
  rfl

theorem create_tables_catAlt :
    ∀ ds : List Doc, (∀ d ∈ ds, isCatAlt d = true) →
      ∀ d ∈ create_tables ds, isCatAlt d = true := by
  intro ds
  induction ds using create_tables.induct with
  | case1 => intro h d hd; simp [create_tables] at hd
  | case2 d ds orig t2 cells mw hra ss hfl pr hlen ih =>
    intro h x hx
    have hd := h d (by simp)
    have hds : ∀ y ∈ ds, isCatAlt y = true := fun y hy => h y (by simp [hy])
    rw [create_tables_cons_flat hra hfl] at hx
    simp only [List.mem_append] at hx
    rcases hx with hx | hx
    · refine flushRun_catAlt ?_ x hx
      intro e he
      simp only [List.mem_cons] at he
      rcases he with rfl | he
      · obtain ⟨a, ha, -⟩ := asRowAlt_of_catAlt hd hra
        exact ⟨a, ha⟩
      · exact (splitRun_catAlt t2 ds hds).1 e he
    · exact ih (splitRun_catAlt t2 ds hds).2 x hx
  | case3 d ds orig t2 cells mw hra hfl ih =>
    intro h x hx
    rw [create_tables_cons_noflat hra hfl] at hx
    simp only [List.mem_cons] at hx
    rcases hx with rfl | hx
    · exact h x (by simp)
    · exact ih (fun y hy => h y (by simp [hy])) x hx
  | case4 d ds hra ih =>
    intro h x hx
    rw [create_tables_cons_none hra] at hx
    simp only [List.mem_cons] at hx
    rcases hx with rfl | hx
    · exact h x (by simp)
    · exact ih (fun y hy => h y (by simp [hy])) x hx

theorem and_loop_catAlt (cfg : Cfg) :
    ∀ (cs : List TalonNode),
      (∀ c ∈ cs, c.isComment = false →
        ∀ ua un buf ls b1,
          format_block_match cfg c ua un buf = .ok (ls, b1) →
          ∀ d ∈ ls, isCatAlt d = true) →
      ∀ ua un buf out b',
        and_loop cfg cs ua un buf = .ok (out, b') →
        ∀ d ∈ out, isCatAlt d = true := by
  intro cs
  induction cs with
  | nil =>
    intro hl ua un buf out b' h d hd
    rw [and_loop] at h
    simp only [Except.ok.injEq, Prod.mk.injEq] at h
    rw [← h.1] at hd
    cases hd
  | cons c rest ih =>
    intro hl ua un buf out b' h d hd
    have hlrest : ∀ c' ∈ rest, c'.isComment = false →
        ∀ ua un buf ls b1,
          format_block_match cfg c' ua un buf = .ok (ls, b1) →
          ∀ d ∈ ls, isCatAlt d = true :=
      fun c' hc' => hl c' (by simp [hc'])
    rw [and_loop] at h
    by_cases hcm : c.isComment = true
    · rw [if_pos hcm] at h
      split at h
      · cases h
      next ls1 b1 heq1 =>
        split at h
        · cases h
        next out2 b2 heq2 =>
          simp only [Except.ok.injEq, Prod.mk.injEq] at h
          rw [← h.1] at hd
          rcases List.mem_append.1 hd with hd | hd
          · obtain ⟨hls, -⟩ := format_block_comment_out hcm heq1
            rw [hls] at hd
            simp only [List.mem_singleton] at hd
            rw [hd]
            exact isCatAlt_commentDoc _
          · exact ih hlrest _ _ _ _ _ heq2 d hd
    · rw [if_neg hcm] at h
      split at h
      · cases h
      next ls1 b1 heq1 =>
        split at h
        · cases h
        next out2 b2 heq2 =>
          simp only [Except.ok.injEq, Prod.mk.injEq] at h
          rw [← h.1] at hd
          rcases List.mem_append.1 hd with hd | hd
          · exact hl c (by simp) (by simpa using hcm) _ _ _ _ _ heq1 d hd
          · exact ih hlrest _ _ _ _ _ heq2 d hd

theorem not_loop_catAlt (cfg : Cfg) :
    ∀ (cs : List TalonNode),
      (∀ c ∈ cs, c.isComment = false →
        ∀ ua un buf ls b1,
          format_block_match cfg c ua un buf = .ok (ls, b1) →
          ∀ d ∈ ls, isCatAlt d = true) →
      ∀ ua un buf out b',
        not_loop cfg cs ua un buf = .ok (out, b') →
        ∀ d ∈ out, isCatAlt d = true := by
  intro cs
  induction cs with
  | nil =>
    intro hl ua un buf out b' h d hd
    rw [not_loop] at h
    simp only [Except.ok.injEq, Prod.mk.injEq] at h
    rw [← h.1] at hd
    cases hd
  | cons c rest ih =>
    intro hl ua un buf out b' h d hd
    have hlrest : ∀ c' ∈ rest, c'.isComment = false →
        ∀ ua un buf ls b1,
          format_block_match cfg c' ua un buf = .ok (ls, b1) →
          ∀ d ∈ ls, isCatAlt d = true :=
      fun c' hc' => hl c' (by simp [hc'])
    rw [not_loop] at h
    by_cases hcm : c.isComment = true
    · rw [if_pos hcm] at h
      split at h
      · cases h
      next ls1 b1 heq1 =>
        split at h
        · cases h
        next out2 b2 heq2 =>
          simp only [Except.ok.injEq, Prod.mk.injEq] at h
          rw [← h.1] at hd
          rcases List.mem_append.1 hd with hd | hd
          · obtain ⟨hls, -⟩ := format_block_comment_out hcm heq1
            rw [hls] at hd
            simp only [List.mem_singleton] at hd
            rw [hd]
            exact isCatAlt_commentDoc _
          · exact ih hlrest _ _ _ _ _ heq2 d hd
    · rw [if_neg hcm] at h
      split at h
      · cases h
      next ls1 b1 heq1 =>
        split at h
        · cases h
        next out2 b2 heq2 =>
          simp only [Except.ok.injEq, Prod.mk.injEq] at h
          rw [← h.1] at hd
          rcases List.mem_append.1 hd with hd | hd
          · exact hl c (by simp) (by simpa using hcm) _ _ _ _ _ heq1 d hd
          · exact ih hlrest _ _ _ _ _ heq2 d hd

theorem or_loop_catAlt (cfg : Cfg) :
    ∀ (cs : List TalonNode),
      (∀ c ∈ cs, c.isComment = false →
        ∀ ua un buf ls b1,
          format_block_match cfg c ua un buf = .ok (ls, b1) →
          ∀ d ∈ ls, isCatAlt d = true) →
      ∀ ua un buf out b',
        or_loop cfg cs ua un buf = .ok (out, b') →
        ∀ d ∈ out, isCatAlt d = true := by
  intro cs
  induction cs with
  | nil =>
    intro hl ua un buf out b' h d hd
    rw [or_loop] at h
    simp only [Except.ok.injEq, Prod.mk.injEq] at h
    rw [← h.1] at hd
    cases hd
  | cons c rest ih =>
    intro hl ua un buf out b' h d hd
    have hlrest : ∀ c' ∈ rest, c'.isComment = false →
        ∀ ua un buf ls b1,
          format_block_match cfg c' ua un buf = .ok (ls, b1) →
          ∀ d ∈ ls, isCatAlt d = true :=
      fun c' hc' => hl c' (by simp [hc'])
    rw [or_loop] at h
    by_cases hcm : c.isComment = true
    · rw [if_pos hcm] at h
      split at h
      · cases h
      next ls1 b1 heq1 =>
        split at h
        · cases h
        next out2 b2 heq2 =>
          simp only [Except.ok.injEq, Prod.mk.injEq] at h
          rw [← h.1] at hd
          rcases List.mem_append.1 hd with hd | hd
          · obtain ⟨hls, -⟩ := format_block_comment_out hcm heq1
            rw [hls] at hd
            simp only [List.mem_singleton] at hd
            rw [hd]
            exact isCatAlt_commentDoc _
          · exact ih hlrest _ _ _ _ _ heq2 d hd
    · rw [if_neg hcm] at h
      split at h
      · cases h
      next ls1 b1 heq1 =>
        dsimp only [get_formatted_comments] at h
        split at h
        · cases h
        next out2 b3 heq2 =>
          simp only [Except.ok.injEq, Prod.mk.injEq] at h
          rw [← h.1] at hd
          rcases List.mem_append.1 hd with hd | hd
          · rcases List.mem_append.1 hd with hd | hd
            · rcases List.mem_map.1 hd with ⟨i2, -, hi⟩
              rw [← hi]
              exact isCatAlt_commentDoc _
            · exact hl c (by simp) (by simpa using hcm) _ _ _ _ _ heq1 d hd
          · exact ih hlrest _ _ _ _ _ heq2 d hd

theorem fbm_catAlt_aux (cfg : Cfg) :
    ∀ (n : Nat) (c : TalonNode), msize c ≤ n → wfMatchLevel c = true →
      ∀ ua un buf ls b1,
        format_block_match cfg c ua un buf = .ok (ls, b1) →
        ∀ d ∈ ls, isCatAlt d = true := by
  intro n
  induction n using Nat.strong_induction_on with
  | _ n ihn =>
    intro c hsize hwf ua un buf ls b1 h d hd
    match c with
    | .comment i =>
      simp only [format_block_match] at h
      exact Except.noConfusion h
    | .error i =>
      simp only [format_block_match] at h
      exact Except.noConfusion h
    | .matchNode i k p cs =>
      simp only [format_block_match] at h
      split at h
      · cases h
      next b2 heq1 =>
        split at h
        · cases h
        next kd b3 heq2 =>
          split at h
          · cases h
          next pd b4 heq3 =>
            simp only [Except.ok.injEq, Prod.mk.injEq] at h
            rw [← h.1] at hd
            simp only [List.mem_singleton] at hd
            rw [hd]
            exact isCatAlt_match_line cfg _ _
    | .andNode i cs =>
      simp only [format_block_match] at h
      have hmem : ∀ c' ∈ cs, c'.isComment = false →
          ∀ ua un buf ls b1,
            format_block_match cfg c' ua un buf = .ok (ls, b1) →
            ∀ d ∈ ls, isCatAlt d = true := by
        intro c' hc' _ ua' un' buf' ls' b1' h' d' hd'
        have hsz : msize c' < n := by
          have h1 := msize_le_of_mem hc'
          have h2 : msize (TalonNode.andNode i cs) = 1 + msizeList cs := by
            simp [msize, ← msizeList_eq]
          omega
        have hwf' : wfMatchLevel c' = true := by
          rw [wfMatchLevel] at hwf
          exact wfMatchLevelList_mem hwf hc'
        exact ihn (msize c') hsz c' le_rfl hwf' ua' un' buf' ls' b1' h' d' hd'
      exact and_loop_catAlt cfg cs hmem ua un buf ls b1 h d hd
    | .notNode i cs =>
      simp only [format_block_match] at h
      have hmem : ∀ c' ∈ cs, c'.isComment = false →
          ∀ ua un buf ls b1,
            format_block_match cfg c' ua un buf = .ok (ls, b1) →
            ∀ d ∈ ls, isCatAlt d = true := by
        intro c' hc' _ ua' un' buf' ls' b1' h' d' hd'
        have hsz : msize c' < n := by
          have h1 := msize_le_of_mem hc'
          have h2 : msize (TalonNode.notNode i cs) = 1 + msizeList cs := by
            simp [msize, ← msizeList_eq]
          omega
        have hwf' : wfMatchLevel c' = true := by
          rw [wfMatchLevel] at hwf
          exact wfMatchLevelList_mem hwf hc'
        exact ihn (msize c') hsz c' le_rfl hwf' ua' un' buf' ls' b1' h' d' hd'
      exact not_loop_catAlt cfg cs hmem ua un buf ls b1 h d hd
    | .orNode i cs =>
      simp only [format_block_match] at h
      have hmem : ∀ c' ∈ cs, c'.isComment = false →
          ∀ ua un buf ls b1,
            format_block_match cfg c' ua un buf = .ok (ls, b1) →
            ∀ d ∈ ls, isCatAlt d = true := by
        intro c' hc' _ ua' un' buf' ls' b1' h' d' hd'
        have hsz : msize c' < n := by
          have h1 := msize_le_of_mem hc'
          have h2 : msize (TalonNode.orNode i cs) = 1 + msizeList cs := by
            simp [msize, ← msizeList_eq]
          omega
        have hwf' : wfMatchLevel c' = true := by
          rw [wfMatchLevel] at hwf
          exact wfMatchLevelList_mem hwf hc'
        exact ihn (msize c') hsz c' le_rfl hwf' ua' un' buf' ls' b1' h' d' hd'
      exact or_loop_catAlt cfg cs hmem ua un buf ls b1 h d hd
    | .docstring i | .word i | .identifier i | .implicitString i
    | .rule i l | .parenthesizedExpression i l | .context i l
    | .includeTag i t l | .settings i l | .block i l | .assignment i a b2 l
    | .exprStmt i e l | .command i r sc l | .sourceFile i l =>
      simp only [wfMatchLevel] at hwf
      exact Bool.noConfusion hwf

theorem match_child_out_catAlt (cfg : Cfg) (c : TalonNode)
    (hwf : wfMatchLevel c = true) :
    ∀ buf ls b1, format_block cfg c buf = .ok (ls, b1) →
      ∀ d ∈ ls, isCatAlt d = true := by
  intro buf ls b1 h d hd
  match c with
  | .comment i =>
    obtain ⟨hls, -⟩ := @format_block_comment_out cfg (.comment i) buf ls b1 rfl h
    rw [hls] at hd
    simp only [List.mem_singleton] at hd
    rw [hd]
    exact isCatAlt_commentDoc _
  | .error i =>
    simp only [format_block] at h
    exact Except.noConfusion h
  | .matchNode i k p cs =>
    simp only [format_block] at h
    exact fbm_catAlt_aux cfg _ _ le_rfl hwf _ _ _ _ _ h d hd
  | .andNode i cs =>
    simp only [format_block] at h
    exact fbm_catAlt_aux cfg _ _ le_rfl hwf _ _ _ _ _ h d hd
  | .notNode i cs =>
    simp only [format_block] at h
    exact fbm_catAlt_aux cfg _ _ le_rfl hwf _ _ _ _ _ h d hd
  | .orNode i cs =>
    simp only [format_block] at h
    exact fbm_catAlt_aux cfg _ _ le_rfl hwf _ _ _ _ _ h d hd
  | .docstring i | .word i | .identifier i | .implicitString i
  | .rule i l | .parenthesizedExpression i l | .context i l
  | .includeTag i t l | .settings i l | .block i l | .assignment i a b2 l
  | .exprStmt i e l | .command i r sc l | .sourceFile i l =>
    simp only [wfMatchLevel] at hwf
    exact Bool.noConfusion hwf

theorem ctx_loop_catAlt (cfg : Cfg) :
    ∀ (cs : List TalonNode), (∀ c ∈ cs, wfMatchLevel c = true) →
      ∀ buf out b', ctx_loop cfg cs buf = .ok (out, b') →
        ∀ d ∈ out, isCatAlt d = true := by
  intro cs
  induction cs with
  | nil =>
    intro hall buf out b' h d hd
    rw [ctx_loop] at h
    simp only [Except.ok.injEq, Prod.mk.injEq] at h
    rw [← h.1] at hd
    cases hd
  | cons c rest ih =>
    intro hall buf out b' h d hd
    rw [ctx_loop] at h
    split at h
    · cases h
    next ls1 b1 heq1 =>
      dsimp only [get_formatted_comments] at h
      split at h
      · cases h
      next out2 b3 heq2 =>
        simp only [Except.ok.injEq, Prod.mk.injEq] at h
        rw [← h.1] at hd
        rcases List.mem_append.1 hd with hd | hd
        · rcases List.mem_append.1 hd with hd | hd
          · rcases List.mem_map.1 hd with ⟨i2, -, hi⟩
            rw [← hi]
            exact isCatAlt_commentDoc _
          · exact match_child_out_catAlt cfg c (hall c (by simp)) _ _ _ heq1
              d hd
        · exact ih (fun x hx => hall x (by simp [hx])) _ _ _ heq2 d hd

theorem top_child_out_catAlt (cfg : Cfg) (c : TalonNode)
    (hwf : wfTop c = true) :
    ∀ buf ls b1, format_block cfg c buf = .ok (ls, b1) →
      ∀ d ∈ ls, isCatAlt d = true := by
  intro buf ls b1 h d hd
  match c with
  | .comment i =>
    obtain ⟨hls, -⟩ := @format_block_comment_out cfg (.comment i) buf ls b1 rfl h
    rw [hls] at hd
    simp only [List.mem_singleton] at hd
    rw [hd]
    exact isCatAlt_commentDoc _
  | .docstring i =>
    rw [format_block] at h
    simp only [Except.ok.injEq, Prod.mk.injEq] at h
    rw [← h.1] at hd
    simp only [List.mem_singleton] at hd
    rw [hd]
    exact isCatAlt_docstringDoc _
  | .error i =>
    simp only [format_block] at h
    exact Except.noConfusion h
  | .context i cs =>
    rw [format_block] at h
    refine ctx_loop_catAlt cfg cs ?_ _ _ _ h d hd
    intro x hx
    rw [wfTop] at hwf
    exact wfMatchLevelList_mem hwf hx
  | .includeTag i t cs =>
    rw [format_block] at h
    split at h
    · cases h
    next b1' heq1 =>
      dsimp only [get_formatted_comments] at h
      split at h
      · cases h
      next td b3 heq2 =>
        simp only [Except.ok.injEq, Prod.mk.injEq] at h
        rw [← h.1] at hd
        rcases List.mem_append.1 hd with hd | hd
        · rcases List.mem_map.1 hd with ⟨i2, -, hi⟩
          rw [← hi]
          exact isCatAlt_commentDoc _
        · simp only [List.mem_singleton] at hd
          rw [hd]
          rfl
  | .settings i cs =>
    rw [format_block] at h
    split at h
    · cases h
    next b2 b1' heq1 =>
      dsimp only [get_comments] at h
      split at h
      · cases h
      next ls2 b3 heq2 =>
        simp only [Except.ok.injEq, Prod.mk.injEq] at h
        rw [← h.1] at hd
        simp only [List.mem_singleton] at hd
        rw [hd]
        rfl
  | .command i r sc cs =>
    rw [format_block] at h
    split at h
    · cases h
    next rd b1' heq1 =>
      dsimp only [get_formatted_comments] at h
      split at h
      · cases h
      next ls2 b3 heq2 =>
        simp only [Except.ok.injEq, Prod.mk.injEq] at h
        rw [← h.1] at hd
        rcases List.mem_append.1 hd with hd | hd
        · rcases List.mem_map.1 hd with ⟨i2, -, hi⟩
          rw [← hi]
          exact isCatAlt_commentDoc _
        · simp only [List.mem_singleton] at hd
          rw [hd]
          rfl
  | .word i | .identifier i | .implicitString i | .rule i l
  | .parenthesizedExpression i l | .matchNode i k p l | .andNode i l
  | .notNode i l | .orNode i l | .block i l | .assignment i a b2 l
  | .exprStmt i e l | .sourceFile i l =>
    simp only [wfTop] at hwf
    exact Bool.noConfusion hwf

theorem sepCount_zero_of_catAlt {ds : List Doc}
    (h : ∀ d ∈ ds, isCatAlt d = true) : sepCount ds = 0 := by
  rw [sepCount, List.countP_eq_zero]
  intro d hd
  rw [isSepText_of_catAlt (h d hd)]
  simp

theorem sepCount_append (xs ys : List Doc) :
    sepCount (xs ++ ys) = sepCount xs + sepCount ys :=
  List.countP_append _ _ _

theorem format_comment_out {cfg : Cfg} {c : TalonNode} {buf : Buf} {d : Doc}
    {b1 : Buf} (hc : c.isComment = true)
    (h : format cfg c buf = .ok (d, b1)) :
    d = commentDoc c.infoOf ∧ b1 = buf := by
  cases c <;> simp [TalonNode.isComment] at hc
  rw [format] at h
  simp only [Except.ok.injEq, Prod.mk.injEq] at h
  exact ⟨h.1.symm, h.2.symm⟩

theorem sepCount_nil : sepCount [] = 0 := rfl

theorem sepCount_cons_sep (ds : List Doc) :
    sepCount (Doc.Text "-" :: ds) = sepCount ds + 1 := by
  simp [sepCount, List.countP_cons, isSepText]

theorem sf_loop_sepCount (cfg : Cfg) :
    ∀ (cs : List TalonNode) (inHeader : Bool) (cbuf sbuf : List Doc)
      (buf : Buf) (out : List Doc) (b' : Buf),
      (∀ c ∈ cs, wfTop c = true) →
      (∀ d ∈ cbuf, isCatAlt d = true) →
      (∀ d ∈ sbuf, isCatAlt d = true) →
      sf_loop cfg cs inHeader cbuf sbuf buf = .ok (out, b') →
      sepCount out = (if inHeader then 1 else 0) := by
  intro cs
  induction cs with
  | nil =>
    intro inHeader cbuf sbuf buf out b' hwf hcb hsb h
    rw [sf_loop] at h
    simp only [Except.ok.injEq, Prod.mk.injEq] at h
    rw [← h.1, sepCount_append]
    have h2 : sepCount (if cfg.align_short_commands.isTrue = true then
        create_tables sbuf else []) = 0 := by
      split
      · exact sepCount_zero_of_catAlt (create_tables_catAlt sbuf hsb)
      · rfl
    have h3 : sepCount cbuf = 0 := sepCount_zero_of_catAlt hcb
    have h4 := sepCount_cons_sep cbuf
    by_cases hih : inHeader = true
    · rw [if_pos hih, if_pos hih]
      omega
    · rw [if_neg hih, if_neg hih, sepCount_nil]
      omega
  | cons c rest ih =>
    intro inHeader cbuf sbuf buf out b' hwf hcb hsb h
    have hwfc : wfTop c = true := hwf c (by simp)
    have hwfrest : ∀ x ∈ rest, wfTop x = true :=
      fun x hx => hwf x (by simp [hx])
    have hc0 : sepCount cbuf = 0 := sepCount_zero_of_catAlt hcb
    have hcs := sepCount_cons_sep cbuf
    rw [sf_loop] at h
    by_cases h1 : (inHeader && c.isComment) = true
    · rw [if_pos h1] at h
      split at h
      · cases h
      next d1 b1 heq1 =>
        obtain ⟨hd1, -⟩ :=
          format_comment_out (Bool.and_eq_true .. ▸ h1).2 heq1
        exact ih inHeader (cbuf ++ [d1]) sbuf b1 out b' hwfrest
          (by
            intro x hx
            rcases List.mem_append.1 hx with hx | hx
            · exact hcb x hx
            · simp only [List.mem_singleton] at hx
              rw [hx, hd1]
              exact isCatAlt_commentDoc _)
          hsb h
    · rw [if_neg h1] at h
      by_cases h2 : c.isContext = true
      · rw [if_pos h2] at h
        cases hih : inHeader with
        | false => rw [hih] at h; simp at h
        | true =>
          rw [hih] at h
          simp only [if_true] at h
          split at h
          · cases h
          next ls1 b1 heq1 =>
            split at h
            · cases h
            next out2 b2 heq2 =>
              simp only [Except.ok.injEq, Prod.mk.injEq] at h
              rw [← h.1, sepCount_append, sepCount_append]
              have hz1 : sepCount ls1 = 0 := sepCount_zero_of_catAlt
                (top_child_out_catAlt cfg c hwfc _ _ _ heq1)
              have hrest := ih true [] sbuf b1 out2 b2 hwfrest (by simp)
                hsb heq2
              simp only [if_true] at hrest ⊢
              omega
      · rw [if_neg h2] at h
        by_cases h3 : cfg.align_short_commands.isTrue = true
        · rw [if_pos h3] at h
          by_cases h4 : (c.isCommand && is_short_command c) = true
          · rw [if_pos h4] at h
            split at h
            · cases h
            next ls1 b1 heq1 =>
              split at h
              · cases h
              next out2 b2 heq2 =>
                simp only [Except.ok.injEq, Prod.mk.injEq] at h
                rw [← h.1, sepCount_append]
                have hls1 := top_child_out_catAlt cfg c hwfc _ _ _ heq1
                have hrest := ih _ _ _ b1 out2 b2 hwfrest
                  (by
                    by_cases hsep : (inHeader && c.isBodyOnly) = true
                    · simp [hsep]
                    · simp only [hsep, if_false]
                      exact hcb)
                  (by
                    intro x hx
                    rcases List.mem_append.1 hx with hx | hx
                    · exact hsb x hx
                    · exact hls1 x hx)
                  heq2
                by_cases hsep : (inHeader && c.isBodyOnly) = true
                · have hih : inHeader = true := (Bool.and_eq_true .. ▸ hsep).1
                  subst hih
                  rw [if_pos hsep] at hrest ⊢
                  have hr0 : sepCount out2 = 0 := hrest.trans rfl
                  have htt : true = true := rfl
                  rw [if_pos htt]
                  omega
                · rw [if_neg hsep] at hrest ⊢
                  rw [sepCount_nil]
                  omega
          · rw [if_neg h4] at h
            split at h
            · cases h
            next ls1 b1 heq1 =>
              split at h
              · cases h
              next out2 b2 heq2 =>
                simp only [Except.ok.injEq, Prod.mk.injEq] at h
                rw [← h.1, sepCount_append, sepCount_append,
                  sepCount_append]
                have hz1 : sepCount ls1 = 0 := sepCount_zero_of_catAlt
                  (top_child_out_catAlt cfg c hwfc _ _ _ heq1)
                have htbl : sepCount (create_tables sbuf) = 0 :=
                  sepCount_zero_of_catAlt (create_tables_catAlt sbuf hsb)
                have hrest := ih _ _ _ b1 out2 b2 hwfrest
                  (by
                    by_cases hsep : (inHeader && c.isBodyOnly) = true
                    · simp [hsep]
                    · simp only [hsep, if_false]
                      exact hcb)
                  (by intro x hx; cases hx)
                  heq2
                by_cases hsep : (inHeader && c.isBodyOnly) = true
                · have hih : inHeader = true := (Bool.and_eq_true .. ▸ hsep).1
                  subst hih
                  rw [if_pos hsep] at hrest ⊢
                  have hr0 : sepCount out2 = 0 := hrest.trans rfl
                  have htt : true = true := rfl
                  rw [if_pos htt]
                  omega
                · rw [if_neg hsep] at hrest ⊢
                  rw [sepCount_nil]
                  omega
        · rw [if_neg h3] at h
          split at h
          · cases h
          next ls1 b1 heq1 =>
            split at h
            · cases h
            next out2 b2 heq2 =>
              simp only [Except.ok.injEq, Prod.mk.injEq] at h
              rw [← h.1, sepCount_append, sepCount_append]
              have hz1 : sepCount ls1 = 0 := sepCount_zero_of_catAlt
                (top_child_out_catAlt cfg c hwfc _ _ _ heq1)
              have hrest := ih _ _ _ b1 out2 b2 hwfrest
                (by
                  by_cases hsep : (inHeader && c.isBodyOnly) = true
                  · simp [hsep]
                  · simp only [hsep, if_false]
                    exact hcb)
                hsb heq2
              by_cases hsep : (inHeader && c.isBodyOnly) = true
              · have hih : inHeader = true := (Bool.and_eq_true .. ▸ hsep).1
                subst hih
                rw [if_pos hsep] at hrest ⊢
                have hr0 : sepCount out2 = 0 := hrest.trans rfl
                have htt : true = true := rfl
                rw [if_pos htt]
                omega
              · rw [if_neg hsep] at hrest ⊢
                rw [sepCount_nil]
                omega

/-- C1 counterexample: for a source file containing only a comment — so no
body-only node exists — the separator is emitted but it is not at the end of
the output: the buffered header comment follows it. -/
theorem source_sep_claim_false :
    format_block cfgPlain (exFile [exComment "# c"]) [] =
      .ok ([Doc.Text "-", Doc.Cat (Doc.Text "#") (Doc.Text " c")], []) ∧
    [Doc.Text "-", Doc.Cat (Doc.Text "#") (Doc.Text " c")].getLast? ≠
      some (Doc.Text "-") := by
  constructor
  · simp [format_block, sf_loop, format, commentDoc, text_words, stripHash,
      exFile, exComment, mkInfo, cfgPlain, PyVal.isTrue,
      TalonNode.isComment, TalonNode.infoOf]
  · simp

/-- C1 (amended): on well-formed children the source-file handler emits the
`-` separator exactly once whenever it succeeds; the separator precedes any
buffered header comments rather than standing immediately before the first
body-only node or at the very end of the output.  In particular, for a file
holding a single command and no context, with alignment off, the output is
exactly the separator followed by the command's lines. -/
theorem source_sep_amended (cfg : Cfg) (i : NodeInfo) (cs : List TalonNode)
    (buf : Buf) (out : List Doc) (b' : Buf)
    (hwf : ∀ c ∈ cs, wfTop c = true)
    (h : format_block cfg (.sourceFile i cs) buf = .ok (out, b')) :
    sepCount out = 1 ∧
    ∀ cmd, cs = [cmd] → cmd.isCommand = true →
      cfg.align_short_commands.isTrue = false →
      ∃ ls b1, format_block cfg cmd buf = .ok (ls, b1) ∧
        out = Doc.Text "-" :: ls := by
  rw [format_block] at h
  refine ⟨sf_loop_sepCount cfg cs true [] [] buf out b' hwf (by simp)
    (by simp) h, ?_⟩
  intro cmd hcs hcmd halign
  subst hcs
  rw [sf_loop_no_buffering cfg halign] at h
  cases cmd <;> simp [TalonNode.isCommand] at hcmd
  rw [sf_simple] at h
  simp only [TalonNode.isComment, TalonNode.isContext, TalonNode.isBodyOnly,
    Bool.and_false, Bool.and_true, Bool.false_eq_true, if_false,
    eq_self_iff_true, if_true] at h
  split at h
  · exact Except.noConfusion h
  next ls b1 heq1 =>
    rw [sf_simple] at h
    simp only [Bool.false_eq_true, if_false, List.append_nil,
      List.cons_append, List.nil_append, Except.ok.injEq,
      Prod.mk.injEq] at h
    exact ⟨ls, b1, heq1, h.1.symm⟩

/-- C1 amended, witness: the amended theorem applied to the one-command file
`foo: a()` with alignment off. -/
theorem source_sep_amended_witness :
    sepCount [Doc.Text "-",
      Doc.Alt (expandedCmd "foo" "a()")
        (Doc.Cat (Doc.dslash (Doc.Text "foo") (Doc.Text ":"))
          (Doc.Cat Doc.Space (Doc.Text "a()")))] = 1 :=
  (source_sep_amended cfgPlain (mkInfo "" "source_file")
    [exCommand "foo" (exBlock [exStmt "a()"]) []] []
    [Doc.Text "-",
      Doc.Alt (expandedCmd "foo" "a()")
        (Doc.Cat (Doc.dslash (Doc.Text "foo") (Doc.Text ":"))
          (Doc.Cat Doc.Space (Doc.Text "a()")))] []
    (by intro c hc; simp only [List.mem_singleton] at hc; subst hc; rfl)
    (by simp [format_block, sf_loop, format, block_loop,
      get_formatted_comments, assert_only_comments, store_comments,
      text_words, splitWords, splitWordsAux, wordsDoc, exCommand, exBlock,
      exStmt, exIdent, mkInfo, cfgPlain, format_short_command,
      is_short_command, PyVal.isTrue, PyVal.truthy, TalonNode.isComment,
      TalonNode.isContext, TalonNode.isBodyOnly, TalonNode.isCommand,
      TalonNode.childrenList, Doc.lineJoin, Doc.dslash, Doc.dspace,
      Doc.nestCat, Doc.catList, expandedCmd])).1

/-! Claim C7: error nodes and exception propagation. -/

/-- hasErr decides whether a tree contains a `TalonError` node at any
position, including the expression fields of matches, tag includes,
assignments, expression statements and commands. -/
def hasErr : TalonNode → Bool
  | .comment _ => false
  | .docstring _ => false
  | .error _ => true
  | .word _ => false
  | .identifier _ => false
  | .implicitString _ => false
  | .rule _ cs => hasErrList cs
  | .parenthesizedExpression _ cs => hasErrList cs
  | .matchNode _ k p cs => hasErr k || hasErr p || hasErrList cs
  | .andNode _ cs => hasErrList cs
  | .notNode _ cs => hasErrList cs
  | .orNode _ cs => hasErrList cs
  | .context _ cs => hasErrList cs
  | .includeTag _ t cs => hasErr t || hasErrList cs
  | .settings _ cs => hasErrList cs
  | .block _ cs => hasErrList cs
  | .assignment _ l r cs => hasErr l || hasErr r || hasErrList cs
  | .exprStmt _ e cs => hasErr e || hasErrList cs
  | .command _ r s cs => hasErr r || hasErr s || hasErrList cs
  | .sourceFile _ cs => hasErrList cs
where
  /-- hasErrList decides whether any node of a list contains an error. -/
  hasErrList : List TalonNode → Bool
    | [] => false
    | c :: cs => hasErr c || hasErrList cs

/-- wfScripts holds when every command's `script` field is a block node
(recursively), which is the `TalonCommandDeclaration.script: TalonBlock`
type annotation of the parser's AST; the formatter reads only
`script.children` (through `block_with_comments`), so this is the one typing
fact that error propagation depends on. -/
def wfScripts : TalonNode → Bool
  | .comment _ => true
  | .docstring _ => true
  | .error _ => true
  | .word _ => true
  | .identifier _ => true
  | .implicitString _ => true
  | .rule _ cs => wfScriptsList cs
  | .parenthesizedExpression _ cs => wfScriptsList cs
  | .matchNode _ k p cs => wfScripts k && wfScripts p && wfScriptsList cs
  | .andNode _ cs => wfScriptsList cs
  | .notNode _ cs => wfScriptsList cs
  | .orNode _ cs => wfScriptsList cs
  | .context _ cs => wfScriptsList cs
  | .includeTag _ t cs => wfScripts t && wfScriptsList cs
  | .settings _ cs => wfScriptsList cs
  | .block _ cs => wfScriptsList cs
  | .assignment _ l r cs => wfScripts l && wfScripts r && wfScriptsList cs
  | .exprStmt _ e cs => wfScripts e && wfScriptsList cs
  | .command _ r s cs =>
      s.isBlock && wfScripts r && wfScripts s && wfScriptsList cs
  | .sourceFile _ cs => wfScriptsList cs
where
  /-- wfScriptsList checks every node of a list. -/
  wfScriptsList : List TalonNode → Bool
    | [] => true
    | c :: cs => wfScripts c && wfScriptsList cs

theorem hasErr_of_comment {c : TalonNode} (hc : c.isComment = true) :
    hasErr c = false := by
  cases c <;> simp_all [TalonNode.isComment, hasErr]

theorem hasErrList_append (xs ys : List TalonNode) :
    hasErr.hasErrList (xs ++ ys) =
      (hasErr.hasErrList xs || hasErr.hasErrList ys) := by
  induction xs with
  | nil => simp [hasErr.hasErrList]
  | cons c cs ih =>
    simp only [List.cons_append, hasErr.hasErrList, List.append_eq, ih,
      Bool.or_assoc]

theorem hasErrList_comments (infos : Buf) :
    hasErr.hasErrList (infos.map TalonNode.comment) = false := by
  induction infos with
  | nil => rfl
  | cons i is ih => simp only [List.map_cons, hasErr.hasErrList, hasErr, ih,
      Bool.or_self]

theorem hasErrList_of_mem {c : TalonNode} {cs : List TalonNode} (hm : c ∈ cs)
    (hc : hasErr c = true) : hasErr.hasErrList cs = true := by
  induction cs with
  | nil => cases hm
  | cons x xs ih =>
    rcases List.mem_cons.1 hm with rfl | hm2
    · simp [hasErr.hasErrList, hc]
    · simp [hasErr.hasErrList, ih hm2]

theorem wfScriptsList_append (xs ys : List TalonNode) :
    wfScripts.wfScriptsList (xs ++ ys) =
      (wfScripts.wfScriptsList xs && wfScripts.wfScriptsList ys) := by
  induction xs with
  | nil => simp [wfScripts.wfScriptsList]
  | cons c cs ih =>
    simp only [List.cons_append, wfScripts.wfScriptsList, List.append_eq,
      ih, Bool.and_assoc]

theorem wfScriptsList_comments (infos : Buf) :
    wfScripts.wfScriptsList (infos.map TalonNode.comment) = true := by
  induction infos with
  | nil => rfl
  | cons i is ih => simp only [List.map_cons, wfScripts.wfScriptsList,
      wfScripts, ih, Bool.and_self]

theorem wfScriptsList_mem {c : TalonNode} {cs : List TalonNode}
    (hall : wfScripts.wfScriptsList cs = true) (hm : c ∈ cs) :
    wfScripts c = true := by
  induction cs with
  | nil => cases hm
  | cons x xs ih =>
    rw [wfScripts.wfScriptsList, Bool.and_eq_true] at hall
    rcases List.mem_cons.1 hm with rfl | hm2
    · exact hall.1
    · exact ih hall.2 hm2

theorem store_comments_hasErr {nt : NType} :
    ∀ {cs : List TalonNode} {buf : Buf} {kept : List TalonNode} {b : Buf},
      store_comments nt cs buf = .ok (kept, b) →
      hasErr.hasErrList kept = hasErr.hasErrList cs := by
  intro cs
  induction cs with
  | nil =>
    intro buf kept b h
    simp only [store_comments, Except.ok.injEq, Prod.mk.injEq] at h
    rw [← h.1]
  | cons c cs ih =>
    intro buf kept b h
    rw [store_comments] at h
    split at h
    next hc =>
      rw [ih h, hasErr.hasErrList, hasErr_of_comment hc, Bool.false_or]
    next hc =>
      split at h
      · split at h
        next kept2 b2 heq =>
          simp only [Except.ok.injEq, Prod.mk.injEq] at h
          rw [← h.1, hasErr.hasErrList, hasErr.hasErrList, ih heq]
        · exact Except.noConfusion h
      · exact Except.noConfusion h

theorem store_comments_isBlock :
    ∀ {cs : List TalonNode} {buf : Buf} {kept : List TalonNode} {b : Buf},
      store_comments .blockN cs buf = .ok (kept, b) →
      ∀ k ∈ kept, k.isBlock = true := by
  intro cs
  induction cs with
  | nil =>
    intro buf kept b h k hk
    simp only [store_comments, Except.ok.injEq, Prod.mk.injEq] at h
    rw [← h.1] at hk
    cases hk
  | cons c cs ih =>
    intro buf kept b h k hk
    rw [store_comments] at h
    split at h
    · exact ih h k hk
    next hc =>
      split at h
      next hm =>
        split at h
        next kept2 b2 heq =>
          simp only [Except.ok.injEq, Prod.mk.injEq] at h
          rw [← h.1] at hk
          rcases List.mem_cons.1 hk with rfl | hk2
          · exact hm
          · exact ih heq k hk2
        · exact Except.noConfusion h
      · exact Except.noConfusion h

theorem assert_only_comments_hasErr {cs : List TalonNode} {buf b1 : Buf}
    (h : assert_only_comments cs buf = .ok b1) :
    hasErr.hasErrList cs = false := by
  unfold assert_only_comments at h
  split at h
  · cases h
  next kept b2 heq =>
    split at h
    next hk =>
      rw [← store_comments_hasErr heq, List.isEmpty_iff.1 hk]
      rfl
    next => cases h

theorem get_node_with_type_hasErr {nt : NType} {cs : List TalonNode}
    {buf : Buf} {n : TalonNode} {b : Buf}
    (h : get_node_with_type nt cs buf = .ok (n, b)) :
    hasErr.hasErrList cs = hasErr n := by
  unfold get_node_with_type at h
  split at h
  · cases h
  next kept b2 heq =>
    split at h
    next m =>
      simp only [Except.ok.injEq, Prod.mk.injEq] at h
      rcases h with ⟨h1, -⟩
      rw [← store_comments_hasErr heq, h1, hasErr.hasErrList,
        hasErr.hasErrList, Bool.or_false]
    next => cases h

theorem get_node_with_type_block {cs : List TalonNode} {buf : Buf}
    {n : TalonNode} {b : Buf}
    (h : get_node_with_type .blockN cs buf = .ok (n, b)) :
    n.isBlock = true := by
  unfold get_node_with_type at h
  split at h
  · cases h
  next kept b2 heq =>
    split at h
    next m =>
      simp only [Except.ok.injEq, Prod.mk.injEq] at h
      rcases h with ⟨h1, -⟩
      exact h1 ▸ store_comments_isBlock heq m (by simp)
    next => cases h

theorem hasErr_isBlock {n : TalonNode} (hb : n.isBlock = true) :
    hasErr n = hasErr.hasErrList n.childrenList := by
  cases n <;> simp_all [TalonNode.isBlock, hasErr, TalonNode.childrenList]

theorem wfScripts_isBlock {n : TalonNode} (hb : n.isBlock = true) :
    wfScripts n = wfScripts.wfScriptsList n.childrenList := by
  cases n <;> simp_all [TalonNode.isBlock, wfScripts, TalonNode.childrenList]

set_option maxHeartbeats 2000000 in
theorem format_hasErr_error (cfg : Cfg) (node : TalonNode) (buf : Buf) :
    wfScripts node = true → hasErr node = true →
    ∃ e, format cfg node buf = .error e := by
  apply format.induct cfg
    (fun n b => wfScripts n = true → hasErr n = true →
      ∃ e, format cfg n b = .error e)
    (fun n b => wfScripts n = true → hasErr n = true →
      ∃ e, format_block cfg n b = .error e)
    (fun n ua un b => wfScripts n = true → hasErr n = true →
      ∃ e, format_block_match cfg n ua un b = .error e)
    (fun cs ua un b => wfScripts.wfScriptsList cs = true →
      hasErr.hasErrList cs = true → ∃ e, or_loop cfg cs ua un b = .error e)
    (fun cs ua un b => wfScripts.wfScriptsList cs = true →
      hasErr.hasErrList cs = true → ∃ e, not_loop cfg cs ua un b = .error e)
    (fun cs ua un b => wfScripts.wfScriptsList cs = true →
      hasErr.hasErrList cs = true → ∃ e, and_loop cfg cs ua un b = .error e)
    (fun cs b => wfScripts.wfScriptsList cs = true →
      hasErr.hasErrList cs = true → ∃ e, block_loop cfg cs b = .error e)
    (fun cs b => wfScripts.wfScriptsList cs = true →
      hasErr.hasErrList cs = true → ∃ e, ctx_loop cfg cs b = .error e)
    (fun cs ihdr cb sb b => wfScripts.wfScriptsList cs = true →
      hasErr.hasErrList cs = true →
      ∃ e, sf_loop cfg cs ihdr cb sb b = .error e)
    (fun cs b => wfScripts.wfScriptsList cs = true →
      hasErr.hasErrList cs = true → ∃ e, format_children cfg cs b = .error e)
  case case1 =>
    intro b i hwf hE
    simp only [hasErr] at hE
    exact Bool.noConfusion hE
  case case2 =>
    intro b i hwf hE
    simp only [hasErr] at hE
    exact Bool.noConfusion hE
  case case3 =>
    intro b i hwf hE
    simp only [hasErr] at hE
    exact Bool.noConfusion hE
  case case4 =>
    intro b i hwf hE
    simp only [hasErr] at hE
    exact Bool.noConfusion hE
  case case5 =>
    intro b i hwf hE
    simp only [hasErr] at hE
    exact Bool.noConfusion hE
  case case6 =>
    intro b info cs e heq ih hwf hE
    simp only [wfScripts] at hwf
    simp only [hasErr] at hE
    obtain ⟨e2, he⟩ := ih hwf hE
    exact ⟨e2, by rw [format, he]⟩
  case case7 =>
    intro b info cs ds b1 heq ih hwf hE
    simp only [wfScripts] at hwf
    simp only [hasErr] at hE
    obtain ⟨e2, he⟩ := ih hwf hE
    exact ⟨e2, by rw [format, he]⟩
  case case8 =>
    intro b info cs e heq hwf hE
    refine ⟨e, ?_⟩
    rw [format]
    split
    next e2 heq2 =>
      rw [heq] at heq2
      cases heq2
      rfl
    next n b1 heq2 =>
      rw [heq] at heq2
      exact Except.noConfusion heq2
  case case9 =>
    intro b info cs n b1 heq1 e hfe ih hwf hE
    refine ⟨e, ?_⟩
    rw [format]
    split
    next e2 heq2 =>
      rw [heq1] at heq2
      exact Except.noConfusion heq2
    next n2 b2 heq2 =>
      rw [heq1] at heq2
      cases heq2
      split
      next e3 heq3 =>
        rw [hfe] at heq3
        cases heq3
        rfl
      next d b3 heq3 =>
        rw [hfe] at heq3
        exact Except.noConfusion heq3
  case case10 =>
    intro b info cs n b1 heq1 d b2 heq2 ih hwf hE
    simp only [wfScripts] at hwf
    simp only [hasErr] at hE
    rw [get_node] at heq1
    rw [get_node_with_type_hasErr heq1] at hE
    obtain ⟨e, he⟩ := ih (wfScriptsList_mem hwf (get_node_with_type_mem heq1))
      hE
    rw [heq2] at he
    exact Except.noConfusion he
  case case11 =>
    intro b info hwf hE
    exact ⟨_, by rw [format]⟩
  case case12 =>
    intro b info k p cs hwf hE
    exact ⟨_, by rw [format]⟩
  case case13 =>
    intro b info cs hwf hE
    exact ⟨_, by rw [format]⟩
  case case14 =>
    intro b info cs hwf hE
    exact ⟨_, by rw [format]⟩
  case case15 =>
    intro b info cs hwf hE
    exact ⟨_, by rw [format]⟩
  case case16 =>
    intro b i cs e heq ih hwf hE
    obtain ⟨e2, he⟩ := ih hwf hE
    exact ⟨e2, by rw [format, he]⟩
  case case17 =>
    intro b i cs ds b1 heq ih hwf hE
    obtain ⟨e2, he⟩ := ih hwf hE
    exact ⟨e2, by rw [format, he]⟩
  case case18 =>
    intro b i cs e heq ih hwf hE
    obtain ⟨e2, he⟩ := ih hwf hE
    exact ⟨e2, by rw [format, he]⟩
  case case19 =>
    intro b i cs ds b1 heq ih hwf hE
    obtain ⟨e2, he⟩ := ih hwf hE
    exact ⟨e2, by rw [format, he]⟩
  case case20 =>
    intro b i t cs e heq ih hwf hE
    obtain ⟨e2, he⟩ := ih hwf hE
    exact ⟨e2, by rw [format, he]⟩
  case case21 =>
    intro b i t cs ds b1 heq ih hwf hE
    obtain ⟨e2, he⟩ := ih hwf hE
    exact ⟨e2, by rw [format, he]⟩
  case case22 =>
    intro b i cs e heq ih hwf hE
    obtain ⟨e2, he⟩ := ih hwf hE
    exact ⟨e2, by rw [format, he]⟩
  case case23 =>
    intro b i cs ds b1 heq ih hwf hE
    obtain ⟨e2, he⟩ := ih hwf hE
    exact ⟨e2, by rw [format, he]⟩
  case case24 =>
    intro b i r sc cs e heq ih hwf hE
    obtain ⟨e2, he⟩ := ih hwf hE
    exact ⟨e2, by rw [format, he]⟩
  case case25 =>
    intro b i r sc cs ds b1 heq ih hwf hE
    obtain ⟨e2, he⟩ := ih hwf hE
    exact ⟨e2, by rw [format, he]⟩
  case case26 =>
    intro b i cs e heq ih hwf hE
    obtain ⟨e2, he⟩ := ih hwf hE
    exact ⟨e2, by rw [format, he]⟩
  case case27 =>
    intro b i cs ds b1 heq ih hwf hE
    obtain ⟨e2, he⟩ := ih hwf hE
    exact ⟨e2, by rw [format, he]⟩
  case case28 =>
    intro b i l r cs e heq ih hwf hE
    obtain ⟨e2, he⟩ := ih hwf hE
    exact ⟨e2, by rw [format, he]⟩
  case case29 =>
    intro b i l r cs ds b1 heq ih hwf hE
    obtain ⟨e2, he⟩ := ih hwf hE
    exact ⟨e2, by rw [format, he]⟩
  case case30 =>
    intro b i e2 cs e heq ih hwf hE
    obtain ⟨e2, he⟩ := ih hwf hE
    exact ⟨e2, by rw [format, he]⟩
  case case31 =>
    intro b i e2 cs ds b1 heq ih hwf hE
    obtain ⟨e2, he⟩ := ih hwf hE
    exact ⟨e2, by rw [format, he]⟩
  case case32 =>
    intro b info cs ih hwf hE
    simp only [wfScripts] at hwf
    simp only [hasErr] at hE
    obtain ⟨e, he⟩ := ih hwf hE
    exact ⟨e, by rw [format_block, he]⟩
  case case33 =>
    intro b info cs ih hwf hE
    simp only [wfScripts] at hwf
    simp only [hasErr] at hE
    obtain ⟨e, he⟩ := ih hwf hE
    exact ⟨e, by rw [format_block, he]⟩
  case case34 =>
    intro b info tag cs e heq hwf hE
    exact ⟨e, by simp only [format_block, heq]⟩
  case case35 =>
    intro b info tag cs b1 heq1 p e heq2 ih hwf hE
    have hp : p = get_formatted_comments b1 := rfl
    rw [hp] at heq2
    simp only [get_formatted_comments] at heq2
    exact ⟨e, by
      simp only [format_block, heq1, get_formatted_comments, heq2]⟩
  case case36 =>
    intro b info tag cs b1 heq1 p d b2 heq2 ih hwf hE
    simp only [wfScripts, Bool.and_eq_true] at hwf
    simp only [hasErr, Bool.or_eq_true] at hE
    rcases hE with hE | hE
    · obtain ⟨e, he⟩ := ih hwf.1 hE
      rw [heq2] at he
      exact Except.noConfusion he
    · rw [assert_only_comments_hasErr heq1] at hE
      exact Bool.noConfusion hE
  case case37 =>
    intro b info cs e heq hwf hE
    refine ⟨e, ?_⟩
    rw [format_block]
    split
    next e2 heq2 =>
      rw [heq] at heq2
      cases heq2
      rfl
    next n b1 heq2 =>
      rw [heq] at heq2
      exact Except.noConfusion heq2
  case case38 =>
    intro b info cs n b1 heq1 p e hble ih hwf hE
    have hp : p = get_comments b1 := rfl
    rw [hp] at hble
    simp only [get_comments] at hble
    refine ⟨e, ?_⟩
    rw [format_block]
    split
    next e2 heq2 =>
      rw [heq1] at heq2
      exact Except.noConfusion heq2
    next n2 b2 heq2 =>
      rw [heq1] at heq2
      cases heq2
      simp only [get_comments]
      split
      next e3 heq3 =>
        rw [hble] at heq3
        cases heq3
        rfl
      next ds b3 heq3 =>
        rw [hble] at heq3
        exact Except.noConfusion heq3
  case case39 =>
    intro b info cs n b1 heq1 p ds b2 heq2 ih hwf hE
    have hp : p = get_comments b1 := rfl
    rw [hp] at heq2 ih
    simp only [get_comments] at heq2 ih
    simp only [wfScripts] at hwf
    simp only [hasErr] at hE
    rw [get_node_with_type_hasErr heq1] at hE
    have hwn : wfScripts n = true :=
      wfScriptsList_mem hwf (get_node_with_type_mem heq1)
    have hb : n.isBlock = true := get_node_with_type_block heq1
    rw [hasErr_isBlock hb] at hE
    rw [wfScripts_isBlock hb] at hwn
    obtain ⟨e, he⟩ := ih
      (by rw [wfScriptsList_append, wfScriptsList_comments, Bool.true_and]
          exact hwn)
      (by rw [hasErrList_append, hasErrList_comments, Bool.false_or]
          exact hE)
    rw [heq2] at he
    exact Except.noConfusion he
  case case40 =>
    intro b info rule script cs e heq ih hwf hE
    exact ⟨e, by simp only [format_block, heq]⟩
  case case41 =>
    intro b info rule script cs d b2 heq1 p e heq2 ih1 ih2 hwf hE
    have hp : p = get_formatted_comments b2 := rfl
    rw [hp] at heq2
    simp only [get_formatted_comments] at heq2
    exact ⟨e, by
      simp only [format_block, heq1, get_formatted_comments, heq2]⟩
  case case42 =>
    intro b info rule script cs d b2 heq1 p ds b1 heq2 ih1 ih2 hwf hE
    simp only [wfScripts, Bool.and_eq_true] at hwf
    obtain ⟨⟨⟨hsb, hwr⟩, hws⟩, hwcs⟩ := hwf
    simp only [hasErr, Bool.or_eq_true] at hE
    rcases hE with (hE | hE) | hE
    · obtain ⟨e, he⟩ := ih1 hwr hE
      rw [heq1] at he
      exact Except.noConfusion he
    · obtain ⟨e, he⟩ := ih2
        (by rw [wfScriptsList_append, Bool.and_eq_true]
            refine ⟨hwcs, ?_⟩
            rw [← wfScripts_isBlock hsb]
            exact hws)
        (by rw [hasErrList_append, Bool.or_eq_true]
            refine Or.inr ?_
            rw [← hasErr_isBlock hsb]
            exact hE)
      rw [heq2] at he
      exact Except.noConfusion he
    · obtain ⟨e, he⟩ := ih2
        (by rw [wfScriptsList_append, Bool.and_eq_true]
            refine ⟨hwcs, ?_⟩
            rw [← wfScripts_isBlock hsb]
            exact hws)
        (by rw [hasErrList_append, Bool.or_eq_true]
            exact Or.inl hE)
      rw [heq2] at he
      exact Except.noConfusion he
  case case43 =>
    intro b info cs ih hwf hE
    simp only [wfScripts] at hwf
    simp only [hasErr] at hE
    obtain ⟨e, he⟩ := ih hwf hE
    exact ⟨e, by rw [format_block, he]⟩
  case case44 =>
    intro b info l r cs e heq hwf hE
    exact ⟨e, by simp only [format_block, heq]⟩
  case case45 =>
    intro b info l r cs b1 heq1 e heq2 ih hwf hE
    exact ⟨e, by simp only [format_block, heq1, heq2]⟩
  case case46 =>
    intro b info l r cs b1 heq1 d b2 heq2 e heq3 ih1 ih2 hwf hE
    exact ⟨e, by simp only [format_block, heq1, heq2, heq3]⟩
  case case47 =>
    intro b info l r cs b1 heq1 d b2 heq2 d2 b3 heq3 ih1 ih2 hwf hE
    simp only [wfScripts, Bool.and_eq_true] at hwf
    obtain ⟨⟨hwl, hwr⟩, hwcs⟩ := hwf
    simp only [hasErr, Bool.or_eq_true] at hE
    rcases hE with (hE | hE) | hE
    · obtain ⟨e, he⟩ := ih1 hwl hE
      rw [heq2] at he
      exact Except.noConfusion he
    · obtain ⟨e, he⟩ := ih2 hwr hE
      rw [heq3] at he
      exact Except.noConfusion he
    · rw [assert_only_comments_hasErr heq1] at hE
      exact Bool.noConfusion hE
  case case48 =>
    intro b info e2 cs e heq hwf hE
    exact ⟨e, by simp only [format_block, heq]⟩
  case case49 =>
    intro b info e2 cs b1 heq1 e heq2 ih hwf hE
    exact ⟨e, by simp only [format_block, heq1, heq2]⟩
  case case50 =>
    intro b info e2 cs b1 heq1 d b2 heq2 ih hwf hE
    simp only [wfScripts, Bool.and_eq_true] at hwf
    simp only [hasErr, Bool.or_eq_true] at hE
    rcases hE with hE | hE
    · obtain ⟨e, he⟩ := ih hwf.1 hE
      rw [heq2] at he
      exact Except.noConfusion he
    · rw [assert_only_comments_hasErr heq1] at hE
      exact Bool.noConfusion hE
  case case51 =>
    intro b i hwf hE
    simp only [hasErr] at hE
    exact Bool.noConfusion hE
  case case52 =>
    intro b i hwf hE
    simp only [hasErr] at hE
    exact Bool.noConfusion hE
  case case53 =>
    intro b i cs ih hwf hE
    obtain ⟨e, he⟩ := ih hwf hE
    exact ⟨e, by rw [format_block, he]⟩
  case case54 =>
    intro b i cs ih hwf hE
    obtain ⟨e, he⟩ := ih hwf hE
    exact ⟨e, by rw [format_block, he]⟩
  case case55 =>
    intro b i cs ih hwf hE
    obtain ⟨e, he⟩ := ih hwf hE
    exact ⟨e, by rw [format_block, he]⟩
  case case56 =>
    intro b i k pt cs ih hwf hE
    obtain ⟨e, he⟩ := ih hwf hE
    exact ⟨e, by rw [format_block, he]⟩
  case case57 =>
    intro b info hwf hE
    exact ⟨_, by rw [format_block]⟩
  case case58 =>
    intro b info hwf hE
    simp only [hasErr] at hE
    exact Bool.noConfusion hE
  case case59 =>
    intro b info hwf hE
    simp only [hasErr] at hE
    exact Bool.noConfusion hE
  case case60 =>
    intro b info hwf hE
    simp only [hasErr] at hE
    exact Bool.noConfusion hE
  case case61 =>
    intro b info cs hwf hE
    exact ⟨_, by rw [format_block]⟩
  case case62 =>
    intro b info cs hwf hE
    exact ⟨_, by rw [format_block]⟩
  case case63 =>
    intro ua un b info cs ih hwf hE
    simp only [wfScripts] at hwf
    simp only [hasErr] at hE
    obtain ⟨e, he⟩ := ih hwf hE
    exact ⟨e, by rw [format_block_match, he]⟩
  case case64 =>
    intro ua un b info cs ih hwf hE
    simp only [wfScripts] at hwf
    simp only [hasErr] at hE
    obtain ⟨e, he⟩ := ih hwf hE
    exact ⟨e, by rw [format_block_match, he]⟩
  case case65 =>
    intro ua un b info cs ih hwf hE
    simp only [wfScripts] at hwf
    simp only [hasErr] at hE
    obtain ⟨e, he⟩ := ih hwf hE
    exact ⟨e, by rw [format_block_match, he]⟩
  case case66 =>
    intro ua un b info key pattern cs e heq hwf hE
    exact ⟨e, by simp only [format_block_match, heq]⟩
  case case67 =>
    intro ua un b info key pattern cs b1 heq1 e heq2 ih hwf hE
    exact ⟨e, by simp only [format_block_match, heq1, heq2]⟩
  case case68 =>
    intro ua un b info key pattern cs b1 heq1 d b2 heq2 e heq3 ih1 ih2 hwf hE
    exact ⟨e, by simp only [format_block_match, heq1, heq2, heq3]⟩
  case case69 =>
    intro ua un b info key pattern cs b1 heq1 d b2 heq2 d2 b3 heq3 ih1 ih2
      hwf hE
    simp only [wfScripts, Bool.and_eq_true] at hwf
    obtain ⟨⟨hwk, hwp⟩, hwcs⟩ := hwf
    simp only [hasErr, Bool.or_eq_true] at hE
    rcases hE with (hE | hE) | hE
    · obtain ⟨e, he⟩ := ih1 hwk hE
      rw [heq2] at he
      exact Except.noConfusion he
    · obtain ⟨e, he⟩ := ih2 hwp hE
      rw [heq3] at he
      exact Except.noConfusion he
    · rw [assert_only_comments_hasErr heq1] at hE
      exact Bool.noConfusion hE
  case case70 =>
    intro ua un b info hwf hE
    exact ⟨_, by rw [format_block_match]⟩
  case case71 =>
    intro n ua un b hand hnot hor hmatch herr hwf hE
    cases n <;>
      first
      | exact ⟨_, by rw [format_block_match.eq_def]⟩
      | exact absurd rfl (hand _ _)
      | exact absurd rfl (hnot _ _)
      | exact absurd rfl (hor _ _)
      | exact absurd rfl (hmatch _ _ _ _)
      | exact absurd rfl (herr _)
  case case72 =>
    intro ua un b hwf hE
    simp only [hasErr.hasErrList] at hE
    exact Bool.noConfusion hE
  case case79 =>
    intro ua un b hwf hE
    simp only [hasErr.hasErrList] at hE
    exact Bool.noConfusion hE
  case case86 =>
    intro ua un b hwf hE
    simp only [hasErr.hasErrList] at hE
    exact Bool.noConfusion hE
  case case93 =>
    intro b hwf hE
    simp only [hasErr.hasErrList] at hE
    exact Bool.noConfusion hE
  case case98 =>
    intro b hwf hE
    simp only [hasErr.hasErrList] at hE
    exact Bool.noConfusion hE
  case case102 =>
    intro ihdr cb sb b hwf hE
    simp only [hasErr.hasErrList] at hE
    exact Bool.noConfusion hE
  case case118 =>
    intro b hwf hE
    simp only [hasErr.hasErrList] at hE
    exact Bool.noConfusion hE
  case case73 =>
    intro ua un b c cs hc e heq ih hwf hE
    exact ⟨e, by rw [or_loop, if_pos hc, heq]⟩
  case case74 =>
    intro ua un b c cs hc ds b1 heq1 e heq2 ih1 ih2 hwf hE
    exact ⟨e, by simp only [or_loop, if_pos hc, heq1, heq2]⟩
  case case75 =>
    intro ua un b c cs hc ds b1 heq1 ds2 b2 heq2 ih1 ih2 hwf hE
    simp only [wfScripts.wfScriptsList, Bool.and_eq_true] at hwf
    simp only [hasErr.hasErrList, Bool.or_eq_true] at hE
    rcases hE with hE | hE
    · rw [hasErr_of_comment hc] at hE
      exact Bool.noConfusion hE
    · obtain ⟨e, he⟩ := ih2 hwf.2 hE
      rw [heq2] at he
      exact Except.noConfusion he
  case case76 =>
    intro ua un b c cs hc e heq ih hwf hE
    exact ⟨e, by rw [or_loop, if_neg hc, heq]⟩
  case case77 =>
    intro ua un b c cs hc ds b1 heq1 p e heq2 ih1 ih2 hwf hE
    have hp : p = get_formatted_comments b1 := rfl
    rw [hp] at heq2
    simp only [get_formatted_comments] at heq2
    exact ⟨e, by
      simp only [or_loop, if_neg hc, heq1, get_formatted_comments, heq2]⟩
  case case78 =>
    intro ua un b c cs hc ds b1 heq1 p ds2 b2 heq2 ih1 ih2 hwf hE
    simp only [wfScripts.wfScriptsList, Bool.and_eq_true] at hwf
    simp only [hasErr.hasErrList, Bool.or_eq_true] at hE
    rcases hE with hE | hE
    · obtain ⟨e, he⟩ := ih1 hwf.1 hE
      rw [heq1] at he
      exact Except.noConfusion he
    · obtain ⟨e, he⟩ := ih2 hwf.2 hE
      rw [heq2] at he
      exact Except.noConfusion he
  case case80 =>
    intro ua un b c cs hc e heq ih hwf hE
    exact ⟨e, by rw [not_loop, if_pos hc, heq]⟩
  case case81 =>
    intro ua un b c cs hc ds b1 heq1 e heq2 ih1 ih2 hwf hE
    exact ⟨e, by simp only [not_loop, if_pos hc, heq1, heq2]⟩
  case case82 =>
    intro ua un b c cs hc ds b1 heq1 ds2 b2 heq2 ih1 ih2 hwf hE
    simp only [wfScripts.wfScriptsList, Bool.and_eq_true] at hwf
    simp only [hasErr.hasErrList, Bool.or_eq_true] at hE
    rcases hE with hE | hE
    · rw [hasErr_of_comment hc] at hE
      exact Bool.noConfusion hE
    · obtain ⟨e, he⟩ := ih2 hwf.2 hE
      rw [heq2] at he
      exact Except.noConfusion he
  case case83 =>
    intro ua un b c cs hc e heq ih hwf hE
    exact ⟨e, by rw [not_loop, if_neg hc, heq]⟩
  case case84 =>
    intro ua un b c cs hc ds b1 heq1 e heq2 ih1 ih2 hwf hE
    exact ⟨e, by simp only [not_loop, if_neg hc, heq1, heq2]⟩
  case case85 =>
    intro ua un b c cs hc ds b1 heq1 ds2 b2 heq2 ih1 ih2 hwf hE
    simp only [wfScripts.wfScriptsList, Bool.and_eq_true] at hwf
    simp only [hasErr.hasErrList, Bool.or_eq_true] at hE
    rcases hE with hE | hE
    · obtain ⟨e, he⟩ := ih1 hwf.1 hE
      rw [heq1] at he
      exact Except.noConfusion he
    · obtain ⟨e, he⟩ := ih2 hwf.2 hE
      rw [heq2] at he
      exact Except.noConfusion he
  case case87 =>
    intro ua un b c cs hc e heq ih hwf hE
    exact ⟨e, by rw [and_loop, if_pos hc, heq]⟩
  case case88 =>
    intro ua un b c cs hc ds b1 heq1 e heq2 ih1 ih2 hwf hE
    exact ⟨e, by simp only [and_loop, if_pos hc, heq1, heq2]⟩
  case case89 =>
    intro ua un b c cs hc ds b1 heq1 ds2 b2 heq2 ih1 ih2 hwf hE
    simp only [wfScripts.wfScriptsList, Bool.and_eq_true] at hwf
    simp only [hasErr.hasErrList, Bool.or_eq_true] at hE
    rcases hE with hE | hE
    · rw [hasErr_of_comment hc] at hE
      exact Bool.noConfusion hE
    · obtain ⟨e, he⟩ := ih2 hwf.2 hE
      rw [heq2] at he
      exact Except.noConfusion he
  case case90 =>
    intro ua un b c cs hc e heq ih hwf hE
    exact ⟨e, by rw [and_loop, if_neg hc, heq]⟩
  case case91 =>
    intro ua un b c cs hc ds b1 heq1 e heq2 ih1 ih2 hwf hE
    exact ⟨e, by simp only [and_loop, if_neg hc, heq1, heq2]⟩
  case case92 =>
    intro ua un b c cs hc ds b1 heq1 ds2 b2 heq2 ih1 ih2 hwf hE
    simp only [wfScripts.wfScriptsList, Bool.and_eq_true] at hwf
    simp only [hasErr.hasErrList, Bool.or_eq_true] at hE
    rcases hE with hE | hE
    · obtain ⟨e, he⟩ := ih1 hwf.1 hE
      rw [heq1] at he
      exact Except.noConfusion he
    · obtain ⟨e, he⟩ := ih2 hwf.2 hE
      rw [heq2] at he
      exact Except.noConfusion he
  case case94 =>
    intro b c cs e heq ih hwf hE
    exact ⟨e, by rw [block_loop, heq]⟩
  case case95 =>
    intro b c cs b1 heq1 ih1 ih2 hwf hE
    simp only [wfScripts.wfScriptsList, Bool.and_eq_true] at hwf
    simp only [hasErr.hasErrList, Bool.or_eq_true] at hE
    rcases hE with hE | hE
    · obtain ⟨e, he⟩ := ih1 hwf.1 hE
      rw [heq1] at he
      exact Except.noConfusion he
    · obtain ⟨e, he⟩ := ih2 hwf.2 hE
      exact ⟨e, by simp only [block_loop, heq1, he]⟩
  case case96 =>
    intro b c cs ds b1 heq1 p e heq2 hne ih1 ih2 hwf hE
    have hp : p = get_formatted_comments b1 := rfl
    rw [hp] at heq2
    simp only [get_formatted_comments] at heq2
    cases ds with
    | nil => exact absurd rfl hne
    | cons d ds2 =>
      exact ⟨e, by
        simp only [block_loop, heq1, get_formatted_comments, heq2]⟩
  case case97 =>
    intro b c cs ds b1 heq1 p ds2 b2 heq2 hne ih1 ih2 hwf hE
    simp only [wfScripts.wfScriptsList, Bool.and_eq_true] at hwf
    simp only [hasErr.hasErrList, Bool.or_eq_true] at hE
    rcases hE with hE | hE
    · obtain ⟨e, he⟩ := ih1 hwf.1 hE
      rw [heq1] at he
      exact Except.noConfusion he
    · obtain ⟨e, he⟩ := ih2 hwf.2 hE
      rw [heq2] at he
      exact Except.noConfusion he
  case case99 =>
    intro b c cs e heq ih hwf hE
    exact ⟨e, by rw [ctx_loop, heq]⟩
  case case100 =>
    intro b c cs ds b1 heq1 p e heq2 ih1 ih2 hwf hE
    have hp : p = get_formatted_comments b1 := rfl
    rw [hp] at heq2
    simp only [get_formatted_comments] at heq2
    exact ⟨e, by simp only [ctx_loop, heq1, get_formatted_comments, heq2]⟩
  case case101 =>
    intro b c cs ds b1 heq1 p ds2 b2 heq2 ih1 ih2 hwf hE
    simp only [wfScripts.wfScriptsList, Bool.and_eq_true] at hwf
    simp only [hasErr.hasErrList, Bool.or_eq_true] at hE
    rcases hE with hE | hE
    · obtain ⟨e, he⟩ := ih1 hwf.1 hE
      rw [heq1] at he
      exact Except.noConfusion he
    · obtain ⟨e, he⟩ := ih2 hwf.2 hE
      rw [heq2] at he
      exact Except.noConfusion he
  case case103 =>
    intro ihdr cbuf sbuf b c cs h1 e heq ih hwf hE
    exact ⟨e, by rw [sf_loop, if_pos h1, heq]⟩
  case case104 =>
    intro ihdr cbuf sbuf b c cs h1 d b2 heq1 ih1 ih2 hwf hE
    simp only [wfScripts.wfScriptsList, Bool.and_eq_true] at hwf
    simp only [hasErr.hasErrList, Bool.or_eq_true] at hE
    rcases hE with hE | hE
    · rw [hasErr_of_comment (Bool.and_eq_true .. ▸ h1).2] at hE
      exact Bool.noConfusion hE
    · obtain ⟨e, he⟩ := ih2 hwf.2 hE
      exact ⟨e, by simp only [sf_loop, if_pos h1, heq1, he]⟩
  case case105 =>
    intro cbuf sbuf b c cs h2 e heq hn1 ih hwf hE
    exact ⟨e, by
      simp only [sf_loop, if_neg hn1, if_pos h2, eq_self_iff_true, if_true,
        heq]⟩
  case case106 =>
    intro cbuf sbuf b c cs h2 ds b1 heq1 e hn1 heq2 ih1 ih2 hwf hE
    exact ⟨e, by
      simp only [sf_loop, if_neg hn1, if_pos h2, eq_self_iff_true, if_true,
        heq1, heq2]⟩
  case case107 =>
    intro cbuf sbuf b c cs h2 ds b1 heq1 ds2 b2 hn1 heq2 ih1 ih2 hwf hE
    simp only [wfScripts.wfScriptsList, Bool.and_eq_true] at hwf
    simp only [hasErr.hasErrList, Bool.or_eq_true] at hE
    rcases hE with hE | hE
    · obtain ⟨e, he⟩ := ih1 hwf.1 hE
      rw [heq1] at he
      exact Except.noConfusion he
    · obtain ⟨e, he⟩ := ih2 hwf.2 hE
      rw [heq2] at he
      exact Except.noConfusion he
  case case108 =>
    intro ihdr cbuf sbuf b c cs hn1 h2 hni hwf hE
    exact ⟨.assertionError [], by
      rw [sf_loop, if_neg hn1, if_pos h2, if_neg hni]⟩
  case case109 =>
    intro ihdr cbuf sbuf b c cs hn1 hn2 h3 h4 e heq ih hwf hE
    exact ⟨e, by
      simp only [sf_loop, if_neg hn1, if_neg hn2, h3, h4, eq_self_iff_true,
        if_true, heq]⟩
  case case110 =>
    intro ihdr cbuf sbuf b c cs hn1 hn2 emitSep cbuf2 inHeader2 h3 h4 ds b1
      heq1 e heq2 ih1 ih2 hwf hE
    have hc2 : cbuf2 =
        (if (ihdr && c.isBodyOnly) = true then [] else cbuf) := rfl
    have hh2 : inHeader2 =
        (if (ihdr && c.isBodyOnly) = true then false else ihdr) := rfl
    rw [hc2, hh2] at heq2
    exact ⟨e, by
      simp only [sf_loop, if_neg hn1, if_neg hn2, h3, h4, eq_self_iff_true,
        if_true, heq1, heq2]⟩
  case case111 =>
    intro ihdr cbuf sbuf b c cs hn1 hn2 emitSep cbuf2 inHeader2 h3 h4 ds b1
      heq1 ds2 b2 heq2 ih1 ih2 hwf hE
    simp only [wfScripts.wfScriptsList, Bool.and_eq_true] at hwf
    simp only [hasErr.hasErrList, Bool.or_eq_true] at hE
    rcases hE with hE | hE
    · obtain ⟨e, he⟩ := ih1 hwf.1 hE
      rw [heq1] at he
      exact Except.noConfusion he
    · obtain ⟨e, he⟩ := ih2 hwf.2 hE
      rw [heq2] at he
      exact Except.noConfusion he
  case case112 =>
    intro ihdr cbuf sbuf b c cs hn1 hn2 h3 hn4 e heq ih hwf hE
    exact ⟨e, by
      simp only [sf_loop, if_neg hn1, if_neg hn2, h3, eq_self_iff_true,
        if_true, if_neg hn4, heq]⟩
  case case113 =>
    intro ihdr cbuf sbuf b c cs hn1 hn2 emitSep cbuf2 inHeader2 h3 hn4 ds b1
      heq1 e heq2 ih1 ih2 hwf hE
    have hc2 : cbuf2 =
        (if (ihdr && c.isBodyOnly) = true then [] else cbuf) := rfl
    have hh2 : inHeader2 =
        (if (ihdr && c.isBodyOnly) = true then false else ihdr) := rfl
    rw [hc2, hh2] at heq2
    exact ⟨e, by
      simp only [sf_loop, if_neg hn1, if_neg hn2, h3, eq_self_iff_true,
        if_true, if_neg hn4, heq1, heq2]⟩
  case case114 =>
    intro ihdr cbuf sbuf b c cs hn1 hn2 emitSep cbuf2 inHeader2 h3 hn4 ds b1
      heq1 ds2 b2 heq2 ih1 ih2 hwf hE
    simp only [wfScripts.wfScriptsList, Bool.and_eq_true] at hwf
    simp only [hasErr.hasErrList, Bool.or_eq_true] at hE
    rcases hE with hE | hE
    · obtain ⟨e, he⟩ := ih1 hwf.1 hE
      rw [heq1] at he
      exact Except.noConfusion he
    · obtain ⟨e, he⟩ := ih2 hwf.2 hE
      rw [heq2] at he
      exact Except.noConfusion he
  case case115 =>
    intro ihdr cbuf sbuf b c cs hn1 hn2 hn3 e heq ih hwf hE
    exact ⟨e, by simp only [sf_loop, if_neg hn1, if_neg hn2, if_neg hn3, heq]⟩
  case case116 =>
    intro ihdr cbuf sbuf b c cs hn1 hn2 emitSep cbuf2 inHeader2 hn3 ds b1
      heq1 e heq2 ih1 ih2 hwf hE
    have hc2 : cbuf2 =
        (if (ihdr && c.isBodyOnly) = true then [] else cbuf) := rfl
    have hh2 : inHeader2 =
        (if (ihdr && c.isBodyOnly) = true then false else ihdr) := rfl
    rw [hc2, hh2] at heq2
    exact ⟨e, by
      simp only [sf_loop, if_neg hn1, if_neg hn2, if_neg hn3, heq1, heq2]⟩
  case case117 =>
    intro ihdr cbuf sbuf b c cs hn1 hn2 emitSep cbuf2 inHeader2 hn3 ds b1
      heq1 ds2 b2 heq2 ih1 ih2 hwf hE
    simp only [wfScripts.wfScriptsList, Bool.and_eq_true] at hwf
    simp only [hasErr.hasErrList, Bool.or_eq_true] at hE
    rcases hE with hE | hE
    · obtain ⟨e, he⟩ := ih1 hwf.1 hE
      rw [heq1] at he
      exact Except.noConfusion he
    · obtain ⟨e, he⟩ := ih2 hwf.2 hE
      rw [heq2] at he
      exact Except.noConfusion he
  case case119 =>
    intro b c cs hc ih hwf hE
    simp only [wfScripts.wfScriptsList, Bool.and_eq_true] at hwf
    simp only [hasErr.hasErrList, Bool.or_eq_true] at hE
    rcases hE with hE | hE
    · rw [hasErr_of_comment hc] at hE
      exact Bool.noConfusion hE
    · obtain ⟨e, he⟩ := ih hwf.2 hE
      exact ⟨e, by rw [format_children, if_pos hc, he]⟩
  case case120 =>
    intro b c cs hc e heq ih hwf hE
    exact ⟨e, by rw [format_children, if_neg hc, heq]⟩
  case case121 =>
    intro b c cs hc d b2 heq1 e heq2 ih1 ih2 hwf hE
    exact ⟨e, by simp only [format_children, if_neg hc, heq1, heq2]⟩
  case case122 =>
    intro b c cs hc d b2 heq1 ds b1 heq2 ih1 ih2 hwf hE
    simp only [wfScripts.wfScriptsList, Bool.and_eq_true] at hwf
    simp only [hasErr.hasErrList, Bool.or_eq_true] at hE
    rcases hE with hE | hE
    · obtain ⟨e, he⟩ := ih1 hwf.1 hE
      rw [heq1] at he
      exact Except.noConfusion he
    · obtain ⟨e, he⟩ := ih2 hwf.2 hE
      rw [heq2] at he
      exact Except.noConfusion he

/-- C7 counterexample: an error node inside a match's children — a list the
formatter allows to hold only comments — raises `TypeError`, not
`ParseError`, although the AST contains a `TalonError` node; the claim that
formatting always raises `ParseError` on such trees is false (though no
output is produced either way). -/
theorem error_parse_claim_false :
    hasErr (exFile [TalonNode.context (mkInfo "" "context")
      [TalonNode.matchNode (mkInfo "" "match") (exIdent "os")
        (exImplicit "linux") [TalonNode.error (mkInfo "" "ERROR")]]]) =
      true ∧
    format cfgPlain (exFile [TalonNode.context (mkInfo "" "context")
      [TalonNode.matchNode (mkInfo "" "match") (exIdent "os")
        (exImplicit "linux") [TalonNode.error (mkInfo "" "ERROR")]]]) [] =
      .error (.typeError "ERROR") := by
  constructor
  · simp [hasErr, hasErr.hasErrList, exFile, exIdent, exImplicit, mkInfo]
  · simp [format, format_block, sf_loop, ctx_loop, format_block_match,
      assert_only_comments, store_comments, ntMatches, TalonNode.isComment,
      TalonNode.isContext, TalonNode.typeNameStr, TalonNode.infoOf, exFile,
      exIdent, exImplicit, mkInfo, cfgPlain]

/-- C7 (amended): formatting an AST that contains a `TalonError` node never
produces output: under the parser's typing guarantee that every command's
script is a block, `format` returns an error for every such tree, for every
configuration and incoming buffer.  When an error node itself reaches a
format function the error is `ParseError` carrying the offending node; an
error node sitting in a comments-only children list surfaces as `TypeError`
instead, so the exception kind is whichever check fires first. -/
theorem error_propagation_amended (cfg : Cfg) (node : TalonNode) (buf : Buf)
    (hwf : wfScripts node = true) (hE : hasErr node = true) :
    (∃ e, format cfg node buf = .error e) ∧
    (∀ i, format cfg (.error i) buf = .error (.parseError (.error i))) := by
  refine ⟨format_hasErr_error cfg node buf hwf hE, ?_⟩
  intro i
  rw [format]

/-- C7 amended, witness: the amended theorem applied to a bare error node. -/
theorem error_propagation_amended_witness :
    format cfgPlain (TalonNode.error (mkInfo "" "ERROR")) [] =
      .error (.parseError (TalonNode.error (mkInfo "" "ERROR"))) :=
  (error_propagation_amended cfgPlain (.error (mkInfo "" "ERROR")) []
    (by simp [wfScripts]) (by simp [hasErr])).2 (mkInfo "" "ERROR")

/-! Claim C9: the comment buffer and comment conservation. -/

/-- doc_comments collects the texts of the comment lines embedded in a
document: a comment line is exactly `Cat (Text "#") (Text s)`, the shape
`format` gives a `TalonComment` and no other handler produces.  Of an `Alt`
only the first branch is collected (both branches of every `Alt` the
formatter builds carry the same comments); a `Row`'s cells are collected in
order. -/
def doc_comments : Doc → List String
  | .Cat (.Text "#") (.Text s) => [s]
  | .Cat a b => doc_comments a ++ doc_comments b
  | .Nest _ d => doc_comments d
  | .Alt a _ => doc_comments a
  | .Row _ cells _ => (cells.attach.map (fun c => doc_comments c.1)).flatten
  | _ => []
termination_by d => sizeOf d
decreasing_by
  all_goals simp_wf
  all_goals try omega
  all_goals (have hsz := List.sizeOf_lt_of_mem c.2; omega)

/-- out_comments collects the comment texts of an emission stream. -/
def out_comments (ds : List Doc) : List String := (ds.map doc_comments).flatten

/-- buf_comments is the comment texts held in the comment buffer. -/
def buf_comments (b : Buf) : List String :=
  b.map (fun i => stripHash i.text)

/-- node_comments collects the texts of the comment nodes of a tree in
traversal order. -/
def node_comments : TalonNode → List String
  | .comment i => [stripHash i.text]
  | .docstring _ => []
  | .error _ => []
  | .word _ => []
  | .identifier _ => []
  | .implicitString _ => []
  | .rule _ cs => node_commentsList cs
  | .parenthesizedExpression _ cs => node_commentsList cs
  | .matchNode _ k p cs =>
      node_comments k ++ node_comments p ++ node_commentsList cs
  | .andNode _ cs => node_commentsList cs
  | .notNode _ cs => node_commentsList cs
  | .orNode _ cs => node_commentsList cs
  | .context _ cs => node_commentsList cs
  | .includeTag _ t cs => node_comments t ++ node_commentsList cs
  | .settings _ cs => node_commentsList cs
  | .block _ cs => node_commentsList cs
  | .assignment _ l r cs =>
      node_comments l ++ node_comments r ++ node_commentsList cs
  | .exprStmt _ e cs => node_comments e ++ node_commentsList cs
  | .command _ r s cs =>
      node_comments r ++ node_comments s ++ node_commentsList cs
  | .sourceFile _ cs => node_commentsList cs
where
  /-- node_commentsList collects over a list of children. -/
  node_commentsList : List TalonNode → List String
    | [] => []
    | c :: cs => node_comments c ++ node_commentsList cs

/-- hash_free holds for documents containing no `Text "#"` leaf — every
document the formatter builds for an expression whose source text holds no
`#` character; such a document embeds no comment line. -/
def hash_free : Doc → Bool
  | .Text s => s != "#"
  | .Cat a b => hash_free a && hash_free b
  | .Nest _ d => hash_free d
  | .Alt a b => hash_free a && hash_free b
  | .Row _ _ _ => false
  | _ => true

/-- isExprPos marks the node kinds that may stand in expression position:
the kinds `format` renders to a single hash-free document. -/
def isExprPos : TalonNode → Bool
  | .word _ => true
  | .identifier _ => true
  | .implicitString _ => true
  | .rule _ _ => true
  | .parenthesizedExpression _ _ => true
  | _ => false

/-- noHashText holds when a node-info's source text has no `#` character. -/
def noHashText (i : NodeInfo) : Bool := i.text.data.all (fun ch => ch != '#')

/-- wfExpr is the typing discipline of the parser's AST that comment
conservation rests on: expression positions hold expression kinds whose
leaf texts contain no `#` (a `#` would start a comment in the source),
commands' scripts are blocks, and rule children are words, expressions or
comments. -/
def wfExpr : TalonNode → Bool
  | .comment _ => true
  | .docstring _ => true
  | .error _ => true
  | .word i => noHashText i
  | .identifier i => noHashText i
  | .implicitString i => noHashText i
  | .rule _ cs =>
      cs.all (fun x => x.isComment || isExprPos x) && wfExprList cs
  | .parenthesizedExpression _ cs =>
      cs.all (fun x => x.isComment || isExprPos x) && wfExprList cs
  | .matchNode _ k p cs =>
      isExprPos k && isExprPos p && wfExpr k && wfExpr p && wfExprList cs
  | .andNode _ cs => wfExprList cs
  | .notNode _ cs => wfExprList cs
  | .orNode _ cs => wfExprList cs
  | .context _ cs => wfExprList cs
  | .includeTag _ t cs => isExprPos t && wfExpr t && wfExprList cs
  | .settings _ cs => wfExprList cs
  | .block _ cs => wfExprList cs
  | .assignment _ l r cs =>
      isExprPos l && isExprPos r && wfExpr l && wfExpr r && wfExprList cs
  | .exprStmt _ e cs => isExprPos e && wfExpr e && wfExprList cs
  | .command _ r s cs =>
      isExprPos r && s.isBlock && wfExpr r && wfExpr s && wfExprList cs
  | .sourceFile _ cs => wfExprList cs
where
  /-- wfExprList checks every node of a list. -/
  wfExprList : List TalonNode → Bool
    | [] => true
    | c :: cs => wfExpr c && wfExprList cs

/-- msOf views a list of comment texts as a multiset, forgetting order. -/
def msOf (l : List String) : Multiset String := (l : Multiset String)

theorem msOf_append (a b : List String) : msOf (a ++ b) = msOf a + msOf b := by
  simp [msOf]

theorem msOf_nil : msOf [] = 0 := rfl

theorem out_comments_nil : out_comments [] = [] := rfl

theorem out_comments_cons (d : Doc) (ds : List Doc) :
    out_comments (d :: ds) = doc_comments d ++ out_comments ds := by
  simp [out_comments]

theorem out_comments_append (a b : List Doc) :
    out_comments (a ++ b) = out_comments a ++ out_comments b := by
  simp [out_comments]

theorem out_comments_singleton (d : Doc) :
    out_comments [d] = doc_comments d := by
  simp [out_comments]

theorem hash_free_doc_comments :
    ∀ {d : Doc}, hash_free d = true → doc_comments d = [] := by
  intro d
  induction d using doc_comments.induct with
  | case1 s =>
    intro h
    simp [hash_free] at h
  | case2 a b hne ih1 ih2 =>
    intro h
    rw [hash_free, Bool.and_eq_true] at h
    rw [doc_comments]
    · rw [ih1 h.1, ih2 h.2]
      rfl
    · exact hne
  | case3 n d ih =>
    intro h
    rw [hash_free] at h
    rw [doc_comments, ih h]
  | case4 a b ih1 =>
    intro h
    rw [hash_free, Bool.and_eq_true] at h
    rw [doc_comments, ih1 h.1]
  | case5 t cells mw ih =>
    intro h
    simp [hash_free] at h
  | case6 x h1 h2 h3 h4 h5 =>
    intro h
    rw [doc_comments]
    all_goals first
    | rfl
    | assumption

theorem doc_comments_Cat (a b : Doc)
    (h : ∀ s, a = Doc.Text "#" → b = Doc.Text s → False) :
    doc_comments (Doc.Cat a b) = doc_comments a ++ doc_comments b := by
  rw [doc_comments]
  exact h

theorem doc_comments_Line : doc_comments Doc.Line = [] := by
  rw [doc_comments] <;> (intros; rename_i h; exact Doc.noConfusion h)

theorem doc_comments_Empty : doc_comments Doc.Empty = [] := by
  rw [doc_comments] <;> (intros; rename_i h; exact Doc.noConfusion h)

theorem doc_comments_commentDoc (i : NodeInfo) :
    doc_comments (commentDoc i) = [stripHash i.text] := by
  rw [commentDoc, text_words, if_neg (by simp)]
  rw [doc_comments]

theorem doc_comments_lineJoin :
    ∀ ls : List Doc, doc_comments (Doc.lineJoin ls) = out_comments ls := by
  intro ls
  induction ls with
  | nil =>
    rw [Doc.lineJoin, out_comments_nil]
    exact doc_comments_Empty
  | cons d ds ih =>
    cases ds with
    | nil =>
      rw [Doc.lineJoin, out_comments_cons, out_comments_nil,
        List.append_nil]
    | cons d2 ds2 =>
      rw [Doc.lineJoin]
      · rw [doc_comments_Cat _ _ (by intro s h1 h2; exact Doc.noConfusion h2)]
        rw [doc_comments_Cat _ _ (by intro s h1 h2; exact Doc.noConfusion h1)]
        rw [doc_comments_Line, List.nil_append, ih]
        simp only [out_comments_cons]
      · exact fun h => List.noConfusion h

theorem splitWordsAux_no_hash :
    ∀ (l : List Char) (cur : List Char),
      (∀ ch ∈ l, ch ≠ '#') → (∀ ch ∈ cur, ch ≠ '#') →
      ∀ w ∈ splitWordsAux cur l, w ≠ "#" := by
  intro l
  induction l with
  | nil =>
    intro cur hl hcur w hw
    rw [splitWordsAux] at hw
    split at hw
    · cases hw
    next hne =>
      simp only [List.mem_singleton] at hw
      subst hw
      intro hcontra
      have : cur.reverse = ['#'] := by
        have := congrArg String.data hcontra
        simpa using this
      have : '#' ∈ cur := by
        have h2 : '#' ∈ cur.reverse := by rw [this]; simp
        simpa using h2
      exact hcur '#' this rfl
  | cons c cs ih =>
    intro cur hl hcur w hw
    rw [splitWordsAux] at hw
    split at hw
    · split at hw
      · exact ih [] (fun ch hch => hl ch (by simp [hch]))
          (by intro ch hch; cases hch) w hw
      next hne =>
        simp only [List.mem_cons] at hw
        rcases hw with rfl | hw
        · intro hcontra
          have : cur.reverse = ['#'] := by
            have := congrArg String.data hcontra
            simpa using this
          have : '#' ∈ cur := by
            have h2 : '#' ∈ cur.reverse := by rw [this]; simp
            simpa using h2
          exact hcur '#' this rfl
        · exact ih [] (fun ch hch => hl ch (by simp [hch]))
            (by intro ch hch; cases hch) w hw
    · exact ih (c :: cur) (fun ch hch => hl ch (by simp [hch]))
        (by
          intro ch hch
          rcases List.mem_cons.1 hch with rfl | hch
          · exact hl ch (by simp)
          · exact hcur ch hch) w hw

theorem hash_free_wordsDoc :
    ∀ ws : List String, (∀ w ∈ ws, w ≠ "#") →
      hash_free (wordsDoc ws) = true := by
  intro ws
  induction ws with
  | nil => intro h; rfl
  | cons w ws ih =>
    intro h
    cases ws with
    | nil =>
      rw [wordsDoc, hash_free]
      simp only [bne_iff_ne, ne_eq]
      exact h w (by simp)
    | cons w2 ws2 =>
      rw [wordsDoc]
      · rw [hash_free, hash_free, hash_free]
        have h1 : (w != "#") = true := by
          simp only [bne_iff_ne, ne_eq]
          exact h w (by simp)
        rw [h1, ih (fun x hx => h x (by simp [hx]))]
        rfl
      · exact fun h2 => List.noConfusion h2

theorem hash_free_text_words {s : String}
    (h : ∀ ch ∈ s.data, ch ≠ '#') :
    hash_free (text_words s true) = true := by
  rw [text_words, if_pos rfl, splitWords]
  exact hash_free_wordsDoc _
    (splitWordsAux_no_hash s.data [] h (by intro ch hch; cases hch))

theorem trimStr_chars {s : String} {P : Char → Prop}
    (h : ∀ ch ∈ s.data, P ch) : ∀ ch ∈ (trimStr s).data, P ch := by
  intro ch hch
  rw [trimStr] at hch
  simp only [String.data] at hch
  have h1 := List.mem_reverse.1 hch
  have h2 := @List.dropWhile_sublist Char
    ((s.data.dropWhile Char.isWhitespace).reverse) Char.isWhitespace
  have h3 := h2.mem h1
  have h4 := List.mem_reverse.1 h3
  have h5 := (@List.dropWhile_sublist Char s.data Char.isWhitespace).mem h4
  exact h ch h5

theorem noHashText_chars {i : NodeInfo} (h : noHashText i = true) :
    ∀ ch ∈ i.text.data, ch ≠ '#' := by
  rw [noHashText, List.all_eq_true] at h
  intro ch hch
  have := h ch hch
  simpa using this

theorem out_comments_commentDocs (b : Buf) :
    out_comments (b.map commentDoc) = buf_comments b := by
  induction b with
  | nil => rfl
  | cons i is ih =>
    simp only [List.map_cons, out_comments_cons, doc_comments_commentDoc,
      ih, buf_comments, List.map_cons]
    rfl

theorem node_commentsList_append (xs ys : List TalonNode) :
    node_comments.node_commentsList (xs ++ ys) =
      node_comments.node_commentsList xs ++
        node_comments.node_commentsList ys := by
  induction xs with
  | nil => rfl
  | cons c cs ih =>
    simp only [List.cons_append, node_comments.node_commentsList,
      List.append_eq, ih, List.append_assoc]

theorem node_commentsList_commentNodes (b : Buf) :
    node_comments.node_commentsList (b.map TalonNode.comment) =
      buf_comments b := by
  induction b with
  | nil => rfl
  | cons i is ih =>
    simp only [List.map_cons, node_comments.node_commentsList, node_comments,
      ih, buf_comments, List.map_cons]
    rfl

theorem node_comments_of_comment {c : TalonNode} (hc : c.isComment = true) :
    node_comments c = [stripHash c.infoOf.text] := by
  cases c <;> simp_all [TalonNode.isComment, node_comments, TalonNode.infoOf]

theorem node_comments_isBlock {n : TalonNode} (hb : n.isBlock = true) :
    node_comments n = node_comments.node_commentsList n.childrenList := by
  cases n <;> simp_all [TalonNode.isBlock, node_comments,
    TalonNode.childrenList]

theorem wfExpr_isBlock {n : TalonNode} (hb : n.isBlock = true) :
    wfExpr n = wfExpr.wfExprList n.childrenList := by
  cases n <;> simp_all [TalonNode.isBlock, wfExpr, TalonNode.childrenList]

theorem wfExprList_append (xs ys : List TalonNode) :
    wfExpr.wfExprList (xs ++ ys) =
      (wfExpr.wfExprList xs && wfExpr.wfExprList ys) := by
  induction xs with
  | nil => simp [wfExpr.wfExprList]
  | cons c cs ih =>
    simp only [List.cons_append, wfExpr.wfExprList, List.append_eq, ih,
      Bool.and_assoc]

theorem wfExprList_comments (b : Buf) :
    wfExpr.wfExprList (b.map TalonNode.comment) = true := by
  induction b with
  | nil => rfl
  | cons i is ih =>
    simp only [List.map_cons, wfExpr.wfExprList, wfExpr, ih, Bool.and_self]

theorem wfExprList_mem {c : TalonNode} {cs : List TalonNode}
    (hall : wfExpr.wfExprList cs = true) (hm : c ∈ cs) :
    wfExpr c = true := by
  induction cs with
  | nil => cases hm
  | cons x xs ih =>
    rw [wfExpr.wfExprList, Bool.and_eq_true] at hall
    rcases List.mem_cons.1 hm with rfl | hm2
    · exact hall.1
    · exact ih hall.2 hm2

theorem store_comments_conservation {nt : NType} :
    ∀ {cs : List TalonNode} {buf : Buf} {kept : List TalonNode} {b : Buf},
      store_comments nt cs buf = .ok (kept, b) →
      msOf (buf_comments b) + msOf (node_comments.node_commentsList kept) =
        msOf (buf_comments buf) +
          msOf (node_comments.node_commentsList cs) := by
  intro cs
  induction cs with
  | nil =>
    intro buf kept b h
    simp only [store_comments, Except.ok.injEq, Prod.mk.injEq] at h
    rw [← h.1, ← h.2]
  | cons c cs ih =>
    intro buf kept b h
    rw [store_comments] at h
    split at h
    next hc =>
      have hthis := ih h
      have hb : buf_comments (buf ++ [c.infoOf]) =
          buf_comments buf ++ [stripHash c.infoOf.text] := by
        simp [buf_comments]
      rw [hb, msOf_append] at hthis
      rw [node_comments.node_commentsList, node_comments_of_comment hc,
        msOf_append, hthis, add_assoc]
    next hc =>
      split at h
      · split at h
        next kept2 b2 heq =>
          simp only [Except.ok.injEq, Prod.mk.injEq] at h
          rw [← h.1, ← h.2]
          have := ih heq
          rw [node_comments.node_commentsList, node_comments.node_commentsList,
            msOf_append, msOf_append]
          calc msOf (buf_comments b2) +
              (msOf (node_comments c) +
                msOf (node_comments.node_commentsList kept2))
              = msOf (node_comments c) +
                (msOf (buf_comments b2) +
                  msOf (node_comments.node_commentsList kept2)) := by
                rw [add_left_comm]
            _ = msOf (node_comments c) +
                (msOf (buf_comments buf) +
                  msOf (node_comments.node_commentsList cs)) := by rw [this]
            _ = msOf (buf_comments buf) +
                (msOf (node_comments c) +
                  msOf (node_comments.node_commentsList cs)) := by
                rw [add_left_comm]
        · exact Except.noConfusion h
      · exact Except.noConfusion h

theorem assert_only_comments_conservation {cs : List TalonNode}
    {buf b1 : Buf} (h : assert_only_comments cs buf = .ok b1) :
    msOf (buf_comments b1) =
      msOf (buf_comments buf) +
        msOf (node_comments.node_commentsList cs) := by
  unfold assert_only_comments at h
  split at h
  · cases h
  next kept b2 heq =>
    split at h
    next hk =>
      simp only [Except.ok.injEq] at h
      subst h
      have hcons := store_comments_conservation heq
      rw [List.isEmpty_iff.1 hk] at hcons
      simpa [node_comments.node_commentsList, msOf_nil] using hcons
    next => cases h

theorem get_node_with_type_conservation {nt : NType} {cs : List TalonNode}
    {buf : Buf} {n : TalonNode} {b : Buf}
    (h : get_node_with_type nt cs buf = .ok (n, b)) :
    msOf (buf_comments b) + msOf (node_comments n) =
      msOf (buf_comments buf) +
        msOf (node_comments.node_commentsList cs) := by
  unfold get_node_with_type at h
  split at h
  · cases h
  next kept b2 heq =>
    split at h
    next m =>
      simp only [Except.ok.injEq, Prod.mk.injEq] at h
      rcases h with ⟨h1, h2⟩
      subst h1 h2
      have hcons := store_comments_conservation heq
      rw [node_comments.node_commentsList,
        node_comments.node_commentsList] at hcons
      simpa [msOf_append, msOf_nil] using hcons
    next => cases h

theorem doc_comments_Text (s : String) : doc_comments (Doc.Text s) = [] := by
  rw [doc_comments] <;> (intros; rename_i h; exact Doc.noConfusion h)

/-- entry_comments is the comment content a run entry carries (through its
original alternative document). -/
def entry_comments (e : RunEntry) : List String :=
  match e.orig with
  | some a => doc_comments a
  | none => []

theorem flushRun_comments (run : List RunEntry) :
    out_comments (flushRun run) = (run.map entry_comments).flatten := by
  rw [flushRun]
  generalize runColWidth run = w
  induction run with
  | nil => rfl
  | cons e es ih =>
    simp only [List.map_cons, out_comments_cons, List.join]
    rw [ih]
    congr 1
    cases he : e.orig with
    | some a =>
      simp only [he, entry_comments]
      rw [doc_comments]
    | none =>
      simp only [he, entry_comments]
      exact doc_comments_Text _

theorem splitRun_comments (t : String) :
    ∀ ds : List Doc, (∀ d ∈ ds, isCatAlt d = true) →
      ((splitRun t ds).1.map entry_comments).flatten ++
        out_comments (splitRun t ds).2 = out_comments ds := by
  intro ds
  induction ds with
  | nil => intro h; simp [splitRun, out_comments_nil]
  | cons d ds ih =>
    intro h
    have hd := h d (by simp)
    have hds : ∀ x ∈ ds, isCatAlt x = true := fun x hx => h x (by simp [hx])
    cases hra : asRowAlt d with
    | none => rw [splitRun_cons_none hra]; simp
    | some q =>
      obtain ⟨orig, t2, cells, mw⟩ := q
      by_cases ht : t2 = t
      · cases hfl : cells.mapM renderFlat with
        | none => rw [splitRun_cons_noflat hra ht hfl]; simp
        | some ss =>
          rw [splitRun_cons_flat hra ht hfl]
          obtain ⟨a, ha, hd2⟩ := asRowAlt_of_catAlt hd hra
          subst ha
          rw [List.map_cons, List.flatten_cons, List.append_assoc, ih hds,
            out_comments_cons]
          congr 1
          rw [hd2]
          simp only [entry_comments]
          rw [doc_comments]
      · rw [splitRun_cons_difft hra ht]; simp

theorem create_tables_comments :
    ∀ ds : List Doc, (∀ d ∈ ds, isCatAlt d = true) →
      out_comments (create_tables ds) = out_comments ds := by
  intro ds
  induction ds using create_tables.induct with
  | case1 => intro h; rw [create_tables]
  | case2 d ds orig t2 cells mw hra ss hfl pr hlen ih =>
    intro h
    have hd := h d (by simp)
    have hds : ∀ y ∈ ds, isCatAlt y = true := fun y hy => h y (by simp [hy])
    rw [create_tables_cons_flat hra hfl, out_comments_append,
      flushRun_comments]
    rw [List.map_cons, List.flatten_cons]
    rw [ih (splitRun_catAlt t2 ds hds).2, List.append_assoc,
      splitRun_comments t2 ds hds, out_comments_cons]
    congr 1
    obtain ⟨a, ha, hd2⟩ := asRowAlt_of_catAlt hd hra
    subst ha
    rw [hd2]
    simp only [entry_comments]
    rw [doc_comments]
  | case3 d ds orig t2 cells mw hra hfl ih =>
    intro h
    rw [create_tables_cons_noflat hra hfl, out_comments_cons,
      out_comments_cons, ih (fun y hy => h y (by simp [hy]))]
  | case4 d ds hra ih =>
    intro h
    rw [create_tables_cons_none hra, out_comments_cons, out_comments_cons,
      ih (fun y hy => h y (by simp [hy]))]

theorem wfTop_of_isCommand {c : TalonNode} (hc : c.isCommand = true) :
    wfTop c = true := by
  cases c <;> simp_all [TalonNode.isCommand, wfTop]

theorem doc_comments_docstringDoc (i : NodeInfo) :
    doc_comments (docstringDoc i) = [] := by
  rw [docstringDoc, text_words, if_neg (by simp)]
  rw [doc_comments_Cat _ _ (by
    intro s h1 h2
    exact absurd (Doc.Text.inj h1) (by decide))]
  rw [doc_comments_Text, doc_comments_Text]
  rfl

theorem hash_free_Text {s : String} (h : s ≠ "#") :
    hash_free (Doc.Text s) = true := by
  rw [hash_free]
  simpa using h

theorem hash_free_catList :
    ∀ ds : List Doc, (∀ d ∈ ds, hash_free d = true) →
      hash_free (Doc.catList ds) = true := by
  intro ds
  induction ds with
  | nil => intro h; rfl
  | cons d ds ih =>
    intro h
    cases ds with
    | nil => rw [Doc.catList]; exact h d (by simp)
    | cons d2 ds2 =>
      rw [Doc.catList]
      · rw [hash_free, h d (by simp), ih (fun x hx => h x (by simp [hx]))]
        rfl
      · exact fun h2 => List.noConfusion h2

theorem hash_free_parensD {d : Doc} (h : hash_free d = true) :
    hash_free (Doc.parensD d) = true := by
  rw [Doc.parensD]
  rw [hash_free, hash_free, hash_free, hash_free, h]
  rfl

theorem hash_free_dslash {a b : Doc} (ha : hash_free a = true)
    (hb : hash_free b = true) : hash_free (Doc.dslash a b) = true := by
  rw [Doc.dslash, hash_free, ha, hb]
  rfl

theorem hash_free_dspace {a b : Doc} (ha : hash_free a = true)
    (hb : hash_free b = true) : hash_free (Doc.dspace a b) = true := by
  rw [Doc.dspace, hash_free, hash_free, ha, hb]
  rfl

theorem hash_free_keywords (ua un : Bool) :
    ∀ d ∈ format_match_keywords ua un, hash_free d = true := by
  intro d hd
  rw [format_match_keywords] at hd
  rcases List.mem_append.1 hd with h | h <;>
    [(cases ua <;> simp at h); (cases un <;> simp at h)] <;>
    rcases h with rfl | rfl <;> rfl

theorem dc_altList1 (a : Doc) :
    doc_comments (Doc.altList [a]) = doc_comments a := by
  rw [Doc.altList]

theorem dc_altList2 (a b : Doc) :
    doc_comments (Doc.altList [a, b]) = doc_comments a := by
  rw [Doc.altList]
  · rw [doc_comments]
  · exact fun h => List.noConfusion h

theorem match_line_comment_free (cfg : Cfg) {k p : Doc}
    (hk : hash_free k = true) (hp : hash_free p = true) :
    doc_comments (Doc.altList (format_match_alternatives cfg k p)) = [] := by
  have hline : hash_free (Doc.dspace (Doc.dslash k (Doc.Text ":")) p) =
      true :=
    hash_free_dspace (hash_free_dslash hk (hash_free_Text (by decide))) hp
  rw [format_match_alternatives]
  cases ht : cfg.align_match_context.truthy with
  | false =>
    simp only [Bool.false_eq_true, if_false, List.append_nil]
    rw [Doc.altList]
    exact hash_free_doc_comments hline
  | true =>
    simp only [if_true]
    cases h2 : cfg.align_match_context.isTrue <;>
      simp only [Bool.false_eq_true, if_false, if_true] <;>
      rw [List.singleton_append, dc_altList2] <;>
      exact hash_free_doc_comments hline

theorem dc_nest_lines (n : Nat) (d : Doc) :
    doc_comments (Doc.nestCat n [Doc.Line, d, Doc.Line]) = doc_comments d := by
  have hcl : Doc.catList [Doc.Line, d, Doc.Line] =
      Doc.Cat Doc.Line (Doc.Cat d Doc.Line) := by
    rw [Doc.catList]
    · rw [Doc.catList]
      · rfl
      · exact fun h => List.noConfusion h
    · exact fun h => List.noConfusion h
  rw [Doc.nestCat, hcl, doc_comments]
  rw [doc_comments_Cat _ _ (by intro s h1 h2; exact Doc.noConfusion h1)]
  rw [doc_comments_Cat _ _ (by intro s h1 h2; exact Doc.noConfusion h2)]
  rw [doc_comments_Line, List.nil_append, List.append_nil]

theorem dc_nest_line2 (n : Nat) (d : Doc) :
    doc_comments (Doc.nestCat n [Doc.Line, d]) = doc_comments d := by
  have hcl : Doc.catList [Doc.Line, d] = Doc.Cat Doc.Line d := by
    rw [Doc.catList]
    · rfl
    · exact fun h => List.noConfusion h
  rw [Doc.nestCat, hcl, doc_comments]
  rw [doc_comments_Cat _ _ (by intro s h1 h2; exact Doc.noConfusion h1)]
  rw [doc_comments_Line, List.nil_append]

theorem store_comments_kept_not_comment {nt : NType} :
    ∀ {cs : List TalonNode} {buf : Buf} {kept : List TalonNode} {b : Buf},
      store_comments nt cs buf = .ok (kept, b) →
      ∀ k ∈ kept, k.isComment = false := by
  intro cs
  induction cs with
  | nil =>
    intro buf kept b h k hk
    simp only [store_comments, Except.ok.injEq, Prod.mk.injEq] at h
    rw [← h.1] at hk
    cases hk
  | cons c cs ih =>
    intro buf kept b h k hk
    rw [store_comments] at h
    split at h
    · exact ih h k hk
    next hc =>
      split at h
      · split at h
        next kept2 b2 heq =>
          simp only [Except.ok.injEq, Prod.mk.injEq] at h
          rw [← h.1] at hk
          rcases List.mem_cons.1 hk with rfl | hk2
          · exact Bool.eq_false_iff.2 hc
          · exact ih heq k hk2
        · exact Except.noConfusion h
      · exact Except.noConfusion h


theorem buf_comments_nil : buf_comments [] = [] := rfl

theorem buf_comments_append (a b : Buf) :
    buf_comments (a ++ b) = buf_comments a ++ buf_comments b := by
  simp [buf_comments]

theorem buf_comments_singleton (i : NodeInfo) :
    buf_comments [i] = [stripHash i.text] := rfl

theorem doc_comments_Space : doc_comments Doc.Space = [] := by
  rw [doc_comments] <;> (intros; rename_i h; exact Doc.noConfusion h)

theorem dc_dspace_text {s : String} (hs : s ≠ "#") (d : Doc) :
    doc_comments (Doc.dspace (Doc.Text s) d) = doc_comments d := by
  rw [Doc.dspace]
  rw [doc_comments_Cat _ _ (fun s2 h1 h2 => absurd (Doc.Text.inj h1) hs)]
  rw [doc_comments_Text, List.nil_append]
  rw [doc_comments_Cat _ _ (fun s2 h1 h2 => Doc.noConfusion h1)]
  rw [doc_comments_Space, List.nil_append]

theorem get_node_with_type_not_comment {nt : NType} {cs : List TalonNode}
    {buf : Buf} {n : TalonNode} {b : Buf}
    (h : get_node_with_type nt cs buf = .ok (n, b)) :
    n.isComment = false := by
  unfold get_node_with_type at h
  split at h
  · cases h
  next kept b2 heq =>
    split at h
    next m =>
      simp only [Except.ok.injEq, Prod.mk.injEq] at h
      rcases h with ⟨h1, h2⟩
      subst h1 h2
      exact store_comments_kept_not_comment heq _ (by simp)
    next => cases h



set_option maxHeartbeats 4000000 in
theorem format_block_comments (cfg : Cfg) : ∀ (node : TalonNode) (buf : Buf),
    wfExpr node = true → ∀ ls b2, format_block cfg node buf = .ok (ls, b2) →
    msOf (out_comments ls) + msOf (buf_comments b2) =
      msOf (buf_comments buf) + msOf (node_comments node) := by
  apply format_block.induct cfg
    (fun n b => wfExpr n = true → ∀ d b2, format cfg n b = .ok (d, b2) →
      (msOf (doc_comments d) + msOf (buf_comments b2) =
        msOf (buf_comments b) + msOf (node_comments n)) ∧
      (isExprPos n = true → hash_free d = true))
    (fun n b => wfExpr n = true → ∀ ls b2,
      format_block cfg n b = .ok (ls, b2) →
      msOf (out_comments ls) + msOf (buf_comments b2) =
        msOf (buf_comments b) + msOf (node_comments n))
    (fun n ua un b => wfExpr n = true → ∀ ls b2,
      format_block_match cfg n ua un b = .ok (ls, b2) →
      msOf (out_comments ls) + msOf (buf_comments b2) =
        msOf (buf_comments b) + msOf (node_comments n))
    (fun cs ua un b => wfExpr.wfExprList cs = true → ∀ out b2,
      or_loop cfg cs ua un b = .ok (out, b2) →
      msOf (out_comments out) + msOf (buf_comments b2) =
        msOf (buf_comments b) +
          msOf (node_comments.node_commentsList cs))
    (fun cs ua un b => wfExpr.wfExprList cs = true → ∀ out b2,
      not_loop cfg cs ua un b = .ok (out, b2) →
      msOf (out_comments out) + msOf (buf_comments b2) =
        msOf (buf_comments b) +
          msOf (node_comments.node_commentsList cs))
    (fun cs ua un b => wfExpr.wfExprList cs = true → ∀ out b2,
      and_loop cfg cs ua un b = .ok (out, b2) →
      msOf (out_comments out) + msOf (buf_comments b2) =
        msOf (buf_comments b) +
          msOf (node_comments.node_commentsList cs))
    (fun cs b => wfExpr.wfExprList cs = true → ∀ out b2,
      block_loop cfg cs b = .ok (out, b2) →
      msOf (out_comments out) + msOf (buf_comments b2) =
        msOf (buf_comments b) +
          msOf (node_comments.node_commentsList cs))
    (fun cs b => wfExpr.wfExprList cs = true → ∀ out b2,
      ctx_loop cfg cs b = .ok (out, b2) →
      msOf (out_comments out) + msOf (buf_comments b2) =
        msOf (buf_comments b) +
          msOf (node_comments.node_commentsList cs))
    (fun cs ihdr cb sb b => wfExpr.wfExprList cs = true →
      (ihdr = false → cb = []) → (∀ d ∈ sb, isCatAlt d = true) →
      (cfg.align_short_commands.isTrue = false → sb = []) → ∀ out b2,
      sf_loop cfg cs ihdr cb sb b = .ok (out, b2) →
      msOf (out_comments out) + msOf (buf_comments b2) =
        msOf (out_comments cb) + msOf (out_comments sb) +
          msOf (buf_comments b) +
          msOf (node_comments.node_commentsList cs))
    (fun cs b => (∀ c ∈ cs, (c.isComment || isExprPos c) = true) →
      wfExpr.wfExprList cs = true → ∀ ds b2,
      format_children cfg cs b = .ok (ds, b2) →
      (msOf (buf_comments b2) =
        msOf (buf_comments b) +
          msOf (node_comments.node_commentsList cs)) ∧
      (∀ d ∈ ds, hash_free d = true))
  case case1 =>
    intro b i hwf d b2 hok
    rw [format] at hok
    simp only [Except.ok.injEq, Prod.mk.injEq] at hok
    obtain ⟨hd, hb⟩ := hok
    subst hd hb
    have hhf : hash_free (text_words i.text true) = true :=
      hash_free_text_words (noHashText_chars (by simpa [wfExpr] using hwf))
    refine ⟨?_, fun _ => hhf⟩
    rw [hash_free_doc_comments hhf, node_comments]
    simp [msOf_nil]
  case case2 =>
    intro b i hwf d b2 hok
    rw [format] at hok
    simp only [Except.ok.injEq, Prod.mk.injEq] at hok
    obtain ⟨hd, hb⟩ := hok
    subst hd hb
    have hhf : hash_free (text_words (trimStr i.text) true) = true :=
      hash_free_text_words (trimStr_chars
        (noHashText_chars (by simpa [wfExpr] using hwf)))
    refine ⟨?_, fun _ => hhf⟩
    rw [hash_free_doc_comments hhf, node_comments]
    simp [msOf_nil]
  case case3 =>
    intro b i hwf d b2 hok
    rw [format] at hok
    simp only [Except.ok.injEq, Prod.mk.injEq] at hok
    obtain ⟨hd, hb⟩ := hok
    subst hd hb
    have hhf : hash_free (text_words i.text true) = true :=
      hash_free_text_words (noHashText_chars (by simpa [wfExpr] using hwf))
    refine ⟨?_, fun _ => hhf⟩
    rw [hash_free_doc_comments hhf, node_comments]
    simp [msOf_nil]
  case case4 =>
    intro b i hwf d b2 hok
    rw [format] at hok
    simp only [Except.ok.injEq, Prod.mk.injEq] at hok
    obtain ⟨hd, hb⟩ := hok
    subst hd hb
    refine ⟨?_, fun hexp => Bool.noConfusion hexp⟩
    rw [doc_comments_commentDoc, node_comments, add_comm]
  case case5 =>
    intro b i hwf d b2 hok
    rw [format] at hok
    simp only [Except.ok.injEq, Prod.mk.injEq] at hok
    obtain ⟨hd, hb⟩ := hok
    subst hd hb
    refine ⟨?_, fun hexp => Bool.noConfusion hexp⟩
    rw [doc_comments_docstringDoc, node_comments]
    simp [msOf_nil]
  case case6 =>
    intro b info cs e heq ih hwf d b2 hok
    rw [format] at hok
    rw [heq] at hok
    exact Except.noConfusion hok
  case case7 =>
    intro b info cs ds b1 heq ih hwf d b2 hok
    rw [format] at hok
    rw [heq] at hok
    simp only [Except.ok.injEq, Prod.mk.injEq] at hok
    obtain ⟨hd, hb⟩ := hok
    subst hd hb
    simp only [wfExpr, Bool.and_eq_true] at hwf
    obtain ⟨hall, hwl⟩ := hwf
    obtain ⟨hcons, hhfs⟩ := ih (fun c hcm => List.all_eq_true.1 hall c hcm)
      hwl ds b1 heq
    have hhf : hash_free (Doc.catList ds) = true := hash_free_catList ds hhfs
    refine ⟨?_, fun _ => hhf⟩
    rw [hash_free_doc_comments hhf, node_comments, msOf_nil, zero_add, hcons]
  case case8 =>
    intro b info cs e heq hwf d b2 hok
    rw [format] at hok
    split at hok
    · exact Except.noConfusion hok
    next n b1 heq2 =>
      rw [heq] at heq2
      exact Except.noConfusion heq2
  case case9 =>
    intro b info cs n b1 heq1 e hfe ih hwf d b2 hok
    rw [format] at hok
    split at hok
    · exact Except.noConfusion hok
    next n2 b12 heq2 =>
      rw [heq1] at heq2
      cases heq2
      split at hok
      · exact Except.noConfusion hok
      next d3 b3 heq3 =>
        rw [hfe] at heq3
        exact Except.noConfusion heq3
  case case10 =>
    intro b info cs n b1 heq1 d b2 heq2 ih hwf dd b3 hok
    rw [format] at hok
    split at hok
    · exact Except.noConfusion hok
    next n2 b12 heq3 =>
      rw [heq1] at heq3
      cases heq3
      split at hok
      · exact Except.noConfusion hok
      next d4 b4 heq4 =>
        rw [heq2] at heq4
        cases heq4
        simp only [Except.ok.injEq, Prod.mk.injEq] at hok
        obtain ⟨hd, hb⟩ := hok
        subst hd hb
        simp only [wfExpr, Bool.and_eq_true] at hwf
        obtain ⟨hall, hwl⟩ := hwf
        rw [get_node] at heq1
        have hnmem := get_node_with_type_mem heq1
        have hwn : wfExpr n = true := wfExprList_mem hwl hnmem
        have hnc : n.isComment = false :=
          get_node_with_type_not_comment heq1
        have hexp : isExprPos n = true := by
          have := List.all_eq_true.1 hall n hnmem
          simpa [hnc] using this
        obtain ⟨hcons, hhfc⟩ := ih hwn d b2 heq2
        have hhf : hash_free (Doc.parensD d) = true :=
          hash_free_parensD (hhfc hexp)
        refine ⟨?_, fun _ => hhf⟩
        rw [hash_free_doc_comments hhf, node_comments, msOf_nil, zero_add]
        rw [hash_free_doc_comments (hhfc hexp), msOf_nil, zero_add] at hcons
        have hg := get_node_with_type_conservation heq1
        calc msOf (buf_comments b2)
            = msOf (buf_comments b1) + msOf (node_comments n) := hcons
          _ = msOf (buf_comments b) +
              msOf (node_comments.node_commentsList cs) := hg
  case case11 =>
    intro b info hwf d b2 hok
    rw [format] at hok
    exact Except.noConfusion hok
  case case12 =>
    intro b info k p cs hwf d b2 hok
    rw [format] at hok
    exact Except.noConfusion hok
  case case13 =>
    intro b info cs hwf d b2 hok
    rw [format] at hok
    exact Except.noConfusion hok
  case case14 =>
    intro b info cs hwf d b2 hok
    rw [format] at hok
    exact Except.noConfusion hok
  case case15 =>
    intro b info cs hwf d b2 hok
    rw [format] at hok
    exact Except.noConfusion hok
  case case16 =>
    intro b i cs e heq ih hwf d b2 hok
    rw [format] at hok
    rw [heq] at hok
    exact Except.noConfusion hok
  case case17 =>
    intro b i cs ds b1 heq ih hwf d b2 hok
    rw [format] at hok
    rw [heq] at hok
    simp only [Except.ok.injEq, Prod.mk.injEq] at hok
    obtain ⟨hd, hb⟩ := hok
    subst hd hb
    refine ⟨?_, fun hexp => Bool.noConfusion hexp⟩
    rw [doc_comments_lineJoin]
    exact ih hwf ds b1 heq
  case case18 =>
    intro b i cs e heq ih hwf d b2 hok
    rw [format] at hok
    rw [heq] at hok
    exact Except.noConfusion hok
  case case19 =>
    intro b i cs ds b1 heq ih hwf d b2 hok
    rw [format] at hok
    rw [heq] at hok
    simp only [Except.ok.injEq, Prod.mk.injEq] at hok
    obtain ⟨hd, hb⟩ := hok
    subst hd hb
    refine ⟨?_, fun hexp => Bool.noConfusion hexp⟩
    rw [doc_comments_lineJoin]
    exact ih hwf ds b1 heq
  case case20 =>
    intro b i t cs e heq ih hwf d b2 hok
    rw [format] at hok
    rw [heq] at hok
    exact Except.noConfusion hok
  case case21 =>
    intro b i t cs ds b1 heq ih hwf d b2 hok
    rw [format] at hok
    rw [heq] at hok
    simp only [Except.ok.injEq, Prod.mk.injEq] at hok
    obtain ⟨hd, hb⟩ := hok
    subst hd hb
    refine ⟨?_, fun hexp => Bool.noConfusion hexp⟩
    rw [doc_comments_lineJoin]
    exact ih hwf ds b1 heq
  case case22 =>
    intro b i cs e heq ih hwf d b2 hok
    rw [format] at hok
    rw [heq] at hok
    exact Except.noConfusion hok
  case case23 =>
    intro b i cs ds b1 heq ih hwf d b2 hok
    rw [format] at hok
    rw [heq] at hok
    simp only [Except.ok.injEq, Prod.mk.injEq] at hok
    obtain ⟨hd, hb⟩ := hok
    subst hd hb
    refine ⟨?_, fun hexp => Bool.noConfusion hexp⟩
    rw [doc_comments_lineJoin]
    exact ih hwf ds b1 heq
  case case24 =>
    intro b i r sc cs e heq ih hwf d b2 hok
    rw [format] at hok
    rw [heq] at hok
    exact Except.noConfusion hok
  case case25 =>
    intro b i r sc cs ds b1 heq ih hwf d b2 hok
    rw [format] at hok
    rw [heq] at hok
    simp only [Except.ok.injEq, Prod.mk.injEq] at hok
    obtain ⟨hd, hb⟩ := hok
    subst hd hb
    refine ⟨?_, fun hexp => Bool.noConfusion hexp⟩
    rw [doc_comments_lineJoin]
    exact ih hwf ds b1 heq
  case case26 =>
    intro b i cs e heq ih hwf d b2 hok
    rw [format] at hok
    rw [heq] at hok
    exact Except.noConfusion hok
  case case27 =>
    intro b i cs ds b1 heq ih hwf d b2 hok
    rw [format] at hok
    rw [heq] at hok
    simp only [Except.ok.injEq, Prod.mk.injEq] at hok
    obtain ⟨hd, hb⟩ := hok
    subst hd hb
    refine ⟨?_, fun hexp => Bool.noConfusion hexp⟩
    rw [doc_comments_lineJoin]
    exact ih hwf ds b1 heq
  case case28 =>
    intro b i l r cs e heq ih hwf d b2 hok
    rw [format] at hok
    rw [heq] at hok
    exact Except.noConfusion hok
  case case29 =>
    intro b i l r cs ds b1 heq ih hwf d b2 hok
    rw [format] at hok
    rw [heq] at hok
    simp only [Except.ok.injEq, Prod.mk.injEq] at hok
    obtain ⟨hd, hb⟩ := hok
    subst hd hb
    refine ⟨?_, fun hexp => Bool.noConfusion hexp⟩
    rw [doc_comments_lineJoin]
    exact ih hwf ds b1 heq
  case case30 =>
    intro b i e2 cs e heq ih hwf d b2 hok
    rw [format] at hok
    rw [heq] at hok
    exact Except.noConfusion hok
  case case31 =>
    intro b i e2 cs ds b1 heq ih hwf d b2 hok
    rw [format] at hok
    rw [heq] at hok
    simp only [Except.ok.injEq, Prod.mk.injEq] at hok
    obtain ⟨hd, hb⟩ := hok
    subst hd hb
    refine ⟨?_, fun hexp => Bool.noConfusion hexp⟩
    rw [doc_comments_lineJoin]
    exact ih hwf ds b1 heq
  case case32 =>
    intro b info cs ih hwf ls b2 hok
    rw [format_block] at hok
    simp only [wfExpr] at hwf
    have hr := ih hwf (fun h => rfl) (by intro d hd; simp at hd)
      (fun h => rfl) ls b2 hok
    simp only [out_comments_append, out_comments_cons, out_comments_nil,
      out_comments_singleton, out_comments_commentDocs, node_comments,
      node_comments.node_commentsList, msOf_append, msOf_nil,
      buf_comments_append, buf_comments_nil, List.append_nil,
      List.nil_append] at hr ⊢
    refine Multiset.ext.2 fun a => ?_
    have e1 := congrArg (Multiset.count a) hr
    simp only [Multiset.count_add, Multiset.count_zero] at e1 ⊢
    omega
  case case33 =>
    intro b info cs ih hwf ls b2 hok
    rw [format_block] at hok
    simp only [wfExpr] at hwf
    simpa [node_comments] using ih hwf ls b2 hok
  case case34 =>
    intro b info tag cs e heq hwf ls b2 hok
    rw [format_block] at hok
    rw [heq] at hok
    exact Except.noConfusion hok
  case case35 =>
    intro b info tag cs b1 heq1 p e heq2 ih hwf ls b2 hok
    have hp : p = get_formatted_comments b1 := rfl
    rw [hp] at heq2
    rw [format_block] at hok
    simp only [heq1] at hok
    split at hok
    · exact Except.noConfusion hok
    next tagDoc b3 heq3 =>
      rw [heq2] at heq3
      exact Except.noConfusion heq3
  case case36 =>
    intro b info tag cs b1 heq1 p d b2 heq2 ih hwf ls b3 hok
    have hp : p = get_formatted_comments b1 := rfl
    rw [hp] at heq2 ih
    rw [format_block] at hok
    simp only [heq1] at hok
    split at hok
    · exact Except.noConfusion hok
    next tagDoc b4 heq3 =>
      rw [heq2] at heq3
      cases heq3
      simp only [Except.ok.injEq, Prod.mk.injEq] at hok
      obtain ⟨hl, hb⟩ := hok
      subst hl hb
      simp only [wfExpr, Bool.and_eq_true] at hwf
      obtain ⟨⟨hexp, hwt⟩, hwl⟩ := hwf
      simp only [get_formatted_comments] at heq2 ih ⊢
      obtain ⟨hcons, hhfc⟩ := ih hwt d b2 heq2
      have hac := assert_only_comments_conservation heq1
      have hds : doc_comments (Doc.dspace (Doc.Text "tag():") d) = [] :=
        hash_free_doc_comments (hash_free_dspace (hash_free_Text (by decide))
          (hhfc hexp))
      rw [hash_free_doc_comments (hhfc hexp), msOf_nil, zero_add] at hcons
      simp only [buf_comments_nil, msOf_nil, zero_add] at hcons
      simp only [hds, out_comments_append, out_comments_cons, out_comments_nil,
      out_comments_singleton, out_comments_commentDocs, node_comments,
      node_comments.node_commentsList, msOf_append, msOf_nil,
      buf_comments_append, buf_comments_nil, List.append_nil,
      List.nil_append] at hac hcons ⊢
      refine Multiset.ext.2 fun a => ?_
      have e1 := congrArg (Multiset.count a) hac
      have e2 := congrArg (Multiset.count a) hcons
      simp only [Multiset.count_add, Multiset.count_zero] at e1 e2 ⊢
      omega
  case case37 =>
    intro b info cs e heq hwf ls b2 hok
    rw [format_block] at hok
    split at hok
    · exact Except.noConfusion hok
    next n b1 heq2 =>
      rw [heq] at heq2
      exact Except.noConfusion heq2
  case case38 =>
    intro b info cs n b1 heq1 p e hble ih hwf ls b2 hok
    have hp : p = get_comments b1 := rfl
    rw [hp] at hble
    simp only [get_comments] at hble
    rw [format_block] at hok
    split at hok
    · exact Except.noConfusion hok
    next n2 b12 heq2 =>
      rw [heq1] at heq2
      cases heq2
      simp only [get_comments] at hok
      split at hok
      · exact Except.noConfusion hok
      next ds b3 heq3 =>
        rw [hble] at heq3
        exact Except.noConfusion heq3
  case case39 =>
    intro b info cs n b1 heq1 p ds b2c heq2 ih hwf ls b3 hok
    have hp : p = get_comments b1 := rfl
    rw [hp] at heq2 ih
    simp only [get_comments] at heq2 ih
    rw [format_block] at hok
    split at hok
    · exact Except.noConfusion hok
    next n2 b12 heq3 =>
      rw [heq1] at heq3
      cases heq3
      simp only [get_comments] at hok
      split at hok
      · exact Except.noConfusion hok
      next ds2 b4 heq4 =>
        rw [heq2] at heq4
        cases heq4
        simp only [Except.ok.injEq, Prod.mk.injEq] at hok
        obtain ⟨hl, hb⟩ := hok
        subst hl hb
        simp only [wfExpr] at hwf
        have hwn : wfExpr n = true :=
          wfExprList_mem hwf (get_node_with_type_mem heq1)
        have hnb : n.isBlock = true := get_node_with_type_block heq1
        have hih := ih (by
            rw [wfExprList_append, Bool.and_eq_true]
            exact ⟨wfExprList_comments b1,
              by rw [← wfExpr_isBlock hnb]; exact hwn⟩)
          ds b2c heq2
        rw [out_comments_singleton, dc_dspace_text (by decide), dc_nest_line2,
          doc_comments_lineJoin]
        rw [node_commentsList_append, node_commentsList_commentNodes] at hih
        have hg := get_node_with_type_conservation heq1
        rw [node_comments_isBlock hnb] at hg
        simp only [out_comments_append, out_comments_cons, out_comments_nil,
      out_comments_singleton, out_comments_commentDocs, node_comments,
      node_comments.node_commentsList, msOf_append, msOf_nil,
      buf_comments_append, buf_comments_nil, List.append_nil,
      List.nil_append] at hih hg ⊢
        refine Multiset.ext.2 fun a => ?_
        have e1 := congrArg (Multiset.count a) hih
        have e2 := congrArg (Multiset.count a) hg
        simp only [Multiset.count_add, Multiset.count_zero] at e1 e2 ⊢
        omega
  case case40 =>
    intro b info rule script cs e heq ih hwf ls b2 hok
    rw [format_block] at hok
    rw [heq] at hok
    exact Except.noConfusion hok
  case case41 =>
    intro b info rule script cs d b2 heq1 p e heq2 ih1 ih2 hwf ls b3 hok
    have hp : p = get_formatted_comments b2 := rfl
    rw [hp] at heq2
    rw [format_block] at hok
    simp only [heq1] at hok
    split at hok
    · exact Except.noConfusion hok
    next ds b4 heq3 =>
      rw [heq2] at heq3
      exact Except.noConfusion heq3
  case case42 =>
    intro b info rule script cs d b2 heq1 p ds b1 heq2 ih1 ih2 hwf ls b3 hok
    have hp : p = get_formatted_comments b2 := rfl
    rw [hp] at heq2 ih2
    rw [format_block] at hok
    simp only [heq1] at hok
    split at hok
    · exact Except.noConfusion hok
    next ds2 b4 heq3 =>
      rw [heq2] at heq3
      cases heq3
      simp only [Except.ok.injEq, Prod.mk.injEq] at hok
      obtain ⟨hl, hb⟩ := hok
      subst hl hb
      simp only [wfExpr, Bool.and_eq_true] at hwf
      obtain ⟨⟨⟨⟨hexp, hsb⟩, hwr⟩, hws⟩, hwl⟩ := hwf
      obtain ⟨hcons1, hhfc⟩ := ih1 hwr d b2 heq1
      have hhfr := hhfc hexp
      simp only [get_formatted_comments] at heq2 ih2 ⊢
      have hih2 := ih2 (by
          rw [wfExprList_append, Bool.and_eq_true]
          exact ⟨hwl, by rw [← wfExpr_isBlock hsb]; exact hws⟩)
        ds b1 heq2
      rw [node_commentsList_append] at hih2
      simp only [buf_comments_nil, msOf_nil, zero_add] at hih2
      rw [out_comments_append, out_comments_commentDocs, out_comments_singleton]
      rw [doc_comments]
      rw [doc_comments_Cat _ _ (by
        intro s h1 h2
        rw [Doc.dslash] at h1
        exact Doc.noConfusion h1)]
      rw [hash_free_doc_comments (hash_free_dslash hhfr
        (hash_free_Text (by decide))), List.nil_append, dc_nest_lines,
        doc_comments_lineJoin]
      rw [hash_free_doc_comments hhfr, msOf_nil, zero_add] at hcons1
      simp only [node_comments_isBlock hsb, out_comments_append, out_comments_cons, out_comments_nil,
      out_comments_singleton, out_comments_commentDocs, node_comments,
      node_comments.node_commentsList, msOf_append, msOf_nil,
      buf_comments_append, buf_comments_nil, List.append_nil,
      List.nil_append] at hcons1 hih2 ⊢
      refine Multiset.ext.2 fun a => ?_
      have e1 := congrArg (Multiset.count a) hcons1
      have e2 := congrArg (Multiset.count a) hih2
      simp only [Multiset.count_add, Multiset.count_zero] at e1 e2 ⊢
      omega
  case case43 =>
    intro b info cs ih hwf ls b2 hok
    rw [format_block] at hok
    simp only [wfExpr] at hwf
    simpa [node_comments] using ih hwf ls b2 hok
  case case44 =>
    intro b info l r cs e heq hwf ls b2 hok
    rw [format_block] at hok
    rw [heq] at hok
    exact Except.noConfusion hok
  case case45 =>
    intro b info l r cs b1 heq1 e heq2 ih hwf ls b2 hok
    rw [format_block] at hok
    simp only [heq1] at hok
    split at hok
    · exact Except.noConfusion hok
    next ld b3 heq3 =>
      rw [heq2] at heq3
      exact Except.noConfusion heq3
  case case46 =>
    intro b info l r cs b1 heq1 d b2 heq2 e heq3 ih1 ih2 hwf ls b3 hok
    rw [format_block] at hok
    simp only [heq1] at hok
    split at hok
    · exact Except.noConfusion hok
    next ld b4 heq4 =>
      rw [heq2] at heq4
      cases heq4
      split at hok
      · exact Except.noConfusion hok
      next rd b5 heq5 =>
        rw [heq3] at heq5
        exact Except.noConfusion heq5
  case case47 =>
    intro b info l r cs b1 heq1 d b2 heq2 d2 b3 heq3 ih1 ih2 hwf ls b4 hok
    rw [format_block] at hok
    simp only [heq1] at hok
    split at hok
    · exact Except.noConfusion hok
    next ld b5 heq4 =>
      rw [heq2] at heq4
      cases heq4
      split at hok
      · exact Except.noConfusion hok
      next rd b6 heq5 =>
        rw [heq3] at heq5
        cases heq5
        simp only [Except.ok.injEq, Prod.mk.injEq] at hok
        obtain ⟨hl, hb⟩ := hok
        subst hl hb
        simp only [wfExpr, Bool.and_eq_true] at hwf
        obtain ⟨⟨⟨⟨hel, her⟩, hwl2⟩, hwr2⟩, hwcs⟩ := hwf
        obtain ⟨hc1, hf1⟩ := ih1 hwl2 d b2 heq2
        obtain ⟨hc2, hf2⟩ := ih2 hwr2 d2 b3 heq3
        have hac := assert_only_comments_conservation heq1
        rw [out_comments_singleton, hash_free_doc_comments
          (hash_free_dspace (hash_free_dspace (hf1 hel)
            (hash_free_Text (by decide))) (hf2 her)), msOf_nil, zero_add]
        rw [hash_free_doc_comments (hf1 hel), msOf_nil, zero_add] at hc1
        rw [hash_free_doc_comments (hf2 her), msOf_nil, zero_add] at hc2
        simp only [out_comments_append, out_comments_cons, out_comments_nil,
      out_comments_singleton, out_comments_commentDocs, node_comments,
      node_comments.node_commentsList, msOf_append, msOf_nil,
      buf_comments_append, buf_comments_nil, List.append_nil,
      List.nil_append] at hac hc1 hc2 ⊢
        refine Multiset.ext.2 fun a => ?_
        have e1 := congrArg (Multiset.count a) hac
        have e2 := congrArg (Multiset.count a) hc1
        have e3 := congrArg (Multiset.count a) hc2
        simp only [Multiset.count_add, Multiset.count_zero] at e1 e2 e3 ⊢
        omega
  case case48 =>
    intro b info e2 cs e heq hwf ls b2 hok
    rw [format_block] at hok
    rw [heq] at hok
    exact Except.noConfusion hok
  case case49 =>
    intro b info e2 cs b1 heq1 e heq2 ih hwf ls b2 hok
    rw [format_block] at hok
    simp only [heq1] at hok
    split at hok
    · exact Except.noConfusion hok
    next d4 b4 heq3 =>
      rw [heq2] at heq3
      exact Except.noConfusion heq3
  case case50 =>
    intro b info e2 cs b1 heq1 d b2 heq2 ih hwf ls b3 hok
    rw [format_block] at hok
    simp only [heq1] at hok
    split at hok
    · exact Except.noConfusion hok
    next d4 b4 heq3 =>
      rw [heq2] at heq3
      cases heq3
      simp only [Except.ok.injEq, Prod.mk.injEq] at hok
      obtain ⟨hl, hb⟩ := hok
      subst hl hb
      simp only [wfExpr, Bool.and_eq_true] at hwf
      obtain ⟨⟨hee, hwe⟩, hwcs⟩ := hwf
      obtain ⟨hc1, hf1⟩ := ih hwe d b2 heq2
      have hac := assert_only_comments_conservation heq1
      rw [out_comments_singleton, hash_free_doc_comments (hf1 hee),
        msOf_nil, zero_add]
      rw [hash_free_doc_comments (hf1 hee), msOf_nil, zero_add] at hc1
      simp only [out_comments_append, out_comments_cons, out_comments_nil,
      out_comments_singleton, out_comments_commentDocs, node_comments,
      node_comments.node_commentsList, msOf_append, msOf_nil,
      buf_comments_append, buf_comments_nil, List.append_nil,
      List.nil_append] at hac hc1 ⊢
      refine Multiset.ext.2 fun a => ?_
      have e1 := congrArg (Multiset.count a) hac
      have e2 := congrArg (Multiset.count a) hc1
      simp only [Multiset.count_add, Multiset.count_zero] at e1 e2 ⊢
      omega
  case case51 =>
    intro b i hwf ls b2 hok
    rw [format_block] at hok
    simp only [Except.ok.injEq, Prod.mk.injEq] at hok
    obtain ⟨hl, hb⟩ := hok
    subst hl hb
    rw [out_comments_singleton, doc_comments_commentDoc, node_comments,
      add_comm]
  case case52 =>
    intro b i hwf ls b2 hok
    rw [format_block] at hok
    simp only [Except.ok.injEq, Prod.mk.injEq] at hok
    obtain ⟨hl, hb⟩ := hok
    subst hl hb
    rw [out_comments_singleton, doc_comments_docstringDoc, node_comments]
    simp [msOf_nil]
  case case53 =>
    intro b i cs ih hwf ls b2 hok
    rw [format_block] at hok
    exact ih hwf ls b2 hok
  case case54 =>
    intro b i cs ih hwf ls b2 hok
    rw [format_block] at hok
    exact ih hwf ls b2 hok
  case case55 =>
    intro b i cs ih hwf ls b2 hok
    rw [format_block] at hok
    exact ih hwf ls b2 hok
  case case56 =>
    intro b i k pt cs ih hwf ls b2 hok
    rw [format_block] at hok
    exact ih hwf ls b2 hok
  case case57 =>
    intro b info hwf ls b2 hok
    rw [format_block] at hok
    exact Except.noConfusion hok
  case case58 =>
    intro b info hwf ls b2 hok
    rw [format_block] at hok
    exact Except.noConfusion hok
  case case59 =>
    intro b info hwf ls b2 hok
    rw [format_block] at hok
    exact Except.noConfusion hok
  case case60 =>
    intro b info hwf ls b2 hok
    rw [format_block] at hok
    exact Except.noConfusion hok
  case case61 =>
    intro b info cs hwf ls b2 hok
    rw [format_block] at hok
    exact Except.noConfusion hok
  case case62 =>
    intro b info cs hwf ls b2 hok
    rw [format_block] at hok
    exact Except.noConfusion hok
  case case63 =>
    intro ua un b info cs ih hwf ls b2 hok
    rw [format_block_match] at hok
    simp only [wfExpr] at hwf
    simpa [node_comments] using ih hwf ls b2 hok
  case case64 =>
    intro ua un b info cs ih hwf ls b2 hok
    rw [format_block_match] at hok
    simp only [wfExpr] at hwf
    simpa [node_comments] using ih hwf ls b2 hok
  case case65 =>
    intro ua un b info cs ih hwf ls b2 hok
    rw [format_block_match] at hok
    simp only [wfExpr] at hwf
    simpa [node_comments] using ih hwf ls b2 hok
  case case66 =>
    intro ua un b info key pattern cs e heq hwf ls b2 hok
    rw [format_block_match] at hok
    rw [heq] at hok
    exact Except.noConfusion hok
  case case67 =>
    intro ua un b info key pattern cs b1 heq1 e heq2 ih hwf ls b2 hok
    rw [format_block_match] at hok
    simp only [heq1] at hok
    split at hok
    · exact Except.noConfusion hok
    next kd b3 heq3 =>
      rw [heq2] at heq3
      exact Except.noConfusion heq3
  case case68 =>
    intro ua un b info key pattern cs b1 heq1 d b2 heq2 e heq3 ih1 ih2 hwf ls b3 hok
    rw [format_block_match] at hok
    simp only [heq1] at hok
    split at hok
    · exact Except.noConfusion hok
    next kd b4 heq4 =>
      rw [heq2] at heq4
      cases heq4
      split at hok
      · exact Except.noConfusion hok
      next pd b5 heq5 =>
        rw [heq3] at heq5
        exact Except.noConfusion heq5
  case case69 =>
    intro ua un b info key pattern cs b1 heq1 d b2 heq2 d2 b3 heq3 ih1 ih2 hwf ls b4 hok
    rw [format_block_match] at hok
    simp only [heq1] at hok
    split at hok
    · exact Except.noConfusion hok
    next kd b5 heq4 =>
      rw [heq2] at heq4
      cases heq4
      split at hok
      · exact Except.noConfusion hok
      next pd b6 heq5 =>
        rw [heq3] at heq5
        cases heq5
        simp only [Except.ok.injEq, Prod.mk.injEq] at hok
        obtain ⟨hl, hb⟩ := hok
        subst hl hb
        simp only [wfExpr, Bool.and_eq_true] at hwf
        obtain ⟨⟨⟨⟨hek, hep⟩, hwk⟩, hwp⟩, hwcs⟩ := hwf
        obtain ⟨hc1, hf1⟩ := ih1 hwk d b2 heq2
        obtain ⟨hc2, hf2⟩ := ih2 hwp d2 b3 heq3
        have hkf : hash_free (Doc.catList
            (format_match_keywords ua un ++ [d])) = true := by
          apply hash_free_catList
          intro x hx
          rcases List.mem_append.1 hx with hx | hx
          · exact hash_free_keywords ua un x hx
          · simp only [List.mem_singleton] at hx
            subst hx
            exact hf1 hek
        have hline := match_line_comment_free cfg hkf (hf2 hep)
        have hac := assert_only_comments_conservation heq1
        rw [out_comments_singleton, hline, msOf_nil, zero_add]
        rw [hash_free_doc_comments (hf1 hek), msOf_nil, zero_add] at hc1
        rw [hash_free_doc_comments (hf2 hep), msOf_nil, zero_add] at hc2
        simp only [out_comments_append, out_comments_cons, out_comments_nil,
      out_comments_singleton, out_comments_commentDocs, node_comments,
      node_comments.node_commentsList, msOf_append, msOf_nil,
      buf_comments_append, buf_comments_nil, List.append_nil,
      List.nil_append] at hac hc1 hc2 ⊢
        refine Multiset.ext.2 fun a => ?_
        have e1 := congrArg (Multiset.count a) hac
        have e2 := congrArg (Multiset.count a) hc1
        have e3 := congrArg (Multiset.count a) hc2
        simp only [Multiset.count_add, Multiset.count_zero] at e1 e2 e3 ⊢
        omega
  case case70 =>
    intro ua un b info hwf ls b2 hok
    rw [format_block_match] at hok
    exact Except.noConfusion hok
  case case71 =>
    intro n ua un b hand hnot hor hmatch herr hwf ls b2 hok
    cases n <;>
      first
      | exact absurd rfl (hand _ _)
      | exact absurd rfl (hnot _ _)
      | exact absurd rfl (hor _ _)
      | exact absurd rfl (hmatch _ _ _ _)
      | exact absurd rfl (herr _)
      | (rw [format_block_match.eq_def] at hok
         exact Except.noConfusion hok)
  case case72 =>
    intro ua un b hwf out b2 hok
    rw [or_loop] at hok
    simp only [Except.ok.injEq, Prod.mk.injEq] at hok
    obtain ⟨ho, hb⟩ := hok
    subst ho hb
    simp [out_comments_nil, msOf_nil, node_comments.node_commentsList]
  case case73 =>
    intro ua un b c cs hc e heq ih hwf out b2 hok
    rw [or_loop, if_pos hc] at hok
    rw [heq] at hok
    exact Except.noConfusion hok
  case case74 =>
    intro ua un b c cs hc ds b1 heq1 e heq2 ih1 ih2 hwf out b2 hok
    rw [or_loop, if_pos hc] at hok
    simp only [heq1] at hok
    split at hok
    · exact Except.noConfusion hok
    next out3 b3 heq3 =>
      rw [heq2] at heq3
      exact Except.noConfusion heq3
  case case75 =>
    intro ua un b c cs hc ds b1 heq1 ds2 b2 heq2 ih1 ih2 hwf out b3 hok
    rw [or_loop, if_pos hc] at hok
    simp only [heq1] at hok
    split at hok
    · exact Except.noConfusion hok
    next out4 b4 heq3 =>
      rw [heq2] at heq3
      cases heq3
      simp only [Except.ok.injEq, Prod.mk.injEq] at hok
      obtain ⟨ho, hb⟩ := hok
      subst ho hb
      simp only [wfExpr.wfExprList, Bool.and_eq_true] at hwf
      obtain ⟨hwc, hwcs⟩ := hwf
      obtain ⟨hls, hb1⟩ := format_block_comment_out hc heq1
      subst hls hb1
      have hrec := ih2 hwcs ds2 b2 heq2
      simp only [node_comments_of_comment hc, out_comments_append, out_comments_cons, out_comments_nil,
      out_comments_singleton, out_comments_commentDocs, node_comments,
      node_comments.node_commentsList, msOf_append, msOf_nil,
      buf_comments_append, buf_comments_nil, List.append_nil,
      List.nil_append, doc_comments_commentDoc] at hrec ⊢
      refine Multiset.ext.2 fun a => ?_
      have e1 := congrArg (Multiset.count a) hrec
      simp only [Multiset.count_add, Multiset.count_zero] at e1 ⊢
      omega
  case case76 =>
    intro ua un b c cs hc e heq ih hwf out b2 hok
    rw [or_loop, if_neg hc] at hok
    rw [heq] at hok
    exact Except.noConfusion hok
  case case77 =>
    intro ua un b c cs hc ds b1 heq1 p e heq2 ih1 ih2 hwf out b2 hok
    have hp : p = get_formatted_comments b1 := rfl
    rw [hp] at heq2
    rw [or_loop, if_neg hc] at hok
    simp only [heq1] at hok
    split at hok
    · exact Except.noConfusion hok
    next out3 b3 heq3 =>
      rw [heq2] at heq3
      exact Except.noConfusion heq3
  case case78 =>
    intro ua un b c cs hc ds b1 heq1 p ds2 b2 heq2 ih1 ih2 hwf out b3 hok
    have hp : p = get_formatted_comments b1 := rfl
    rw [hp] at heq2 ih2
    rw [or_loop, if_neg hc] at hok
    simp only [heq1] at hok
    split at hok
    · exact Except.noConfusion hok
    next out4 b4 heq3 =>
      rw [heq2] at heq3
      cases heq3
      simp only [Except.ok.injEq, Prod.mk.injEq] at hok
      obtain ⟨ho, hb⟩ := hok
      subst ho hb
      simp only [wfExpr.wfExprList, Bool.and_eq_true] at hwf
      obtain ⟨hwc, hwcs⟩ := hwf
      have hc1 := ih1 hwc ds b1 heq1
      simp only [get_formatted_comments] at heq2 ih2 ⊢
      have hrec := ih2 hwcs ds2 b2 heq2
      simp only [buf_comments_nil, msOf_nil, zero_add] at hrec
      simp only [out_comments_append, out_comments_cons, out_comments_nil,
      out_comments_singleton, out_comments_commentDocs, node_comments,
      node_comments.node_commentsList, msOf_append, msOf_nil,
      buf_comments_append, buf_comments_nil, List.append_nil,
      List.nil_append] at hc1 hrec ⊢
      refine Multiset.ext.2 fun a => ?_
      have e1 := congrArg (Multiset.count a) hc1
      have e2 := congrArg (Multiset.count a) hrec
      simp only [Multiset.count_add, Multiset.count_zero] at e1 e2 ⊢
      omega
  case case79 =>
    intro ua un b hwf out b2 hok
    rw [not_loop] at hok
    simp only [Except.ok.injEq, Prod.mk.injEq] at hok
    obtain ⟨ho, hb⟩ := hok
    subst ho hb
    simp [out_comments_nil, msOf_nil, node_comments.node_commentsList]
  case case80 =>
    intro ua un b c cs hc e heq ih hwf out b2 hok
    rw [not_loop, if_pos hc] at hok
    rw [heq] at hok
    exact Except.noConfusion hok
  case case81 =>
    intro ua un b c cs hc ds b1 heq1 e heq2 ih1 ih2 hwf out b2 hok
    rw [not_loop, if_pos hc] at hok
    simp only [heq1] at hok
    split at hok
    · exact Except.noConfusion hok
    next out3 b3 heq3 =>
      rw [heq2] at heq3
      exact Except.noConfusion heq3
  case case82 =>
    intro ua un b c cs hc ds b1 heq1 ds2 b2 heq2 ih1 ih2 hwf out b3 hok
    rw [not_loop, if_pos hc] at hok
    simp only [heq1] at hok
    split at hok
    · exact Except.noConfusion hok
    next out4 b4 heq3 =>
      rw [heq2] at heq3
      cases heq3
      simp only [Except.ok.injEq, Prod.mk.injEq] at hok
      obtain ⟨ho, hb⟩ := hok
      subst ho hb
      simp only [wfExpr.wfExprList, Bool.and_eq_true] at hwf
      obtain ⟨hwc, hwcs⟩ := hwf
      obtain ⟨hls, hb1⟩ := format_block_comment_out hc heq1
      subst hls hb1
      have hrec := ih2 hwcs ds2 b2 heq2
      simp only [node_comments_of_comment hc, out_comments_append, out_comments_cons, out_comments_nil,
      out_comments_singleton, out_comments_commentDocs, node_comments,
      node_comments.node_commentsList, msOf_append, msOf_nil,
      buf_comments_append, buf_comments_nil, List.append_nil,
      List.nil_append, doc_comments_commentDoc] at hrec ⊢
      refine Multiset.ext.2 fun a => ?_
      have e1 := congrArg (Multiset.count a) hrec
      simp only [Multiset.count_add, Multiset.count_zero] at e1 ⊢
      omega
  case case83 =>
    intro ua un b c cs hc e heq ih hwf out b2 hok
    rw [not_loop, if_neg hc] at hok
    rw [heq] at hok
    exact Except.noConfusion hok
  case case84 =>
    intro ua un b c cs hc ds b1 heq1 e heq2 ih1 ih2 hwf out b2 hok
    rw [not_loop, if_neg hc] at hok
    simp only [heq1] at hok
    split at hok
    · exact Except.noConfusion hok
    next out3 b3 heq3 =>
      rw [heq2] at heq3
      exact Except.noConfusion heq3
  case case85 =>
    intro ua un b c cs hc ds b1 heq1 ds2 b2 heq2 ih1 ih2 hwf out b3 hok
    rw [not_loop, if_neg hc] at hok
    simp only [heq1] at hok
    split at hok
    · exact Except.noConfusion hok
    next out4 b4 heq3 =>
      rw [heq2] at heq3
      cases heq3
      simp only [Except.ok.injEq, Prod.mk.injEq] at hok
      obtain ⟨ho, hb⟩ := hok
      subst ho hb
      simp only [wfExpr.wfExprList, Bool.and_eq_true] at hwf
      obtain ⟨hwc, hwcs⟩ := hwf
      have hc1 := ih1 hwc ds b1 heq1
      have hrec := ih2 hwcs ds2 b2 heq2
      simp only [out_comments_append, out_comments_cons, out_comments_nil,
      out_comments_singleton, out_comments_commentDocs, node_comments,
      node_comments.node_commentsList, msOf_append, msOf_nil,
      buf_comments_append, buf_comments_nil, List.append_nil,
      List.nil_append] at hc1 hrec ⊢
      refine Multiset.ext.2 fun a => ?_
      have e1 := congrArg (Multiset.count a) hc1
      have e2 := congrArg (Multiset.count a) hrec
      simp only [Multiset.count_add, Multiset.count_zero] at e1 e2 ⊢
      omega
  case case86 =>
    intro ua un b hwf out b2 hok
    rw [and_loop] at hok
    simp only [Except.ok.injEq, Prod.mk.injEq] at hok
    obtain ⟨ho, hb⟩ := hok
    subst ho hb
    simp [out_comments_nil, msOf_nil, node_comments.node_commentsList]
  case case87 =>
    intro ua un b c cs hc e heq ih hwf out b2 hok
    rw [and_loop, if_pos hc] at hok
    rw [heq] at hok
    exact Except.noConfusion hok
  case case88 =>
    intro ua un b c cs hc ds b1 heq1 e heq2 ih1 ih2 hwf out b2 hok
    rw [and_loop, if_pos hc] at hok
    simp only [heq1] at hok
    split at hok
    · exact Except.noConfusion hok
    next out3 b3 heq3 =>
      rw [heq2] at heq3
      exact Except.noConfusion heq3
  case case89 =>
    intro ua un b c cs hc ds b1 heq1 ds2 b2 heq2 ih1 ih2 hwf out b3 hok
    rw [and_loop, if_pos hc] at hok
    simp only [heq1] at hok
    split at hok
    · exact Except.noConfusion hok
    next out4 b4 heq3 =>
      rw [heq2] at heq3
      cases heq3
      simp only [Except.ok.injEq, Prod.mk.injEq] at hok
      obtain ⟨ho, hb⟩ := hok
      subst ho hb
      simp only [wfExpr.wfExprList, Bool.and_eq_true] at hwf
      obtain ⟨hwc, hwcs⟩ := hwf
      obtain ⟨hls, hb1⟩ := format_block_comment_out hc heq1
      subst hls hb1
      have hrec := ih2 hwcs ds2 b2 heq2
      simp only [node_comments_of_comment hc, out_comments_append, out_comments_cons, out_comments_nil,
      out_comments_singleton, out_comments_commentDocs, node_comments,
      node_comments.node_commentsList, msOf_append, msOf_nil,
      buf_comments_append, buf_comments_nil, List.append_nil,
      List.nil_append, doc_comments_commentDoc] at hrec ⊢
      refine Multiset.ext.2 fun a => ?_
      have e1 := congrArg (Multiset.count a) hrec
      simp only [Multiset.count_add, Multiset.count_zero] at e1 ⊢
      omega
  case case90 =>
    intro ua un b c cs hc e heq ih hwf out b2 hok
    rw [and_loop, if_neg hc] at hok
    rw [heq] at hok
    exact Except.noConfusion hok
  case case91 =>
    intro ua un b c cs hc ds b1 heq1 e heq2 ih1 ih2 hwf out b2 hok
    rw [and_loop, if_neg hc] at hok
    simp only [heq1] at hok
    split at hok
    · exact Except.noConfusion hok
    next out3 b3 heq3 =>
      rw [heq2] at heq3
      exact Except.noConfusion heq3
  case case92 =>
    intro ua un b c cs hc ds b1 heq1 ds2 b2 heq2 ih1 ih2 hwf out b3 hok
    rw [and_loop, if_neg hc] at hok
    simp only [heq1] at hok
    split at hok
    · exact Except.noConfusion hok
    next out4 b4 heq3 =>
      rw [heq2] at heq3
      cases heq3
      simp only [Except.ok.injEq, Prod.mk.injEq] at hok
      obtain ⟨ho, hb⟩ := hok
      subst ho hb
      simp only [wfExpr.wfExprList, Bool.and_eq_true] at hwf
      obtain ⟨hwc, hwcs⟩ := hwf
      have hc1 := ih1 hwc ds b1 heq1
      have hrec := ih2 hwcs ds2 b2 heq2
      simp only [out_comments_append, out_comments_cons, out_comments_nil,
      out_comments_singleton, out_comments_commentDocs, node_comments,
      node_comments.node_commentsList, msOf_append, msOf_nil,
      buf_comments_append, buf_comments_nil, List.append_nil,
      List.nil_append] at hc1 hrec ⊢
      refine Multiset.ext.2 fun a => ?_
      have e1 := congrArg (Multiset.count a) hc1
      have e2 := congrArg (Multiset.count a) hrec
      simp only [Multiset.count_add, Multiset.count_zero] at e1 e2 ⊢
      omega
  case case93 =>
    intro b hwf out b2 hok
    rw [block_loop] at hok
    simp only [Except.ok.injEq, Prod.mk.injEq] at hok
    obtain ⟨ho, hb⟩ := hok
    subst ho hb
    simp [out_comments_nil, msOf_nil, node_comments.node_commentsList]
  case case94 =>
    intro b c cs e heq ih hwf out b2 hok
    rw [block_loop] at hok
    rw [heq] at hok
    exact Except.noConfusion hok
  case case95 =>
    intro b c cs b1 heq1 ih1 ih2 hwf out b2 hok
    rw [block_loop] at hok
    simp only [heq1] at hok
    simp only [wfExpr.wfExprList, Bool.and_eq_true] at hwf
    obtain ⟨hwc, hwcs⟩ := hwf
    have hc1 := ih1 hwc [] b1 heq1
    have hrec := ih2 hwcs out b2 hok
    simp only [out_comments_append, out_comments_cons, out_comments_nil,
      out_comments_singleton, out_comments_commentDocs, node_comments,
      node_comments.node_commentsList, msOf_append, msOf_nil,
      buf_comments_append, buf_comments_nil, List.append_nil,
      List.nil_append] at hc1 hrec ⊢
    refine Multiset.ext.2 fun a => ?_
    have e1 := congrArg (Multiset.count a) hc1
    have e2 := congrArg (Multiset.count a) hrec
    simp only [Multiset.count_add, Multiset.count_zero] at e1 e2 ⊢
    omega
  case case96 =>
    intro b c cs ds b1 heq1 p e heq2 hne ih1 ih2 hwf out b2 hok
    have hp : p = get_formatted_comments b1 := rfl
    rw [hp] at heq2
    rw [block_loop] at hok
    cases ds with
    | nil => exact absurd rfl hne
    | cons dd dds =>
      simp only [heq1] at hok
      split at hok
      · exact Except.noConfusion hok
      next out3 b3 heq3 =>
        rw [heq2] at heq3
        exact Except.noConfusion heq3
  case case97 =>
    intro b c cs ds b1 heq1 p ds2 b2c heq2 hne ih1 ih2 hwf out b3 hok
    have hp : p = get_formatted_comments b1 := rfl
    rw [hp] at heq2 ih2
    rw [block_loop] at hok
    cases ds with
    | nil => exact absurd rfl hne
    | cons dd dds =>
      simp only [heq1] at hok
      split at hok
      · exact Except.noConfusion hok
      next out4 b4 heq3 =>
        rw [heq2] at heq3
        cases heq3
        simp only [Except.ok.injEq, Prod.mk.injEq] at hok
        obtain ⟨ho, hb⟩ := hok
        subst ho hb
        simp only [wfExpr.wfExprList, Bool.and_eq_true] at hwf
        obtain ⟨hwc, hwcs⟩ := hwf
        have hc1 := ih1 hwc (dd :: dds) b1 heq1
        simp only [get_formatted_comments] at heq2 ih2 ⊢
        have hrec := ih2 hwcs ds2 b2c heq2
        simp only [buf_comments_nil, msOf_nil, zero_add] at hrec
        simp only [out_comments_append, out_comments_cons, out_comments_nil,
      out_comments_singleton, out_comments_commentDocs, node_comments,
      node_comments.node_commentsList, msOf_append, msOf_nil,
      buf_comments_append, buf_comments_nil, List.append_nil,
      List.nil_append] at hc1 hrec ⊢
        refine Multiset.ext.2 fun a => ?_
        have e1 := congrArg (Multiset.count a) hc1
        have e2 := congrArg (Multiset.count a) hrec
        simp only [Multiset.count_add, Multiset.count_zero] at e1 e2 ⊢
        omega
  case case98 =>
    intro b hwf out b2 hok
    rw [ctx_loop] at hok
    simp only [Except.ok.injEq, Prod.mk.injEq] at hok
    obtain ⟨ho, hb⟩ := hok
    subst ho hb
    simp [out_comments_nil, msOf_nil, node_comments.node_commentsList]
  case case99 =>
    intro b c cs e heq ih hwf out b2 hok
    rw [ctx_loop] at hok
    rw [heq] at hok
    exact Except.noConfusion hok
  case case100 =>
    intro b c cs ds b1 heq1 p e heq2 ih1 ih2 hwf out b2 hok
    have hp : p = get_formatted_comments b1 := rfl
    rw [hp] at heq2
    rw [ctx_loop] at hok
    simp only [heq1] at hok
    split at hok
    · exact Except.noConfusion hok
    next out3 b3 heq3 =>
      rw [heq2] at heq3
      exact Except.noConfusion heq3
  case case101 =>
    intro b c cs ds b1 heq1 p ds2 b2c heq2 ih1 ih2 hwf out b3 hok
    have hp : p = get_formatted_comments b1 := rfl
    rw [hp] at heq2 ih2
    rw [ctx_loop] at hok
    simp only [heq1] at hok
    split at hok
    · exact Except.noConfusion hok
    next out4 b4 heq3 =>
      rw [heq2] at heq3
      cases heq3
      simp only [Except.ok.injEq, Prod.mk.injEq] at hok
      obtain ⟨ho, hb⟩ := hok
      subst ho hb
      simp only [wfExpr.wfExprList, Bool.and_eq_true] at hwf
      obtain ⟨hwc, hwcs⟩ := hwf
      have hc1 := ih1 hwc ds b1 heq1
      simp only [get_formatted_comments] at heq2 ih2 ⊢
      have hrec := ih2 hwcs ds2 b2c heq2
      simp only [buf_comments_nil, msOf_nil, zero_add] at hrec
      simp only [out_comments_append, out_comments_cons, out_comments_nil,
      out_comments_singleton, out_comments_commentDocs, node_comments,
      node_comments.node_commentsList, msOf_append, msOf_nil,
      buf_comments_append, buf_comments_nil, List.append_nil,
      List.nil_append] at hc1 hrec ⊢
      refine Multiset.ext.2 fun a => ?_
      have e1 := congrArg (Multiset.count a) hc1
      have e2 := congrArg (Multiset.count a) hrec
      simp only [Multiset.count_add, Multiset.count_zero] at e1 e2 ⊢
      omega
  case case102 =>
    intro ihdr cb sb b hwf hcb hsb hal out b2 hok
    rw [sf_loop] at hok
    simp only [Except.ok.injEq, Prod.mk.injEq] at hok
    obtain ⟨ho, hb⟩ := hok
    subst ho hb
    have hct := create_tables_comments sb hsb
    cases ihdr with
    | false =>
      rw [hcb rfl]
      cases hat : cfg.align_short_commands.isTrue with
      | false =>
        rw [hal hat]
        simp [out_comments_nil, msOf_nil, node_comments.node_commentsList]
      | true =>
        simp only [hat, Bool.false_eq_true, if_false, if_true, List.nil_append]
        simp only [out_comments_append, out_comments_cons, out_comments_nil,
      out_comments_singleton, out_comments_commentDocs, node_comments,
      node_comments.node_commentsList, msOf_append, msOf_nil,
      buf_comments_append, buf_comments_nil, List.append_nil,
      List.nil_append, hct]
        refine Multiset.ext.2 fun a => ?_
        simp only [Multiset.count_add, Multiset.count_zero]
        omega
    | true =>
      cases hat : cfg.align_short_commands.isTrue with
      | false =>
        rw [hal hat]
        simp only [hat, Bool.false_eq_true, if_false, if_true, List.append_nil]
        simp only [out_comments_append, out_comments_cons, out_comments_nil,
      out_comments_singleton, out_comments_commentDocs, node_comments,
      node_comments.node_commentsList, msOf_append, msOf_nil,
      buf_comments_append, buf_comments_nil, List.append_nil,
      List.nil_append, doc_comments_Text]
        refine Multiset.ext.2 fun a => ?_
        simp only [Multiset.count_add, Multiset.count_zero]
        omega
      | true =>
        simp only [hat, Bool.false_eq_true, if_false, if_true]
        simp only [out_comments_append, out_comments_cons, out_comments_nil,
      out_comments_singleton, out_comments_commentDocs, node_comments,
      node_comments.node_commentsList, msOf_append, msOf_nil,
      buf_comments_append, buf_comments_nil, List.append_nil,
      List.nil_append, doc_comments_Text, hct]
        refine Multiset.ext.2 fun a => ?_
        simp only [Multiset.count_add, Multiset.count_zero]
        omega
  case case103 =>
    intro ihdr cb sb b c cs h1 e heq ih hwf hcb hsb hal out b2 hok
    rw [sf_loop, if_pos h1] at hok
    rw [heq] at hok
    exact Except.noConfusion hok
  case case104 =>
    intro ihdr cb sb b c cs h1 d b2 heq1 ih1 ih2 hwf hcb hsb hal out b3 hok
    rw [sf_loop, if_pos h1] at hok
    simp only [heq1] at hok
    simp only [wfExpr.wfExprList, Bool.and_eq_true] at hwf
    obtain ⟨hwc, hwcs⟩ := hwf
    have h1c := h1
    simp only [Bool.and_eq_true] at h1c
    obtain ⟨hhd, hcm⟩ := h1c
    obtain ⟨hd, hb2⟩ := format_comment_out hcm heq1
    subst hd hb2
    have hrec := ih2 hwcs (by intro hf; rw [hf] at hhd; exact Bool.noConfusion hhd)
      hsb hal out b3 hok
    simp only [node_comments_of_comment hcm, doc_comments_commentDoc,
      out_comments_append, out_comments_cons, out_comments_nil,
      out_comments_singleton, out_comments_commentDocs, node_comments,
      node_comments.node_commentsList, msOf_append, msOf_nil,
      buf_comments_append, buf_comments_nil, List.append_nil,
      List.nil_append] at hrec ⊢
    refine Multiset.ext.2 fun a => ?_
    have e1 := congrArg (Multiset.count a) hrec
    simp only [Multiset.count_add, Multiset.count_zero] at e1 ⊢
    omega
  case case105 =>
    intro cb sb b c cs h2 e heq hn1 ih hwf hcb hsb hal out b2 hok
    have htt : (true : Bool) = true := rfl
    rw [sf_loop, if_neg hn1, if_pos h2, if_pos htt] at hok
    rw [heq] at hok
    exact Except.noConfusion hok
  case case106 =>
    intro cb sb b c cs h2 ds b1 heq1 e hn1 heq2 ih1 ih2 hwf hcb hsb hal out b2 hok
    have htt : (true : Bool) = true := rfl
    rw [sf_loop, if_neg hn1, if_pos h2, if_pos htt] at hok
    simp only [heq1] at hok
    split at hok
    · exact Except.noConfusion hok
    next out3 b3 heq3 =>
      rw [heq2] at heq3
      exact Except.noConfusion heq3
  case case107 =>
    intro cb sb b c cs h2 ds b1 heq1 ds2 b2c hn1 heq2 ih1 ih2 hwf hcb hsb hal out b3 hok
    have htt : (true : Bool) = true := rfl
    rw [sf_loop, if_neg hn1, if_pos h2, if_pos htt] at hok
    simp only [heq1] at hok
    split at hok
    · exact Except.noConfusion hok
    next out4 b4 heq3 =>
      rw [heq2] at heq3
      cases heq3
      simp only [Except.ok.injEq, Prod.mk.injEq] at hok
      obtain ⟨ho, hb⟩ := hok
      subst ho hb
      simp only [wfExpr.wfExprList, Bool.and_eq_true] at hwf
      obtain ⟨hwc, hwcs⟩ := hwf
      have hc1 := ih1 hwc ds b1 heq1
      have hrec := ih2 hwcs (fun hf => rfl) hsb hal ds2 b2c heq2
      simp only [out_comments_append, out_comments_cons, out_comments_nil,
      out_comments_singleton, out_comments_commentDocs, node_comments,
      node_comments.node_commentsList, msOf_append, msOf_nil,
      buf_comments_append, buf_comments_nil, List.append_nil,
      List.nil_append] at hc1 hrec ⊢
      refine Multiset.ext.2 fun a => ?_
      have e1 := congrArg (Multiset.count a) hc1
      have e2 := congrArg (Multiset.count a) hrec
      simp only [Multiset.count_add, Multiset.count_zero] at e1 e2 ⊢
      omega
  case case108 =>
    intro ihdr cb sb b c cs hn1 h2 hnh hwf hcb hsb hal out b2 hok
    rw [sf_loop, if_neg hn1, if_pos h2, if_neg hnh] at hok
    exact Except.noConfusion hok
  case case109 =>
    intro ihdr cb sb b c cs hn1 hn2 h3 h4 e heq ih hwf hcb hsb hal out b2 hok
    rw [sf_loop, if_neg hn1, if_neg hn2] at hok
    simp only [h3, h4, eq_self_iff_true, if_true, heq] at hok
    exact Except.noConfusion hok
  case case110 =>
    intro ihdr cb sb b c cs hn1 hn2 emitSep cbuf2 inHeader2 h3 h4 ds b1 heq1 e heq2 ih1 ih2 hwf hcb hsb hal out b2 hok
    have hc2 : cbuf2 = (if h : (ihdr && c.isBodyOnly) = true then
        ([] : List Doc) else cb) := rfl
    have hh2 : inHeader2 = (if h : (ihdr && c.isBodyOnly) = true then
        false else ihdr) := rfl
    rw [hc2, hh2] at heq2
    simp only [dite_eq_ite] at heq2
    rw [sf_loop, if_neg hn1, if_neg hn2] at hok
    simp only [h3, h4, eq_self_iff_true, if_true, heq1] at hok
    split at hok
    · exact Except.noConfusion hok
    next out3 b3 heq3 =>
      rw [heq2] at heq3
      exact Except.noConfusion heq3
  case case111 =>
    intro ihdr cb sb b c cs hn1 hn2 emitSep cbuf2 inHeader2 h3 h4 ds b1 heq1 ds2 b2c heq2 ih1 ih2 hwf hcb hsb hal out b3 hok
    have hc2 : cbuf2 = (if h : (ihdr && c.isBodyOnly) = true then
        ([] : List Doc) else cb) := rfl
    have hh2 : inHeader2 = (if h : (ihdr && c.isBodyOnly) = true then
        false else ihdr) := rfl
    rw [hc2, hh2] at heq2 ih2
    simp only [dite_eq_ite] at heq2 ih2
    rw [sf_loop, if_neg hn1, if_neg hn2] at hok
    simp only [h3, h4, eq_self_iff_true, if_true, heq1] at hok
    split at hok
    · exact Except.noConfusion hok
    next out4 b4 heq3 =>
      rw [heq2] at heq3
      cases heq3
      simp only [Except.ok.injEq, Prod.mk.injEq] at hok
      obtain ⟨ho, hb⟩ := hok
      subst ho hb
      simp only [wfExpr.wfExprList, Bool.and_eq_true] at hwf
      obtain ⟨hwc, hwcs⟩ := hwf
      have h4c := h4
      simp only [Bool.and_eq_true] at h4c
      have hcat : ∀ x ∈ sb ++ ds, isCatAlt x = true := by
        intro x hx
        rcases List.mem_append.1 hx with hx | hx
        · exact hsb x hx
        · exact top_child_out_catAlt cfg c (wfTop_of_isCommand h4c.1)
            b ds b1 heq1 x hx
      have hc1 := ih1 hwc ds b1 heq1
      have hAr : ((if (ihdr && c.isBodyOnly) = true then false else ihdr) =
          false →
          (if (ihdr && c.isBodyOnly) = true then ([] : List Doc) else cb) =
            []) := by
        by_cases hes : (ihdr && c.isBodyOnly) = true
        · intro hf
          rw [if_pos hes]
        · intro hf
          rw [if_neg hes] at hf ⊢
          exact hcb hf
      have hCr : cfg.align_short_commands.isTrue = false → sb ++ ds = [] := by
        intro hf
        rw [hf] at h3
        exact Bool.noConfusion h3
      have hrec := ih2 hwcs hAr hcat hCr ds2 b2c heq2
      by_cases hes : (ihdr && c.isBodyOnly) = true
      · rw [if_pos hes]
        rw [if_pos hes] at hrec
        simp only [out_comments_append, out_comments_cons, out_comments_nil,
      out_comments_singleton, out_comments_commentDocs, node_comments,
      node_comments.node_commentsList, msOf_append, msOf_nil,
      buf_comments_append, buf_comments_nil, List.append_nil,
      List.nil_append, doc_comments_Text] at hc1 hrec ⊢
        refine Multiset.ext.2 fun a => ?_
        have e1 := congrArg (Multiset.count a) hc1
        have e2 := congrArg (Multiset.count a) hrec
        simp only [Multiset.count_add, Multiset.count_zero] at e1 e2 ⊢
        omega
      · rw [if_neg hes]
        rw [if_neg hes] at hrec
        simp only [out_comments_append, out_comments_cons, out_comments_nil,
      out_comments_singleton, out_comments_commentDocs, node_comments,
      node_comments.node_commentsList, msOf_append, msOf_nil,
      buf_comments_append, buf_comments_nil, List.append_nil,
      List.nil_append] at hc1 hrec ⊢
        refine Multiset.ext.2 fun a => ?_
        have e1 := congrArg (Multiset.count a) hc1
        have e2 := congrArg (Multiset.count a) hrec
        simp only [Multiset.count_add, Multiset.count_zero] at e1 e2 ⊢
        omega
  case case112 =>
    intro ihdr cb sb b c cs hn1 hn2 h3 hn4 e heq ih hwf hcb hsb hal out b2 hok
    rw [sf_loop, if_neg hn1, if_neg hn2] at hok
    simp only [h3, eq_self_iff_true, if_true, if_neg hn4, heq] at hok
    exact Except.noConfusion hok
  case case113 =>
    intro ihdr cb sb b c cs hn1 hn2 emitSep cbuf2 inHeader2 h3 hn4 ds b1 heq1 e heq2 ih1 ih2 hwf hcb hsb hal out b2 hok
    have hc2 : cbuf2 = (if h : (ihdr && c.isBodyOnly) = true then
        ([] : List Doc) else cb) := rfl
    have hh2 : inHeader2 = (if h : (ihdr && c.isBodyOnly) = true then
        false else ihdr) := rfl
    rw [hc2, hh2] at heq2
    simp only [dite_eq_ite] at heq2
    rw [sf_loop, if_neg hn1, if_neg hn2] at hok
    simp only [h3, eq_self_iff_true, if_true, if_neg hn4, heq1] at hok
    split at hok
    · exact Except.noConfusion hok
    next out3 b3 heq3 =>
      rw [heq2] at heq3
      exact Except.noConfusion heq3
  case case114 =>
    intro ihdr cb sb b c cs hn1 hn2 emitSep cbuf2 inHeader2 h3 hn4 ds b1 heq1 ds2 b2c heq2 ih1 ih2 hwf hcb hsb hal out b3 hok
    have hc2 : cbuf2 = (if h : (ihdr && c.isBodyOnly) = true then
        ([] : List Doc) else cb) := rfl
    have hh2 : inHeader2 = (if h : (ihdr && c.isBodyOnly) = true then
        false else ihdr) := rfl
    rw [hc2, hh2] at heq2 ih2
    simp only [dite_eq_ite] at heq2 ih2
    rw [sf_loop, if_neg hn1, if_neg hn2] at hok
    simp only [h3, eq_self_iff_true, if_true, if_neg hn4, heq1] at hok
    split at hok
    · exact Except.noConfusion hok
    next out4 b4 heq3 =>
      rw [heq2] at heq3
      cases heq3
      simp only [Except.ok.injEq, Prod.mk.injEq] at hok
      obtain ⟨ho, hb⟩ := hok
      subst ho hb
      simp only [wfExpr.wfExprList, Bool.and_eq_true] at hwf
      obtain ⟨hwc, hwcs⟩ := hwf
      have hct := create_tables_comments sb hsb
      have hc1 := ih1 hwc ds b1 heq1
      have hAr : ((if (ihdr && c.isBodyOnly) = true then false else ihdr) =
          false →
          (if (ihdr && c.isBodyOnly) = true then ([] : List Doc) else cb) =
            []) := by
        by_cases hes : (ihdr && c.isBodyOnly) = true
        · intro hf
          rw [if_pos hes]
        · intro hf
          rw [if_neg hes] at hf ⊢
          exact hcb hf
      have hBr : ∀ d ∈ ([] : List Doc), isCatAlt d = true := by
        intro d hd
        simp at hd
      have hCr : cfg.align_short_commands.isTrue = false → True :=
        fun hf => trivial
      have hrec := ih2 hwcs hAr hBr hCr ds2 b2c heq2
      by_cases hes : (ihdr && c.isBodyOnly) = true
      · rw [if_pos hes]
        rw [if_pos hes] at hrec
        simp only [out_comments_append, out_comments_cons, out_comments_nil,
      out_comments_singleton, out_comments_commentDocs, node_comments,
      node_comments.node_commentsList, msOf_append, msOf_nil,
      buf_comments_append, buf_comments_nil, List.append_nil,
      List.nil_append, doc_comments_Text, hct] at hc1 hrec ⊢
        refine Multiset.ext.2 fun a => ?_
        have e1 := congrArg (Multiset.count a) hc1
        have e2 := congrArg (Multiset.count a) hrec
        simp only [Multiset.count_add, Multiset.count_zero] at e1 e2 ⊢
        omega
      · rw [if_neg hes]
        rw [if_neg hes] at hrec
        simp only [out_comments_append, out_comments_cons, out_comments_nil,
      out_comments_singleton, out_comments_commentDocs, node_comments,
      node_comments.node_commentsList, msOf_append, msOf_nil,
      buf_comments_append, buf_comments_nil, List.append_nil,
      List.nil_append, hct] at hc1 hrec ⊢
        refine Multiset.ext.2 fun a => ?_
        have e1 := congrArg (Multiset.count a) hc1
        have e2 := congrArg (Multiset.count a) hrec
        simp only [Multiset.count_add, Multiset.count_zero] at e1 e2 ⊢
        omega
  case case115 =>
    intro ihdr cb sb b c cs hn1 hn2 hn3 e heq ih hwf hcb hsb hal out b2 hok
    rw [sf_loop, if_neg hn1, if_neg hn2, if_neg hn3] at hok
    rw [heq] at hok
    exact Except.noConfusion hok
  case case116 =>
    intro ihdr cb sb b c cs hn1 hn2 emitSep cbuf2 inHeader2 hn3 ds b1 heq1 e heq2 ih1 ih2 hwf hcb hsb hal out b2 hok
    have hc2 : cbuf2 = (if h : (ihdr && c.isBodyOnly) = true then
        ([] : List Doc) else cb) := rfl
    have hh2 : inHeader2 = (if h : (ihdr && c.isBodyOnly) = true then
        false else ihdr) := rfl
    rw [hc2, hh2] at heq2
    simp only [dite_eq_ite] at heq2
    rw [sf_loop, if_neg hn1, if_neg hn2, if_neg hn3] at hok
    simp only [heq1] at hok
    split at hok
    · exact Except.noConfusion hok
    next out3 b3 heq3 =>
      rw [heq2] at heq3
      exact Except.noConfusion heq3
  case case117 =>
    intro ihdr cb sb b c cs hn1 hn2 emitSep cbuf2 inHeader2 hn3 ds b1 heq1 ds2 b2c heq2 ih1 ih2 hwf hcb hsb hal out b3 hok
    have hc2 : cbuf2 = (if h : (ihdr && c.isBodyOnly) = true then
        ([] : List Doc) else cb) := rfl
    have hh2 : inHeader2 = (if h : (ihdr && c.isBodyOnly) = true then
        false else ihdr) := rfl
    rw [hc2, hh2] at heq2 ih2
    simp only [dite_eq_ite] at heq2 ih2
    rw [sf_loop, if_neg hn1, if_neg hn2, if_neg hn3] at hok
    simp only [heq1] at hok
    split at hok
    · exact Except.noConfusion hok
    next out4 b4 heq3 =>
      rw [heq2] at heq3
      cases heq3
      simp only [Except.ok.injEq, Prod.mk.injEq] at hok
      obtain ⟨ho, hb⟩ := hok
      subst ho hb
      simp only [wfExpr.wfExprList, Bool.and_eq_true] at hwf
      obtain ⟨hwc, hwcs⟩ := hwf
      have hc1 := ih1 hwc ds b1 heq1
      have hAr : ((if (ihdr && c.isBodyOnly) = true then false else ihdr) =
          false →
          (if (ihdr && c.isBodyOnly) = true then ([] : List Doc) else cb) =
            []) := by
        by_cases hes : (ihdr && c.isBodyOnly) = true
        · intro hf
          rw [if_pos hes]
        · intro hf
          rw [if_neg hes] at hf ⊢
          exact hcb hf
      have hrec := ih2 hwcs hAr hsb hal ds2 b2c heq2
      by_cases hes : (ihdr && c.isBodyOnly) = true
      · rw [if_pos hes]
        rw [if_pos hes] at hrec
        simp only [out_comments_append, out_comments_cons, out_comments_nil,
      out_comments_singleton, out_comments_commentDocs, node_comments,
      node_comments.node_commentsList, msOf_append, msOf_nil,
      buf_comments_append, buf_comments_nil, List.append_nil,
      List.nil_append, doc_comments_Text] at hc1 hrec ⊢
        refine Multiset.ext.2 fun a => ?_
        have e1 := congrArg (Multiset.count a) hc1
        have e2 := congrArg (Multiset.count a) hrec
        simp only [Multiset.count_add, Multiset.count_zero] at e1 e2 ⊢
        omega
      · rw [if_neg hes]
        rw [if_neg hes] at hrec
        simp only [out_comments_append, out_comments_cons, out_comments_nil,
      out_comments_singleton, out_comments_commentDocs, node_comments,
      node_comments.node_commentsList, msOf_append, msOf_nil,
      buf_comments_append, buf_comments_nil, List.append_nil,
      List.nil_append] at hc1 hrec ⊢
        refine Multiset.ext.2 fun a => ?_
        have e1 := congrArg (Multiset.count a) hc1
        have e2 := congrArg (Multiset.count a) hrec
        simp only [Multiset.count_add, Multiset.count_zero] at e1 e2 ⊢
        omega
  case case118 =>
    intro b hcm hwl ds b2 hok
    rw [format_children] at hok
    simp only [Except.ok.injEq, Prod.mk.injEq] at hok
    obtain ⟨hd, hb⟩ := hok
    subst hd hb
    refine ⟨by simp [node_comments.node_commentsList, msOf_nil], ?_⟩
    intro d hd
    simp at hd
  case case119 =>
    intro b c cs hc ih hcm hwl ds b2 hok
    rw [format_children, if_pos hc] at hok
    simp only [wfExpr.wfExprList, Bool.and_eq_true] at hwl
    obtain ⟨hwc, hwcs⟩ := hwl
    obtain ⟨hbc, hhf⟩ := ih (fun x hx => hcm x (by simp [hx])) hwcs ds b2 hok
    refine ⟨?_, hhf⟩
    simp only [node_comments_of_comment hc, buf_comments_singleton,
      out_comments_append, out_comments_cons, out_comments_nil,
      out_comments_singleton, out_comments_commentDocs, node_comments,
      node_comments.node_commentsList, msOf_append, msOf_nil,
      buf_comments_append, buf_comments_nil, List.append_nil,
      List.nil_append] at hbc ⊢
    refine Multiset.ext.2 fun a => ?_
    have e1 := congrArg (Multiset.count a) hbc
    simp only [Multiset.count_add, Multiset.count_zero] at e1 ⊢
    omega
  case case120 =>
    intro b c cs hc e heq ih hcm hwl ds b2 hok
    rw [format_children, if_neg hc] at hok
    rw [heq] at hok
    exact Except.noConfusion hok
  case case121 =>
    intro b c cs hc d b2 heq1 e heq2 ih1 ih2 hcm hwl ds b3 hok
    rw [format_children, if_neg hc] at hok
    simp only [heq1] at hok
    split at hok
    · exact Except.noConfusion hok
    next ds4 b4 heq3 =>
      rw [heq2] at heq3
      exact Except.noConfusion heq3
  case case122 =>
    intro b c cs hc d b2 heq1 ds b1 heq2 ih1 ih2 hcm hwl dds b3 hok
    rw [format_children, if_neg hc] at hok
    simp only [heq1] at hok
    split at hok
    · exact Except.noConfusion hok
    next ds4 b4 heq3 =>
      rw [heq2] at heq3
      cases heq3
      simp only [Except.ok.injEq, Prod.mk.injEq] at hok
      obtain ⟨ho, hb⟩ := hok
      subst ho hb
      simp only [wfExpr.wfExprList, Bool.and_eq_true] at hwl
      obtain ⟨hwc, hwcs⟩ := hwl
      have hexp : isExprPos c = true := by
        have := hcm c (by simp)
        simp only [Bool.or_eq_true] at this
        rcases this with h | h
        · rw [h] at hc
          exact absurd rfl hc
        · exact h
      obtain ⟨hc1, hf1⟩ := ih1 hwc d b2 heq1
      obtain ⟨hbc, hhf⟩ := ih2 (fun x hx => hcm x (by simp [hx])) hwcs ds b1 heq2
      refine ⟨?_, ?_⟩
      · rw [hash_free_doc_comments (hf1 hexp), msOf_nil, zero_add] at hc1
        simp only [out_comments_append, out_comments_cons, out_comments_nil,
      out_comments_singleton, out_comments_commentDocs, node_comments,
      node_comments.node_commentsList, msOf_append, msOf_nil,
      buf_comments_append, buf_comments_nil, List.append_nil,
      List.nil_append] at hc1 hbc ⊢
        refine Multiset.ext.2 fun a => ?_
        have e1 := congrArg (Multiset.count a) hc1
        have e2 := congrArg (Multiset.count a) hbc
        simp only [Multiset.count_add, Multiset.count_zero] at e1 e2 ⊢
        omega
      · intro x hx
        rcases List.mem_cons.1 hx with rfl | hx
        · exact hf1 hexp
        · exact hhf x hx

/-- isLeafExpr marks the leaf expression kinds; their handlers never touch
the comment buffer. -/
def isLeafExpr : TalonNode → Bool
  | .word _ => true
  | .identifier _ => true
  | .implicitString _ => true
  | _ => false

/-- isStmtKind marks the statement kinds a script block holds in the
parser's output: comments, docstrings, and assignments / expression
statements over leaf expressions with no stray children. -/
def isStmtKind : TalonNode → Bool
  | .comment _ => true
  | .docstring _ => true
  | .assignment _ l r cs => isLeafExpr l && isLeafExpr r && cs.isEmpty
  | .exprStmt _ e cs => isLeafExpr e && cs.isEmpty
  | _ => false

/-- wfTopBuf is the shape of the top-level children the parser yields, as
far as the buffer invariant needs it: contexts are unconstrained, a tag
include carries a leaf expression, settings blocks and command scripts
hold statements, and commands' own extra children are comments. -/
def wfTopBuf : TalonNode → Bool
  | .comment _ => true
  | .docstring _ => true
  | .error _ => true
  | .context _ _ => true
  | .includeTag _ t _ => isLeafExpr t
  | .settings _ cs =>
      cs.all (fun x => x.isComment ||
        (x.isBlock && x.childrenList.all isStmtKind))
  | .command _ _ s cs =>
      cs.all TalonNode.isComment && s.childrenList.all isStmtKind
  | .assignment _ l r cs => isLeafExpr l && isLeafExpr r && cs.isEmpty
  | .exprStmt _ e cs => isLeafExpr e && cs.isEmpty
  | _ => false

theorem leaf_format_buf {cfg : Cfg} {e : TalonNode} {buf : Buf} {d : Doc}
    {b1 : Buf} (hl : isLeafExpr e = true)
    (h : format cfg e buf = .ok (d, b1)) : b1 = buf := by
  cases e <;> try exact Bool.noConfusion hl
  all_goals
    rw [format] at h
    simp only [Except.ok.injEq, Prod.mk.injEq] at h
    exact h.2.symm

theorem assert_only_comments_nil (buf : Buf) :
    assert_only_comments [] buf = .ok buf := rfl

theorem stmt_block_empty {cfg : Cfg} {c : TalonNode} {buf : Buf}
    {ls : List Doc} {b1 : Buf} (hs : isStmtKind c = true)
    (h : format_block cfg c buf = .ok (ls, b1)) :
    ls ≠ [] ∧ b1 = buf := by
  cases c <;> try exact Bool.noConfusion hs
  case comment i =>
    rw [format_block] at h
    simp only [Except.ok.injEq, Prod.mk.injEq] at h
    exact ⟨by rw [← h.1]; exact fun hx => List.noConfusion hx, h.2.symm⟩
  case docstring i =>
    rw [format_block] at h
    simp only [Except.ok.injEq, Prod.mk.injEq] at h
    exact ⟨by rw [← h.1]; exact fun hx => List.noConfusion hx, h.2.symm⟩
  case assignment i l r cs =>
    simp only [isStmtKind, Bool.and_eq_true] at hs
    obtain ⟨⟨hll, hlr⟩, hcs⟩ := hs
    rw [List.isEmpty_iff.1 hcs] at h
    rw [format_block] at h
    simp only [assert_only_comments_nil] at h
    split at h
    · exact Except.noConfusion h
    next ld b2 heq1 =>
      split at h
      · exact Except.noConfusion h
      next rd b3 heq2 =>
        simp only [Except.ok.injEq, Prod.mk.injEq] at h
        obtain ⟨h1, h2⟩ := h
        subst h1 h2
        refine ⟨fun hx => List.noConfusion hx, ?_⟩
        rw [leaf_format_buf hlr heq2, leaf_format_buf hll heq1]
  case exprStmt i e cs =>
    simp only [isStmtKind, Bool.and_eq_true] at hs
    obtain ⟨hle, hcs⟩ := hs
    rw [List.isEmpty_iff.1 hcs] at h
    rw [format_block] at h
    simp only [assert_only_comments_nil] at h
    split at h
    · exact Except.noConfusion h
    next d b2 heq1 =>
      simp only [Except.ok.injEq, Prod.mk.injEq] at h
      obtain ⟨h1, h2⟩ := h
      subst h1 h2
      exact ⟨fun hx => List.noConfusion hx, leaf_format_buf hle heq1⟩

theorem block_loop_empty (cfg : Cfg) :
    ∀ cs : List TalonNode, (∀ c ∈ cs, isStmtKind c = true) →
      ∀ out b1, block_loop cfg cs [] = .ok (out, b1) → b1 = [] := by
  intro cs
  induction cs with
  | nil =>
    intro hall out b1 h
    rw [block_loop] at h
    simp only [Except.ok.injEq, Prod.mk.injEq] at h
    exact h.2.symm
  | cons c rest ih =>
    intro hall out b1 h
    rw [block_loop] at h
    split at h
    · exact Except.noConfusion h
    next lines b2 heq1 =>
      obtain ⟨hne, hb2⟩ := stmt_block_empty (hall c (by simp)) heq1
      cases lines with
      | nil => exact absurd rfl hne
      | cons d dsx =>
        simp only [get_formatted_comments] at h
        split at h
        · exact Except.noConfusion h
        next out3 b3 heq2 =>
          simp only [Except.ok.injEq, Prod.mk.injEq] at h
          obtain ⟨h1, h2⟩ := h
          subst h1 h2
          exact ih (fun x hx => hall x (by simp [hx])) out3 b3 heq2

theorem ctx_loop_empty (cfg : Cfg) :
    ∀ cs : List TalonNode, ∀ out b1,
      ctx_loop cfg cs [] = .ok (out, b1) → b1 = [] := by
  intro cs
  induction cs with
  | nil =>
    intro out b1 h
    rw [ctx_loop] at h
    simp only [Except.ok.injEq, Prod.mk.injEq] at h
    exact h.2.symm
  | cons c rest ih =>
    intro out b1 h
    rw [ctx_loop] at h
    split at h
    · exact Except.noConfusion h
    next lines b2 heq1 =>
      simp only [get_formatted_comments] at h
      split at h
      · exact Except.noConfusion h
      next out3 b3 heq2 =>
        simp only [Except.ok.injEq, Prod.mk.injEq] at h
        obtain ⟨h1, h2⟩ := h
        subst h1 h2
        exact ih out3 b3 heq2

theorem top_child_empty {cfg : Cfg} {c : TalonNode} {ls : List Doc}
    {b1 : Buf} (hw : wfTopBuf c = true)
    (h : format_block cfg c [] = .ok (ls, b1)) : b1 = [] := by
  cases c <;> try exact Bool.noConfusion hw
  case comment i =>
    rw [format_block] at h
    simp only [Except.ok.injEq, Prod.mk.injEq] at h
    exact h.2.symm
  case docstring i =>
    rw [format_block] at h
    simp only [Except.ok.injEq, Prod.mk.injEq] at h
    exact h.2.symm
  case error i =>
    rw [format_block] at h
    exact Except.noConfusion h
  case context i cs =>
    rw [format_block] at h
    exact ctx_loop_empty cfg cs ls b1 h
  case includeTag i t cs =>
    rw [format_block] at h
    split at h
    · exact Except.noConfusion h
    next b2 heq1 =>
      simp only [get_formatted_comments] at h
      split at h
      · exact Except.noConfusion h
      next td b3 heq2 =>
        simp only [Except.ok.injEq, Prod.mk.injEq] at h
        obtain ⟨h1, h2⟩ := h
        subst h1 h2
        exact leaf_format_buf (by simpa [wfTopBuf] using hw) heq2
  case settings i cs =>
    rw [format_block] at h
    split at h
    · exact Except.noConfusion h
    next n b2 heq1 =>
      simp only [get_comments] at h
      split at h
      · exact Except.noConfusion h
      next ds b3 heq2 =>
        simp only [Except.ok.injEq, Prod.mk.injEq] at h
        obtain ⟨h1, h2⟩ := h
        subst h1 h2
        apply block_loop_empty cfg _ _ ds b3 heq2
        intro x hx
        rcases List.mem_append.1 hx with hx | hx
        · obtain ⟨j, hj, hxe⟩ := List.mem_map.1 hx
          subst hxe
          rfl
        · have hnm := get_node_with_type_mem heq1
          have hnb := get_node_with_type_block heq1
          have hnc := get_node_with_type_not_comment heq1
          have hw2 : cs.all (fun x => x.isComment ||
              (x.isBlock && x.childrenList.all isStmtKind)) = true := hw
          have hmem := List.all_eq_true.1 hw2 n hnm
          simp only [hnc, Bool.false_or, Bool.and_eq_true] at hmem
          exact List.all_eq_true.1 hmem.2 x hx
  case command i r s cs =>
    rw [format_block] at h
    split at h
    · exact Except.noConfusion h
    next rd b2 heq1 =>
      simp only [get_formatted_comments] at h
      split at h
      · exact Except.noConfusion h
      next ds b3 heq2 =>
        simp only [Except.ok.injEq, Prod.mk.injEq] at h
        obtain ⟨h1, h2⟩ := h
        subst h1 h2
        apply block_loop_empty cfg _ _ ds b3 heq2
        intro x hx
        simp only [wfTopBuf, Bool.and_eq_true] at hw
        rcases List.mem_append.1 hx with hx | hx
        · have hxc := List.all_eq_true.1 hw.1 x hx
          cases x <;> try exact Bool.noConfusion hxc
          rfl
        · exact List.all_eq_true.1 hw.2 x hx
  case assignment i l r cs =>
    exact (stmt_block_empty (by simpa [isStmtKind, wfTopBuf] using hw) h).2
  case exprStmt i e cs =>
    exact (stmt_block_empty (by simpa [isStmtKind, wfTopBuf] using hw) h).2

theorem sf_loop_buf_empty (cfg : Cfg) :
    ∀ (cs : List TalonNode) (ihdr : Bool) (cb sb : List Doc),
      (∀ c ∈ cs, wfTopBuf c = true) →
      ∀ out b1, sf_loop cfg cs ihdr cb sb [] = .ok (out, b1) → b1 = [] := by
  intro cs
  induction cs with
  | nil =>
    intro ihdr cb sb hall out b1 h
    rw [sf_loop] at h
    simp only [Except.ok.injEq, Prod.mk.injEq] at h
    exact h.2.symm
  | cons c rest ih =>
    intro ihdr cb sb hall out b1 h
    rw [sf_loop] at h
    by_cases h1 : (ihdr && c.isComment) = true
    · rw [if_pos h1] at h
      split at h
      · exact Except.noConfusion h
      next d b2 heq1 =>
        have h1c := h1
        simp only [Bool.and_eq_true] at h1c
        obtain ⟨-, hcm⟩ := h1c
        obtain ⟨-, hb2⟩ := format_comment_out hcm heq1
        subst hb2
        exact ih ihdr (cb ++ [d]) sb (fun x hx => hall x (by simp [hx]))
          out b1 h
    · rw [if_neg h1] at h
      by_cases h2 : c.isContext = true
      · rw [if_pos h2] at h
        cases ihdr with
        | false =>
          rw [if_neg (fun hx => Bool.noConfusion hx)] at h
          exact Except.noConfusion h
        | true =>
          rw [if_pos rfl] at h
          split at h
          · exact Except.noConfusion h
          next lsx b2 heq1 =>
            have hb2 : b2 = [] := top_child_empty (hall c (by simp)) heq1
            subst hb2
            split at h
            · exact Except.noConfusion h
            next out3 b3 heq2 =>
              simp only [Except.ok.injEq, Prod.mk.injEq] at h
              obtain ⟨h1x, h2x⟩ := h
              subst h2x
              exact ih true [] sb (fun x hx => hall x (by simp [hx]))
                out3 b3 heq2
      · rw [if_neg h2] at h
        by_cases h3 : cfg.align_short_commands.isTrue = true
        · simp only [h3, eq_self_iff_true, if_true] at h
          by_cases h4 : (c.isCommand && is_short_command c) = true
          · simp only [h4, eq_self_iff_true, if_true] at h
            split at h
            · exact Except.noConfusion h
            next lsx b2 heq1 =>
              have hb2 : b2 = [] := top_child_empty (hall c (by simp)) heq1
              subst hb2
              split at h
              · exact Except.noConfusion h
              next out3 b3 heq2 =>
                simp only [Except.ok.injEq, Prod.mk.injEq] at h
                obtain ⟨h1x, h2x⟩ := h
                subst h2x
                exact ih _ _ _ (fun x hx => hall x (by simp [hx]))
                  out3 b3 heq2
          · simp only [Bool.not_eq_true] at h4
            simp only [h4, Bool.false_eq_true, if_false] at h
            split at h
            · exact Except.noConfusion h
            next lsx b2 heq1 =>
              have hb2 : b2 = [] := top_child_empty (hall c (by simp)) heq1
              subst hb2
              split at h
              · exact Except.noConfusion h
              next out3 b3 heq2 =>
                simp only [Except.ok.injEq, Prod.mk.injEq] at h
                obtain ⟨h1x, h2x⟩ := h
                subst h2x
                exact ih _ _ _ (fun x hx => hall x (by simp [hx]))
                  out3 b3 heq2
        · simp only [Bool.not_eq_true] at h3
          simp only [h3, Bool.false_eq_true, if_false] at h
          split at h
          · exact Except.noConfusion h
          next lsx b2 heq1 =>
            have hb2 : b2 = [] := top_child_empty (hall c (by simp)) heq1
            subst hb2
            split at h
            · exact Except.noConfusion h
            next out3 b3 heq2 =>
              simp only [Except.ok.injEq, Prod.mk.injEq] at h
              obtain ⟨h1x, h2x⟩ := h
              subst h2x
              exact ih _ _ _ (fun x hx => hall x (by simp [hx]))
                out3 b3 heq2

/-- exOrderCtx is a context holding an `and` whose first child is a comment
line and whose second child is a match carrying its own comment child. -/
def exOrderCtx : TalonNode :=
  .context (mkInfo "" "context")
    [.andNode (mkInfo "" "and")
      [exComment "# cB",
       .matchNode (mkInfo "" "match") (exIdent "os") (exImplicit "linux")
         [exComment "# cA"]]]

/-- exMatchLine is the single line the match child of `exOrderCtx` renders
to under the plain configuration. -/
def exMatchLine : Doc :=
  Doc.altList (format_match_alternatives cfgPlain
    (Doc.catList (format_match_keywords false false ++
      [text_words "os" true]))
    (text_words (trimStr "linux") true))

/-- C9 (counterexample): formatting a context whose `and` child holds a
comment line followed by a match that carries its own comment child emits
the match's buffered comment (` cA`) above the whole group — before the
comment line (` cB`) that precedes it in the document — so the output
comment order inverts the original document order. -/
theorem comment_order_claim_false :
    format_block cfgPlain exOrderCtx [] =
      .ok ([commentDoc (mkInfo "# cA" "comment"),
            commentDoc (mkInfo "# cB" "comment"), exMatchLine], []) ∧
    out_comments [commentDoc (mkInfo "# cA" "comment"),
        commentDoc (mkInfo "# cB" "comment"), exMatchLine] =
      [" cA", " cB"] ∧
    node_comments exOrderCtx = [" cB", " cA"] := by
  refine ⟨?_, ?_, ?_⟩
  · simp [exOrderCtx, exComment, exIdent, exImplicit, mkInfo, format_block,
      format_block_match, ctx_loop, and_loop, assert_only_comments,
      store_comments, ntMatches, get_formatted_comments, format,
      exMatchLine, TalonNode.isComment, TalonNode.infoOf]
  · have hml : doc_comments exMatchLine = [] :=
      hash_free_doc_comments (by decide)
    rw [out_comments]
    simp only [List.map_cons, List.map_nil, List.flatten_cons,
      List.flatten_nil, doc_comments_commentDoc, hml]
    rfl
  · rfl

/-- C9 (amended): over a well-typed source file formatted from an empty
buffer, with top-level children of the shapes the parser yields, the
buffer is empty when control returns from the source-file loop, and no
comment is dropped: the multiset of comment texts in the output equals the
multiset of comment texts of the input tree.  The original document order
is not preserved in general (see the counterexample). -/
theorem comment_conservation_amended (cfg : Cfg) (i : NodeInfo)
    (cs : List TalonNode) (out : List Doc) (b' : Buf)
    (hwf : wfExpr (.sourceFile i cs) = true)
    (htop : ∀ c ∈ cs, wfTopBuf c = true)
    (hok : format_block cfg (.sourceFile i cs) [] = .ok (out, b')) :
    b' = [] ∧
      msOf (out_comments out) =
        msOf (node_comments (.sourceFile i cs)) := by
  have hb : b' = [] := by
    rw [format_block] at hok
    exact sf_loop_buf_empty cfg cs true [] [] htop out b' hok
  refine ⟨hb, ?_⟩
  have hc := format_block_comments cfg (.sourceFile i cs) [] hwf out b' hok
  rw [hb] at hc
  simpa [buf_comments_nil, msOf_nil] using hc

/-- C9 (witness): the amended conservation theorem at a one-comment file
under the plain configuration. -/
theorem comment_conservation_amended_witness :
    ([] : Buf) = [] ∧
      msOf (out_comments [Doc.Text "-",
        Doc.Cat (Doc.Text "#") (Doc.Text " c")]) =
        msOf (node_comments
          (.sourceFile (mkInfo "" "source_file") [exComment "# c"])) :=
  comment_conservation_amended cfgPlain (mkInfo "" "source_file")
    [exComment "# c"] [Doc.Text "-", Doc.Cat (Doc.Text "#") (Doc.Text " c")]
    [] (by rfl)
    (by
      intro c hc
      simp only [List.mem_singleton] at hc
      subst hc
      rfl)
    (by
      simp [format_block, sf_loop, format, commentDoc, text_words,
        stripHash, exComment, mkInfo, cfgPlain, PyVal.isTrue,
        TalonNode.isComment, TalonNode.infoOf])
